import Mathlib

/-!
# North-Carolina-Parks: trip planner (`parks.c`, `catalog.c`)

A shallow embedding of the trip-planning functions of the repository and the
properties of its specification that concern them.

Conventions of the embedding

* A `Park` is a value; the catalog and the trip hold parks (the C code holds pointers to
  the `Park` structs owned by the catalog, which are never modified after loading).
* A resizable array (`parks`, `count`, `capacity`) is a list of its live entries
  `parks[0..count-1]` together with its capacity; `count` is the length of the list.
* `distance` (catalog.c) is floating-point trigonometry. The functions of `parks.c` only
  add and compare its results, so the embedding takes the distance function as a
  parameter with values in a type `D`, and the comparison `<` of two doubles as a
  parameter `lt`, a relation on `D` of which nothing is assumed (with a NaN among its
  arguments the comparison of C is false). A theorem that needs the distances to be
  ordered says so in a hypothesis.
* `getNearest` reads arrays by index. A read of a catalog position outside
  `0..count-1`, and the use of a NULL entry of the result list, are results of their own
  (`Outcome.fault`) rather than values. The block that `malloc` returns for the result
  list is not cleared; what it holds is a parameter `block` of the embedding.
-/

namespace Parks

/-! ## Data model (catalog.h) -/

/-- INITIAL_CAPACITY of catalog.h. -/
def INITIAL_CAPACITY : Nat := 5

/-- MAX_COUNTIES of catalog.h. -/
def MAX_COUNTIES : Nat := 5

/-- MAX_COUNTIES_NAME_LENGTH of catalog.h. -/
def MAX_COUNTIES_NAME_LENGTH : Nat := 12

/-- The struct Park of catalog.h. Strings are the lists of their bytes (without the
terminating NUL); `lat` and `lon` are the rational numbers that the finite doubles
denote. `counties` is the memory of the array `counties`, its `MAX_COUNTIES` slots of
`MAX_COUNTIES_NAME_LENGTH` bytes one after the other: the string `counties[i]` starts at
byte `MAX_COUNTIES_NAME_LENGTH * i` and runs to the first NUL, through the end of its slot
when the slot holds none. The memory of the sample parks without counties is empty; the
end of the memory ends a string like a NUL. -/
structure Park where
  id : Int
  name : List Nat
  lat : Rat
  lon : Rat
  counties : List Nat
deriving DecidableEq, Repr

/-- The struct Catalog of catalog.h: the live entries and the capacity. -/
structure Catalog where
  parks : List Park
  capacity : Nat
deriving DecidableEq, Repr

/-- The field `count` of a catalog. -/
def Catalog.count (c : Catalog) : Nat := c.parks.length

/-- The struct Trip of catalog.h: the live entries and the capacity. -/
structure Trip where
  parks : List Park
  capacity : Nat
deriving DecidableEq, Repr

/-- The field `count` of a trip. -/
def Trip.count (t : Trip) : Nat := t.parks.length

/-- makeTrip (parks.c:24): the empty trip with the initial capacity. -/
def makeTrip : Trip := { parks := [], capacity := INITIAL_CAPACITY }

/-! ## Results of a run -/

/-- Ways in which a run of `getNearest` leaves the defined behaviour of C. -/
inductive Fault where
  /-- The entry `catalog->parks[pos]` was read with `pos` outside `0..count-1`. -/
  | catalogRead (pos : Nat)
  /-- An entry of `nearestList` that holds NULL was dereferenced. -/
  | nullEntry
  /-- The array `nearestList` was allocated with no element and its entry 0 written. -/
  | emptyResultList
  /-- The entry `nearestList[pos]` was read or written with `pos` outside `0..amount`. -/
  | resultIndex (pos : Nat)
deriving DecidableEq, Repr

/-- The result of running a piece of code: a value, a fault, or an exhausted iteration
budget. -/
inductive Outcome (α : Type) where
  | ok (a : α)
  | fault (f : Fault)
  | fuel
deriving DecidableEq, Repr

/-- Sequencing of runs: the continuation runs on a value, anything else is passed on. -/
def Outcome.andThen {α β : Type} (o : Outcome α) (k : α → Outcome β) : Outcome β :=
  match o with
  | .ok a => k a
  | .fault f => .fault f
  | .fuel => .fuel

/-! ## addParkToTrip, removeParkFromTrip (parks.c) -/

/-- The loop of addParkToTrip (parks.c:75-83) over the catalog entries still to visit.
The state is the trip entries and the flag `check`; every catalog park with the given id is
stored at position `count` of the trip and `count` is incremented. The code does not
compare `count` with the capacity here, and neither does the embedding. -/
def addLoop (id : Int) : List Park → List Park × Bool → List Park × Bool
  | [], st => st
  | p :: rest, (tp, check) =>
    if p.id = id then addLoop id rest (tp ++ [p], true)
    else addLoop id rest (tp, check)

/-- addParkToTrip (parks.c:60-88). The capacity doubles when the trip is full (the
reallocation is taken to succeed), then the loop runs. The second component tells whether
"Invalid command" was printed. -/
def addParkToTrip (catalog : Catalog) (trip : Trip) (id : Int) : Trip × Bool :=
  let capacity := if trip.count = trip.capacity then trip.capacity * 2 else trip.capacity
  let st := addLoop id catalog.parks (trip.parks, false)
  ({ parks := st.1, capacity := capacity }, !st.2)

/-- The search loop of removeParkFromTrip (parks.c:98-106): the first position at or after
`i` whose entry has the id, or -1. -/
def findIndex (parkID : Int) : List Park → Nat → Int
  | [], _ => -1
  | p :: rest, i => if p.id = parkID then (i : Int) else findIndex parkID rest (i + 1)

/-- The shifting loop of removeParkFromTrip (parks.c:111-114): for `i` from the given
position, `n` times, `parks[i] = parks[i + 1]`. -/
def shiftLeft : Nat → Nat → List Park → List Park
  | 0, _, parks => parks
  | n + 1, i, parks =>
    match parks[i + 1]? with
    | some q => shiftLeft n (i + 1) (parks.set i q)
    | none => parks

/-- removeParkFromTrip (parks.c:96-121). When an entry is found, the entries after it
move one position down and `count` decreases by one, so that the live entries are the
first `count - 1` positions (the NULL stored at `index` is overwritten by the first move,
or falls out of the live entries when `index` is the last position). The second component
tells whether "Invalid command" was printed. -/
def removeParkFromTrip (trip : Trip) (parkID : Int) : Trip × Bool :=
  let index := findIndex parkID trip.parks 0
  if index ≠ -1 then
    let shifted := shiftLeft (trip.count - 1 - index.toNat) index.toNat trip.parks
    ({ parks := shifted.take (trip.count - 1), capacity := trip.capacity }, false)
  else
    (trip, true)

/-! ## getNearest (parks.c) -/

/-- The array `nearestList` of getNearest: `amount + 1` entries, each NULL (`none`) or the
address of a Park (`some`). -/
abbrev Slots := List (Option Park)

/-- What the block returned by `malloc` (parks.c:164) holds in the entries of
`nearestList` before the function writes them, entry by entry: NULL or the address of a
Park, such as a block used by an earlier call and freed since may hold. `malloc` does not
clear the block. An entry that is neither NULL nor the address of a Park has no value
here. -/
abbrev Block := Nat → Option Park

/-- The block whose entries all hold NULL. -/
def nullBlock : Block := fun _ => none

/-- A block that holds NULL but for one entry, which holds the address of a park: what a
block that an earlier call has used and freed may hold. -/
def staleBlock (x : Nat) (p : Park) : Block := fun y => if y = x then some p else none

/-- The array `nearestList` after the assignment of parks.c:165: the anchor in entry 0 and
the content of the block in the entries `1..amount`. -/
def initialSlots (anchor : Park) (amount : Nat) (block : Block) : Slots :=
  some anchor :: (List.range amount).map fun x => block (x + 1)

/-- The entry `nearestList[x]` (NULL outside the array). -/
def slotAt (nl : Slots) (x : Nat) : Option Park := (nl[x]?).join

/-- The loop over `x` inside the `j == 0` branch of getNearest (parks.c:172-183), as a
machine on the pair `(j, x)`: it stops when `x > amount` or `nearestList[x]` is NULL; when
the ids of `catalog->parks[j]` and `nearestList[x]` agree it continues with `j + 1` and,
after `x = 0` and the increment of the loop, with `x = 1`; otherwise with `x + 1`.
The first argument bounds the number of iterations. The result is the final `j`. -/
def skipLoop (parks : List Park) (nl : Slots) (amount : Nat) : Nat → Nat → Nat → Outcome Nat
  | 0, _, _ => .fuel
  | fuel + 1, j, x =>
    if x ≤ amount then
      match slotAt nl x with
      | none => .ok j
      | some q =>
        match parks[j]? with
        | none => .fault (.catalogRead j)
        | some p => if p.id = q.id then skipLoop parks nl amount fuel (j + 1) 1
                    else skipLoop parks nl amount fuel j (x + 1)
    else .ok j

/-- The loop over `y` of getNearest (parks.c:187-198) on the entries `nearestList[y..i-1]`
still to visit, with the current value of `isInNearestList`: it stops at a NULL entry and
sets the flag when the ids (plus one) agree. The ids are unbounded integers here; with the
32-bit wrap-around of `id + 1` the comparison has the same result. -/
def inListLoop (p : Park) : Slots → Bool → Bool
  | [], acc => acc
  | none :: _, acc => acc
  | some q :: rest, acc => inListLoop p rest (if p.id + 1 = q.id + 1 then true else acc)

/-- The body of the loop over `j` of getNearest after the `j == 0` branch
(parks.c:187-203): `nearestList[i]` becomes `catalog->parks[j]` when the comparison `<` of
its distance from `nearestList[0]` with that of `nearestList[i]` holds and it is not in
`nearestList[0..i-1]`. -/
def considerPark {D : Type} (lt : D → D → Prop) [DecidableRel lt]
    (distance : Park → Park → D)
    (i : Nat) (p : Park) (nl : Slots) : Outcome Slots :=
  let isInNearestList := inListLoop p (nl.take i) false
  match slotAt nl 0, slotAt nl i with
  | some a, some c =>
    if lt (distance a p) (distance a c) ∧ isInNearestList = false then
      .ok (nl.set i (some p))
    else .ok nl
  | _, _ => .fault .nullEntry

/-- The loop over `j` of getNearest (parks.c:168-204) from position `j`, for round `i`.
At `j = 0` the loop over `x` first moves `j` forward and stores `catalog->parks[j]` in
`nearestList[i]`. The first argument bounds the number of iterations. -/
def scanCatalog {D : Type} (lt : D → D → Prop) [DecidableRel lt]
    (distance : Park → Park → D)
    (parks : List Park) (amount i : Nat) : Nat → Nat → Slots → Outcome Slots
  | 0, _, _ => .fuel
  | fuel + 1, j, nl =>
    if j < parks.length then
      (if j = 0 then
        (skipLoop parks nl amount ((parks.length + 1) * (amount + 2)) j 0).andThen fun j1 =>
          match parks[j1]? with
          | none => .fault (.catalogRead j1)
          | some p => .ok (j1, nl.set i (some p))
      else .ok (j, nl)).andThen fun st =>
        match parks[st.1]? with
        | none => .fault (.catalogRead st.1)
        | some p =>
          (considerPark lt distance i p st.2).andThen fun nl1 =>
            scanCatalog lt distance parks amount i fuel (st.1 + 1) nl1
    else .ok nl

/-- The loop over `i` of getNearest (parks.c:166-205): the rounds `i, i + 1, ...`, as many
as the first argument says. -/
def rounds {D : Type} (lt : D → D → Prop) [DecidableRel lt]
    (distance : Park → Park → D)
    (parks : List Park) (amount : Nat) : Nat → Nat → Slots → Outcome Slots
  | 0, _, nl => .ok nl
  | n + 1, i, nl =>
    (scanCatalog lt distance parks amount i (parks.length + 1) 0 nl).andThen fun nl1 =>
      rounds lt distance parks amount n (i + 1) nl1

/-- The printing loop of getNearest (parks.c:208-213): one row, the park and its distance
from `nearestList[0]`, for every entry of `nearestList`. -/
def printRows {D : Type} (distance : Park → Park → D) (anchor : Park) :
    Slots → Outcome (List (Park × D))
  | [] => .ok []
  | none :: _ => .fault .nullEntry
  | some p :: rest =>
    (printRows distance anchor rest).andThen fun rs => .ok ((p, distance anchor p) :: rs)

/-- What getNearest prints: "Invalid command", or the rows of the table after its
header. -/
inductive NearestReport (D : Type) where
  | invalid
  | rows (l : List (Park × D))
deriving DecidableEq, Repr

/-- getNearest (parks.c:151-216). After the test of the arguments and the adjustment of
`amount` (only for `amount > count`), `nearestList` is a block of `amount + 1` entries
that keeps its content but for entry 0, which gets the last trip entry, the anchor; the
rounds `1..amount` fill the entries after it; the printing loop prints a row for every
entry from entry 0 on, the anchor included. -/
def getNearest {D : Type} (lt : D → D → Prop) [DecidableRel lt]
    (distance : Park → Park → D)
    (catalog : Catalog) (trip : Trip) (amount : Int) (block : Block) :
    Outcome (NearestReport D) :=
  if amount ≤ 0 ∨ trip.count = 0 then .ok .invalid
  else
    let amount1 : Int := if amount > (catalog.count : Int) then (catalog.count : Int) - 1 else amount
    match trip.parks.getLast? with
    | none => .ok .invalid  -- not reached: `trip->count` is not 0 here
    | some anchor =>
      if amount1 + 1 ≤ 0 then .fault .emptyResultList
      else
        let m := amount1.toNat
        let nl : Slots := initialSlots anchor m block
        (rounds lt distance catalog.parks m m 1 nl).andThen fun nl1 =>
          (printRows distance anchor nl1).andThen fun rs => .ok (.rows rs)

/-- The state of a session: the catalog and the trip held by `main`. -/
structure Session where
  catalog : Catalog
  trip : Trip
deriving DecidableEq, Repr

/-- The `nearest` command (parks.c:372-376): getNearest receives the catalog and the trip
and assigns to neither, so the session after the command is the session before it. -/
def Session.nearest {D : Type} (lt : D → D → Prop) [DecidableRel lt]
    (distance : Park → Park → D)
    (s : Session) (amount : Int) (block : Block) : Session × Outcome (NearestReport D) :=
  (s, getNearest lt distance s.catalog s.trip amount block)

/-! ## Sample data -/

/-- A park with the given id and coordinates, without name and counties. -/
def mkPark (id : Int) (lat lon : Rat) : Park :=
  { id := id, name := [], lat := lat, lon := lon, counties := [] }

/-- A stand-in for the distance on sample data: the sum of the differences in latitude
and in longitude, in degrees. -/
def gridDistance (a b : Park) : Rat :=
  |a.lat - b.lat| + |a.lon - b.lon|

/-- The catalog of the scenario of the specification: parks 1, 2, 3 on the equator at
longitudes 0, 1, 2. -/
def sampleCatalog : Catalog :=
  { parks := [mkPark 1 0 0, mkPark 2 0 1, mkPark 3 0 2], capacity := 5 }

/-- A catalog of three parks on the equator, at longitudes 0, 1 and 3. -/
def spreadCatalog : Catalog :=
  { parks := [mkPark 1 0 0, mkPark 2 0 1, mkPark 3 0 3], capacity := 5 }

/-- A catalog of two parks. -/
def pairCatalog : Catalog :=
  { parks := [mkPark 1 0 0, mkPark 2 0 1], capacity := 5 }

/-- A catalog of four parks on the equator, at longitudes 0, 5, 8 and 6: from park 2 the
other parks are, nearest first, 4, 3 and 1. -/
def orderCatalog : Catalog :=
  { parks := [mkPark 1 0 0, mkPark 2 0 5, mkPark 3 0 8, mkPark 4 0 6], capacity := 5 }

/-! ## A functional description of the loops of getNearest

The definitions of this section are not translations of code: they describe what the loops
of getNearest compute, and the theorems `scanCatalog_round`, `rounds_eq` and
`getNearest_eq` below prove that the loops compute just that. -/

/-- The array `nearestList` with the anchor in entry 0, the parks `sel` in the entries
after it, and NULL in the remaining ones, `m + 1` entries in all. -/
def slotsOf (a : Park) (sel : List Park) (m : Nat) : Slots :=
  some a :: (sel.map some ++ List.replicate (m - sel.length) none)

/-- The value `j` left by the loop over `x`, followed by the read of `catalog->parks[j]`
(parks.c:184). -/
def landing (parks : List Park) (o : Outcome Nat) : Outcome (Nat × Park) :=
  o.andThen fun j1 =>
    match parks[j1]? with
    | none => .fault (.catalogRead j1)
    | some p => .ok (j1, p)

/-- The first park, from position `j` on (`ps` are the catalog entries from `j`), whose id
is not among `ids`, with its position; a read past the end of the catalog when there is
none. -/
def skipFrom (ids : List Int) : List Park → Nat → Outcome (Nat × Park)
  | [], j => .fault (.catalogRead j)
  | p :: rest, j => if p.id ∈ ids then skipFrom ids rest (j + 1) else .ok (j, p)

/-- Where the loop over `x` stops: the park at position 0 is compared with the anchor and
with the chosen parks, the parks at later positions with the chosen parks only. -/
def firstLanding (a : Park) (ids : List Int) : List Park → Outcome (Nat × Park)
  | [] => .fault (.catalogRead 0)
  | p :: rest => if p.id = a.id ∨ p.id ∈ ids then skipFrom ids rest 1 else .ok (0, p)

/-- The candidate kept by the loop over `j`: starting from `c`, a park replaces the
candidate when the comparison `<` of its distance from the anchor with that of the
candidate holds and its id is not among `excl`. -/
def pick {D : Type} (lt : D → D → Prop) [DecidableRel lt]
    (distance : Park → Park → D) (a : Park)
    (excl : List Int) (c : Park) (ps : List Park) : Park :=
  ps.foldl (fun c p => if lt (distance a p) (distance a c) ∧ p.id ∉ excl then p else c) c

/-- One round of getNearest on the list of the parks chosen so far. -/
def selectRound {D : Type} (lt : D → D → Prop) [DecidableRel lt]
    (distance : Park → Park → D) (a : Park)
    (parks : List Park) (sel : List Park) : Outcome (List Park) :=
  (firstLanding a (sel.map fun q => q.id) parks).andThen fun st =>
    .ok (sel ++ [pick lt distance a (a.id :: sel.map fun q => q.id) st.2 (parks.drop (st.1 + 1))])

/-- The given number of rounds of getNearest on the list of the parks chosen so far. -/
def selectRounds {D : Type} (lt : D → D → Prop) [DecidableRel lt]
    (distance : Park → Park → D) (a : Park)
    (parks : List Park) : Nat → List Park → Outcome (List Park)
  | 0, sel => .ok sel
  | r + 1, sel => (selectRound lt distance a parks sel).andThen (selectRounds lt distance a parks r)

/-- The rows of the table for the anchor and the chosen parks. -/
def rowsOf {D : Type} (distance : Park → Park → D) (a : Park) (sel : List Park) :
    List (Park × D) :=
  (a, distance a a) :: sel.map fun p => (p, distance a p)

/-- The value of `amount` after the adjustment of parks.c:159-162, as a natural number. -/
def clampAmount (count : Nat) (amount : Int) : Nat :=
  (if amount > (count : Int) then (count : Int) - 1 else amount).toNat

/-! ## The order of the specification

The two definitions of this section follow the words of the specification, not the code;
their distances are values in a linear order. -/

/-- The catalog parks other than the anchor `a` in ascending distance from `a`, parks at
equal distance in catalog order (insertion sort with `≤` keeps the order of equal keys). -/
def nearestOrder {D : Type} [LinearOrder D] (distance : Park → Park → D) (a : Park)
    (parks : List Park) : List Park :=
  (parks.filter fun p => decide (p.id ≠ a.id)).insertionSort
    (fun p q => distance a p ≤ distance a q)

/-- The first park of a list among its parks at minimum distance from `a`. -/
def firstNearest {D : Type} [LinearOrder D] (distance : Park → Park → D) (a : Park) :
    List Park → Option Park
  | [] => none
  | p :: rest =>
    match firstNearest distance a rest with
    | none => some p
    | some q => if distance a p ≤ distance a q then some p else some q

/-! ## listTrip (parks.c) -/

/-- The loop of listTrip (parks.c:133-140) on the trip entries still to visit, with the
values of `totalDistance` and `previousPark` (NULL is `none`): one row per entry, the park
and the value of `totalDistance` after the distance from the previous park, or 0.0 for the
first entry, has been added to it. -/
def listTripLoop {D : Type} [Add D] [Zero D] (distance : Park → Park → D) :
    List Park → D → Option Park → List (Park × D)
  | [], _, _ => []
  | park :: rest, totalDistance, previousPark =>
    let dist := match previousPark with
      | some q => distance q park
      | none => 0
    (park, totalDistance + dist) :: listTripLoop distance rest (totalDistance + dist) (some park)

/-- listTrip (parks.c:128-141): the rows of the table after its header. The additions are
those of the type of the distances; of them the theorems below use `0 + 0 = 0` only. -/
def listTrip {D : Type} [Add D] [Zero D] (distance : Park → Park → D) (trip : Trip) :
    List (Park × D) :=
  listTripLoop distance trip.parks 0 none

/-! ## Comparison functions and sortParks (parks.c, catalog.c) -/

/-- The string that a buffer of bytes holds for the functions of the C library: its bytes
before the first NUL. -/
def cstr (s : List Nat) : List Nat := s.takeWhile (fun b => b != 0)

/-- The comparison of strcmp on two strings without NUL: the bytes are compared in order,
the end of a string counting as the byte 0, and the result is the difference of the first
pair of bytes that differ (the C standard fixes its sign). -/
def compareBytes : List Nat → List Nat → Int
  | [], [] => 0
  | [], b :: _ => 0 - (b : Int)
  | a :: _, [] => (a : Int) - 0
  | a :: as, b :: bs => if a = b then compareBytes as bs else (a : Int) - (b : Int)

/-- The function strcmp of the C library. -/
def strcmp (a b : List Nat) : Int := compareBytes (cstr a) (cstr b)

/-- compareParksByID (parks.c:226-232). -/
def compareParksByID (parkA parkB : Park) : Int :=
  if parkA.id < parkB.id then -1 else (if parkA.id > parkB.id then 1 else 0)

/-- compareParksByName (parks.c:242-257). -/
def compareParksByName (parkA parkB : Park) : Int :=
  let nameCompare := strcmp parkA.name parkB.name
  if nameCompare ≠ 0 then nameCompare
  else (if parkA.id < parkB.id then -1 else (if parkA.id > parkB.id then 1 else 0))

/-- What the C standard asks of a comparison function handed to qsort: the results are
consistent with one another, that is, they are those of a total preorder. -/
def IsOrdering (compare : Park → Park → Int) : Prop :=
  (∀ a b, compare a b < 0 ↔ 0 < compare b a) ∧
  (∀ a b c, compare a b ≤ 0 → compare b c ≤ 0 → compare a c ≤ 0)

/-- The function qsort of the C library is a parameter of the embedding. This is what the
C standard says of it: the array after the call is a rearrangement of the array before it
and, for a comparison function as above, every element compares less than or equal to the
element after it. The standard does not say which of two elements that compare equal comes
first. -/
structure IsQsort (qsort : (Park → Park → Int) → List Park → List Park) : Prop where
  perm : ∀ compare l, (qsort compare l).Perm l
  ascending : ∀ compare l, IsOrdering compare →
    (qsort compare l).Chain' (fun a b => compare a b ≤ 0)

/-- sortParks (catalog.c:223-230). -/
def sortParks (qsort : (Park → Park → Int) → List Park → List Park)
    (catalog : Catalog) (compare : Park → Park → Int) : Catalog :=
  if catalog.count < 2 then catalog
  else { parks := qsort compare catalog.parks, capacity := catalog.capacity }

/-- A sorting function with the properties of qsort, for sample runs: insertion sort. -/
def insertionQsort (compare : Park → Park → Int) (l : List Park) : List Park :=
  l.insertionSort (fun a b => compare a b ≤ 0)

/-- The bytes of a text of ASCII characters. -/
def bytes (s : String) : List Nat := s.toList.map Char.toNat

/-- A park with the given id and name on the equator at longitude 0, without counties. -/
def namedPark (id : Int) (name : String) : Park :=
  { id := id, name := bytes name, lat := 0, lon := 0, counties := [] }

/-- A catalog of four parks, two of which have the same name. -/
def namedCatalog : Catalog :=
  { parks := [namedPark 3 "Eno", namedPark 1 "Pilot", namedPark 4 "Crowders",
      namedPark 2 "Eno"], capacity := 5 }

/-! ## countyTestFunction and listParks (parks.c, catalog.c) -/

/-- The loop of countyTestFunction (parks.c:268-278) from slot `i`, as many iterations as
the first number says: it stops at a slot whose first byte is NUL and answers true at a
slot whose string strcmp finds equal to `str`. The string of a slot is read from the first
byte of the slot to the first NUL, wherever that is. -/
def countyLoop (park : Park) (str : List Nat) : Nat → Nat → Bool
  | 0, _ => false
  | n + 1, i =>
    match park.counties.drop (MAX_COUNTIES_NAME_LENGTH * i) with
    | [] => false
    | b :: rest =>
      if b = 0 then false
      else if strcmp (b :: rest) str = 0 then true
      else countyLoop park str n (i + 1)

/-- countyTestFunction (parks.c:266-280). -/
def countyTestFunction (park : Park) (str : List Nat) : Bool :=
  countyLoop park str MAX_COUNTIES 0

/-- The loop of listParks (catalog.c:244-269) over the catalog entries still to visit: the
parks for which a row is printed, `none` being the NULL pointer for `str`. -/
def listParksLoop (test : Park → List Nat → Bool) (str : Option (List Nat)) :
    List Park → List Park
  | [] => []
  | park :: rest =>
    if (match str with
        | none => true
        | some s => test park s) then park :: listParksLoop test str rest
    else listParksLoop test str rest

/-- listParks (catalog.c:240-270): the parks of the rows of the table, in the order of the
rows. The text of a row (id, name, coordinates, counties) is that of its park and is not
part of the embedding. The function assigns nothing to the catalog. -/
def listParks (catalog : Catalog) (test : Park → List Nat → Bool) (str : Option (List Nat)) :
    List Park :=
  listParksLoop test str catalog.parks

/-! ## The command loop of main (parks.c) -/

/-- The function isspace of the C library in the C locale. -/
def isspace (b : Nat) : Bool := b = 32 || (9 ≤ b && b ≤ 13)

/-- The function isdigit of the C library. -/
def isdigit (b : Nat) : Bool := 48 ≤ b && b ≤ 57

/-- The digits read by atoi: the value of the leading decimal digits, from the value of
the digits read so far. -/
def atoiDigits : List Nat → Int → Int
  | [], acc => acc
  | b :: rest, acc => if isdigit b then atoiDigits rest (acc * 10 + ((b : Int) - 48)) else acc

/-- The number that strtol reads in base 10 after the white space: a sign may come first,
then the longest run of decimal digits is read; without digits the number is 0. -/
def signedValue : List Nat → Int
  | 45 :: rest => - atoiDigits rest 0
  | 43 :: rest => atoiDigits rest 0
  | rest => atoiDigits rest 0

/-- The number that strtol reads in base 10: leading white space is skipped, then the
number is read. -/
def decimalValue (s : List Nat) : Int :=
  signedValue ((cstr s).dropWhile isspace)

/-- The result of strtol for a number: the number itself, or LONG_MIN or LONG_MAX (of 64
bits) when it lies below or above them. -/
def clampLong (x : Int) : Int :=
  max (-9223372036854775808) (min x 9223372036854775807)

/-- The conversion of a long to the type `int` of 32 bits: the value modulo 2^32 in the
range of `int`. -/
def toInt32 (x : Int) : Int :=
  (x + 2147483648) % 4294967296 - 2147483648

/-- The function atoi of the C library. For a number outside the range of `int` the C
standard leaves the result open; the embedding follows the usual implementation, which
returns `(int) strtol(s, NULL, 10)`. -/
def atoi (s : List Nat) : Int :=
  toInt32 (clampLong (decimalValue s))

/-- The words of a line: its maximal runs of bytes other than white space, from the bytes
still to read and the word read so far. -/
def scanWords : List Nat → List Nat → List (List Nat)
  | [], cur => if cur = [] then [] else [cur]
  | b :: rest, cur =>
    if isspace b then (if cur = [] then scanWords rest [] else cur :: scanWords rest [])
    else scanWords rest (cur ++ [b])

/-- The words of the line in the buffer `input`, which successive `%s` of sscanf read. -/
def scanTokens (input : List Nat) : List (List Nat) := scanWords (cstr input) []

/-- The effect of `sscanf(input, "%s %s %s", cmd, param1, param2)` (parks.c:325): its
result, -1 (EOF) for a line without a word, and the three buffers; a buffer that sscanf
has not written is `none`. The buffers are declared in the body of the loop, so that
their content before the call is indeterminate. -/
structure Scanned where
  result : Int
  cmd : Option (List Nat)
  param1 : Option (List Nat)
  param2 : Option (List Nat)
deriving DecidableEq, Repr

/-- The call of sscanf of parks.c:325 on a line. -/
def sscanf3 (input : List Nat) : Scanned :=
  let words := scanTokens input
  { result := if words = [] then -1 else ((min 3 words.length : Nat) : Int),
    cmd := words[0]?, param1 := words[1]?, param2 := words[2]? }

/-- What a command prints after the echo of its line. -/
inductive Reply (D : Type) where
  /-- The line "Invalid command". -/
  | invalid
  /-- Nothing: an `add` or `remove` that was carried out. -/
  | nothing
  /-- The table of listParks. -/
  | parks (rows : List Park)
  /-- The table of listTrip. -/
  | trip (rows : List (Park × D))
  /-- The table of getNearest. -/
  | nearest (rows : List (Park × D))
deriving DecidableEq, Repr

/-- The result of one pass of the loop of main on a line of input. -/
inductive Step (D : Type) where
  /-- The loop goes on with this session. -/
  | running (s : Session) (reply : Reply D)
  /-- The loop was left with `break` (the command `quit`). -/
  | terminated
  /-- A buffer that sscanf has not written was read. -/
  | indeterminate
  /-- The run of getNearest did not come to an end in the defined behaviour of C. -/
  | fault (f : Fault)
  /-- The run of getNearest exhausted its iteration budget. -/
  | fuel
deriving DecidableEq, Repr

/-- The call of getNearest from the loop of main; `block` is what the block that `malloc`
returns to this call holds. -/
def nearestStep {D : Type} (lt : D → D → Prop) [DecidableRel lt]
    (distance : Park → Park → D) (s : Session)
    (amount : Int) (block : Block) : Step D :=
  match getNearest lt distance s.catalog s.trip amount block with
  | .ok .invalid => .running s .invalid
  | .ok (.rows rs) => .running s (.nearest rs)
  | .fault f => .fault f
  | .fuel => .fuel

/-- The call of addParkToTrip from the loop of main. -/
def addStep {D : Type} (s : Session) (id : Int) : Step D :=
  .running { catalog := s.catalog, trip := (addParkToTrip s.catalog s.trip id).1 }
    (if (addParkToTrip s.catalog s.trip id).2 then .invalid else .nothing)

/-- The call of removeParkFromTrip from the loop of main. -/
def removeStep {D : Type} (s : Session) (id : Int) : Step D :=
  .running { catalog := s.catalog, trip := (removeParkFromTrip s.trip id).1 }
    (if (removeParkFromTrip s.trip id).2 then .invalid else .nothing)

/-- The branch for the command `list` of the loop of main (parks.c:334-355). -/
def listStep {D : Type} (qsort : (Park → Park → Int) → List Park → List Park)
    (s : Session) (sc : Scanned) : Step D :=
  match sc.param1 with
  | none => .indeterminate
  | some param1 =>
    if strcmp param1 (bytes "parks") = 0 then
      .running { catalog := sortParks qsort s.catalog compareParksByID, trip := s.trip }
        (.parks (listParks (sortParks qsort s.catalog compareParksByID) countyTestFunction none))
    else if strcmp param1 (bytes "names") = 0 then
      .running { catalog := sortParks qsort s.catalog compareParksByName, trip := s.trip }
        (.parks (listParks (sortParks qsort s.catalog compareParksByName) countyTestFunction
          none))
    else if strcmp param1 (bytes "county") = 0 then
      match sc.param2 with
      | none => .indeterminate
      | some param2 => .running s (.parks (listParks s.catalog countyTestFunction (some param2)))
    else .running s .invalid

/-- The dispatch of the loop of main (parks.c:327-381) on the result of sscanf. The tests
of `result` come first in the conditions, so that `cmd` is read only when sscanf has
written it. -/
def dispatch {D : Type} [Add D] [Zero D]
    (qsort : (Park → Park → Int) → List Park → List Park)
    (lt : D → D → Prop) [DecidableRel lt] (distance : Park → Park → D)
    (s : Session) (sc : Scanned) (block : Block) : Step D :=
  match sc.cmd with
  | none => .running s .invalid
  | some cmd =>
    if sc.result = 1 ∧ strcmp cmd (bytes "quit") = 0 then .terminated
    else if sc.result ≥ 1 ∧ strcmp cmd (bytes "list") = 0 then listStep qsort s sc
    else if sc.result ≥ 1 ∧ strcmp cmd (bytes "add") = 0 then
      match sc.param1 with
      | none => .indeterminate
      | some param1 => addStep s (atoi param1)
    else if sc.result ≥ 1 ∧ strcmp cmd (bytes "remove") = 0 then
      match sc.param1 with
      | none => .indeterminate
      | some param1 => removeStep s (atoi param1)
    else if sc.result ≥ 1 ∧ strcmp cmd (bytes "trip") = 0 then
      .running s (.trip (listTrip distance s.trip))
    else if sc.result ≥ 1 ∧ strcmp cmd (bytes "nearest") = 0 then
      match sc.param1 with
      | none => .indeterminate
      | some param1 => nearestStep lt distance s (atoi param1) block
    else .running s .invalid

/-- One pass of the loop of main (parks.c:308-383) on a line that fgets has read, without
its newline: the line is split by sscanf and dispatched. `block` is what the block that
`malloc` returns holds, should the line call getNearest. -/
def interpret {D : Type} [Add D] [Zero D]
    (qsort : (Park → Park → Int) → List Park → List Park)
    (lt : D → D → Prop) [DecidableRel lt] (distance : Park → Park → D)
    (s : Session) (input : List Nat) (block : Block) : Step D :=
  dispatch qsort lt distance s (sscanf3 input) block

/-- The lines that are a command with all its arguments and no more, as lists of
words; `quit` is not among them. -/
def IsCommandLine (words : List (List Nat)) : Prop :=
  words = [bytes "trip"] ∨ words = [bytes "list", bytes "parks"] ∨
    words = [bytes "list", bytes "names"] ∨
    (∃ x, words = [bytes "list", bytes "county", x]) ∨
    (∃ a, words = [bytes "add", a]) ∨ (∃ a, words = [bytes "remove", a]) ∨
    (∃ a, words = [bytes "nearest", a])

/-- A catalog with a park of id 0. -/
def zeroCatalog : Catalog :=
  { parks := [mkPark 0 0 0, mkPark 1 0 1], capacity := 5 }

/-- A catalog with a park of id -5. -/
def minusCatalog : Catalog :=
  { parks := [mkPark (-5) 0 0, mkPark 1 0 1], capacity := 5 }

/-- The sign at the start of a word: `-`, `+`, or nothing. This definition and the two
that follow describe what atoi reads of a word; they are not translations of code. -/
def signOf (arg : List Nat) : List Nat :=
  match arg with
  | 45 :: _ => [45]
  | 43 :: _ => [43]
  | _ => []

/-- The decimal digits of a word that follow its sign, up to the first other byte. -/
def digitsOf (arg : List Nat) : List Nat :=
  (arg.drop (signOf arg).length).takeWhile isdigit

/-- The numeral that atoi reads of a word: its sign and the digits after it, or `0` when
no digit follows the sign. -/
def numeralOf (arg : List Nat) : List Nat :=
  if digitsOf arg = [] then bytes "0" else signOf arg ++ digitsOf arg

/-! ## distance (catalog.c) -/

/-- The arithmetic on the type `double` that `distance` uses, as a parameter of the
embedding: the conversion of the coordinates, the constants 0.0, 1.0, `DEG_TO_RAD` and
`EARTH_RADIUS`, addition, multiplication, the functions cos, sin and acos of the C library
and the comparison `>`. The operations are functions of their arguments, and the one law
that is asked of them is that multiplication is commutative, as it is in IEEE 754
arithmetic. -/
structure DoubleArith (F : Type) where
  ofRat : Rat → F
  zero : F
  one : F
  degToRad : F
  earthRadius : F
  add : F → F → F
  mul : F → F → F
  cos : F → F
  sin : F → F
  acos : F → F
  gt : F → F → Bool
  mul_comm : ∀ x y, mul x y = mul y x

/-- The unit vector of a park in `distance` (catalog.c:37-43). -/
def unitVector {F : Type} (A : DoubleArith F) (p : Park) : List F :=
  [A.mul (A.cos (A.mul (A.ofRat p.lon) A.degToRad)) (A.cos (A.mul (A.ofRat p.lat) A.degToRad)),
   A.mul (A.sin (A.mul (A.ofRat p.lon) A.degToRad)) (A.cos (A.mul (A.ofRat p.lat) A.degToRad)),
   A.sin (A.mul (A.ofRat p.lat) A.degToRad)]

/-- The function `distance` (catalog.c:30-56): the dot product is accumulated from 0.0 in
the order of the components, `dp += v1[i] * v2[i]`. -/
def distance {F : Type} (A : DoubleArith F) (a b : Park) : F :=
  let v1 := unitVector A a
  let v2 := unitVector A b
  let dp := (List.zipWith A.mul v1 v2).foldl A.add A.zero
  if A.gt dp A.one then A.zero
  else A.mul A.earthRadius (A.acos dp)

/-- An arithmetic on the rational numbers in the place of `double`, to have one at hand:
polynomials stand in for the functions of the C library. -/
def sampleArith : DoubleArith Rat where
  ofRat := fun x => x
  zero := 0
  one := 1
  degToRad := 355 / (113 * 180)
  earthRadius := 3959
  add := fun x y => x + y
  mul := fun x y => x * y
  cos := fun x => 1 - x * x / 2
  sin := fun x => x - x * x * x / 6
  acos := fun x => 355 / 226 - x
  gt := fun x y => decide (x > y)
  mul_comm := fun x y => Rat.mul_comm x y

/-! ## readParks (catalog.c) -/

/-- MAX_NAME_LENGTH of catalog.h. -/
def MAX_NAME_LENGTH : Nat := 40

/-- makeCatalog (catalog.c:63-70): the empty catalog with the initial capacity. -/
def makeCatalog : Catalog := { parks := [], capacity := INITIAL_CAPACITY }

/-- The two lines of a park in a park file, as the scanning of readParks finds them
(readLine, sscanf and the splitting at the spaces work on the text and are not part of the
embedding): the three numbers that `sscanf(line, "%d %lf %lf", ...)` has read, `none` when
it has read fewer than three; the county labels after the third space; the line of the
name. With them comes `fresh`, the byte that the struct returned by `malloc`
(catalog.c:125), which is not cleared, holds at each position of its array `counties`. -/
structure ParkLines where
  header : Option (Int × Rat × Rat)
  counties : List (List Nat)
  name : List Nat
  fresh : Nat → Nat

/-- The result of loading: the catalog, or the end of the process by `exit(EXIT_FAILURE)`
after the message on stderr. -/
inductive Load where
  | ok (catalog : Catalog)
  | exit
deriving DecidableEq, Repr

/-- The bytes `bs` written into the memory `mem` from position `offset` on. A byte that
falls behind the end of the memory is not recorded. -/
def pokeBytes : List Nat → Nat → List Nat → List Nat
  | mem, _, [] => mem
  | mem, offset, b :: rest => pokeBytes (mem.set offset b) (offset + 1) rest

/-- The call `strcpy(dest, src)` of the C library, `dest` being the address of byte
`offset` of the memory `mem`: the bytes of the string `src` and its NUL are written from
there on. strcpy does not know the size of the destination. -/
def strcpyAt (mem : List Nat) (offset : Nat) (src : List Nat) : List Nat :=
  pokeBytes mem offset (cstr src ++ [0])

/-- The loop over the county labels (catalog.c:167-201) on the labels still to store, with
the value of `countyCount` and the memory of `park->counties`: a label longer than
`MAX_COUNTIES_NAME_LENGTH` ends the process (`none`); a label of up to
`MAX_COUNTIES_NAME_LENGTH` bytes is copied with its NUL to the slot `countyCount`, which
has `MAX_COUNTIES_NAME_LENGTH` bytes; a label after `MAX_COUNTIES` labels ends the
process; after the last label the empty string is copied to the next slot. The embedding
goes by the test of the length: that the bytes of a longer label have been written past
the buffer `eachCounty` before the test is not recorded. -/
def storeCounties : List (List Nat) → Nat → List Nat → Option (List Nat)
  | [], countyCount, mem => some (strcpyAt mem (MAX_COUNTIES_NAME_LENGTH * countyCount) [])
  | c :: rest, countyCount, mem =>
    if c.length > MAX_COUNTIES_NAME_LENGTH then none
    else if countyCount + 1 > MAX_COUNTIES then none
    else storeCounties rest (countyCount + 1)
      (strcpyAt mem (MAX_COUNTIES_NAME_LENGTH * countyCount) c)

/-- One pass of the loop of readParks (catalog.c:110-213) on the lines of a park: the
capacity doubles when the catalog is full (the reallocation is taken to succeed), then the
park is tested (three numbers, an id that no park of the catalog has, the counties, the
length of the name) and stored at position `count`. The bytes written behind the array
`counties` (the NUL after a fifth label of `MAX_COUNTIES_NAME_LENGTH` bytes, the empty
string after a fifth label) are not recorded. -/
def readRecord (catalog : Catalog) (r : ParkLines) : Load :=
  let capacity :=
    if catalog.count = catalog.capacity then catalog.capacity * 2 else catalog.capacity
  match r.header with
  | none => .exit
  | some (id, latitude, longitude) =>
    if catalog.parks.any (fun p => decide (p.id = id)) then .exit
    else
      match storeCounties r.counties 0
          ((List.range (MAX_COUNTIES * MAX_COUNTIES_NAME_LENGTH)).map r.fresh) with
      | none => .exit
      | some counties =>
        if r.name.length > MAX_NAME_LENGTH then .exit
        else .ok { parks := catalog.parks ++
                     [{ id := id, name := r.name, lat := latitude, lon := longitude,
                        counties := counties }],
                   capacity := capacity }

/-- The loop of readParks over the parks of a file that are still to read. -/
def readLoop : List ParkLines → Catalog → Load
  | [], catalog => .ok catalog
  | r :: rest, catalog =>
    match readRecord catalog r with
    | .ok catalog1 => readLoop rest catalog1
    | .exit => .exit

/-- readParks (catalog.c:100-215) on a file, `none` being a file that cannot be opened. -/
def readParks (file : Option (List ParkLines)) (catalog : Catalog) : Load :=
  match file with
  | none => .exit
  | some records => readLoop records catalog

/-- The loop of main over the park files (parks.c:302-305). -/
def readFiles : List (Option (List ParkLines)) → Catalog → Load
  | [], catalog => .ok catalog
  | file :: rest, catalog =>
    match readParks file catalog with
    | .ok catalog1 => readFiles rest catalog1
    | .exit => .exit

/-- The ids of the parks of a list of files, in the order of the files and of their
lines. -/
def fileIds (files : List (Option (List ParkLines))) : List Int :=
  files.flatMap fun file =>
    match file with
    | none => []
    | some records => records.filterMap fun r => r.header.map fun h => h.1

/-- Two park files with three parks. -/
def sampleFiles : List (Option (List ParkLines)) :=
  [some [{ header := some (1, 0, 0), counties := [bytes "Wake"], name := bytes "A",
           fresh := fun _ => 0 },
         { header := some (2, 0, 1), counties := [bytes "Wake"], name := bytes "B",
           fresh := fun _ => 0 }],
   some [{ header := some (3, 0, 2), counties := [bytes "Orange"], name := bytes "C",
           fresh := fun _ => 0 }]]

/-- A park file with one park, of the counties Transylvania (a label of
`MAX_COUNTIES_NAME_LENGTH` bytes) and Henderson; the struct of the park is taken to hold
the byte 255 everywhere before it is filled. -/
def longLabelFile : Option (List ParkLines) :=
  some [{ header := some (7, 35, -82), counties := [bytes "Transylvania", bytes "Henderson"],
          name := bytes "Gorges", fresh := fun _ => 255 }]

/-- The park that readParks makes of the lines of `longLabelFile`: the NUL of the first
label was written to the first byte of the second slot, and the second label over it. -/
def longLabelPark : Park :=
  { id := 7, name := bytes "Gorges", lat := 35, lon := -82,
    counties := bytes "TransylvaniaHenderson" ++ [0, 255, 255, 0] ++ List.replicate 35 255 }

/-! ## Sequences of add and remove commands -/

/-- A command of the loop of main (parks.c:298-330) that changes the trip: `add <id>`
calls addParkToTrip, `remove <id>` calls removeParkFromTrip. -/
inductive TripCommand where
  | add (id : Int)
  | remove (id : Int)
deriving DecidableEq, Repr

/-- The trip after one command. -/
def TripCommand.apply (catalog : Catalog) (trip : Trip) : TripCommand → Trip
  | .add id => (addParkToTrip catalog trip id).1
  | .remove id => (removeParkFromTrip trip id).1

/-- The trip after a sequence of commands, run from left to right. -/
def runTrip (catalog : Catalog) (cmds : List TripCommand) (trip : Trip) : Trip :=
  cmds.foldl (TripCommand.apply catalog) trip

/-- A second sorting function with the properties of qsort: insertion sort run on the
reversed sequence (it meets equal entries in the opposite order). -/
def reverseQsort (compare : Park → Park → Int) (l : List Park) : List Park :=
  insertionQsort compare l.reverse

/-! ## getNearest with every access to nearestList checked -/

/-- The read of `nearestList[x]`, tested against the number of entries of the array. -/
def readSlot (nl : Slots) (x : Nat) : Outcome (Option Park) :=
  match nl[x]? with
  | some entry => .ok entry
  | none => .fault (.resultIndex x)

/-- The assignment `nearestList[x] = p`, tested against the number of entries of the
array. -/
def writeSlot (nl : Slots) (x : Nat) (p : Park) : Outcome Slots :=
  if x < nl.length then .ok (nl.set x (some p)) else .fault (.resultIndex x)

/-- The loop over `x` of getNearest (parks.c:172-183) as in `skipLoop`, with the read of
`nearestList[x]` tested. -/
def skipLoopChecked (parks : List Park) (nl : Slots) (amount : Nat) :
    Nat → Nat → Nat → Outcome Nat
  | 0, _, _ => .fuel
  | fuel + 1, j, x =>
    if x ≤ amount then
      (readSlot nl x).andThen fun entry =>
        match entry with
        | none => .ok j
        | some q =>
          match parks[j]? with
          | none => .fault (.catalogRead j)
          | some p => if p.id = q.id then skipLoopChecked parks nl amount fuel (j + 1) 1
                      else skipLoopChecked parks nl amount fuel j (x + 1)
    else .ok j

/-- The loop over `y` of getNearest (parks.c:187-198) from position `y`, as many
iterations as the first number says, with the read of `nearestList[y]` tested. -/
def inListLoopChecked (p : Park) (nl : Slots) : Nat → Nat → Bool → Outcome Bool
  | 0, _, acc => .ok acc
  | n + 1, y, acc =>
    (readSlot nl y).andThen fun entry =>
      match entry with
      | none => .ok acc
      | some q => inListLoopChecked p nl n (y + 1) (if p.id + 1 = q.id + 1 then true else acc)

/-- The body of the loop over `j` of getNearest after the `j == 0` branch
(parks.c:187-203) as in `considerPark`, with the reads of `nearestList[y]`,
`nearestList[0]` and `nearestList[i]` and the assignment to `nearestList[i]` tested. -/
def considerParkChecked {D : Type} (lt : D → D → Prop) [DecidableRel lt]
    (distance : Park → Park → D)
    (i : Nat) (p : Park) (nl : Slots) : Outcome Slots :=
  (inListLoopChecked p nl i 0 false).andThen fun isInNearestList =>
    (readSlot nl 0).andThen fun e0 =>
      (readSlot nl i).andThen fun ei =>
        match e0, ei with
        | some a, some c =>
          if lt (distance a p) (distance a c) ∧ isInNearestList = false then
            writeSlot nl i p
          else .ok nl
        | _, _ => .fault .nullEntry

/-- The loop over `j` of getNearest (parks.c:168-204) as in `scanCatalog`, with the
accesses to `nearestList` tested. -/
def scanCatalogChecked {D : Type} (lt : D → D → Prop) [DecidableRel lt]
    (distance : Park → Park → D)
    (parks : List Park) (amount i : Nat) : Nat → Nat → Slots → Outcome Slots
  | 0, _, _ => .fuel
  | fuel + 1, j, nl =>
    if j < parks.length then
      (if j = 0 then
        (skipLoopChecked parks nl amount ((parks.length + 1) * (amount + 2)) j 0).andThen
          fun j1 =>
            match parks[j1]? with
            | none => .fault (.catalogRead j1)
            | some p => (writeSlot nl i p).andThen fun nl1 => .ok (j1, nl1)
      else .ok (j, nl)).andThen fun st =>
        match parks[st.1]? with
        | none => .fault (.catalogRead st.1)
        | some p =>
          (considerParkChecked lt distance i p st.2).andThen fun nl1 =>
            scanCatalogChecked lt distance parks amount i fuel (st.1 + 1) nl1
    else .ok nl

/-- The loop over `i` of getNearest (parks.c:166-205) as in `rounds`, with the accesses to
`nearestList` tested. -/
def roundsChecked {D : Type} (lt : D → D → Prop) [DecidableRel lt]
    (distance : Park → Park → D)
    (parks : List Park) (amount : Nat) : Nat → Nat → Slots → Outcome Slots
  | 0, _, nl => .ok nl
  | n + 1, i, nl =>
    (scanCatalogChecked lt distance parks amount i (parks.length + 1) 0 nl).andThen fun nl1 =>
      roundsChecked lt distance parks amount n (i + 1) nl1

/-- The printing loop of getNearest (parks.c:208-213) from position `i`, as many
iterations as the first number says, with the reads of `nearestList[i]` and
`nearestList[0]` tested. -/
def printLoopChecked {D : Type} (distance : Park → Park → D) (nl : Slots) :
    Nat → Nat → Outcome (List (Park × D))
  | 0, _ => .ok []
  | n + 1, i =>
    (readSlot nl i).andThen fun ei =>
      (readSlot nl 0).andThen fun e0 =>
        match e0, ei with
        | some a, some p =>
          (printLoopChecked distance nl n (i + 1)).andThen fun rs => .ok ((p, distance a p) :: rs)
        | _, _ => .fault .nullEntry

/-- getNearest (parks.c:151-216) as in `getNearest`, with every read and write of an entry
of `nearestList` tested against the `amount + 1` entries of the array: an access outside
them is the fault `resultIndex`. -/
def getNearestChecked {D : Type} (lt : D → D → Prop) [DecidableRel lt]
    (distance : Park → Park → D)
    (catalog : Catalog) (trip : Trip) (amount : Int) (block : Block) :
    Outcome (NearestReport D) :=
  if amount ≤ 0 ∨ trip.count = 0 then .ok .invalid
  else
    let amount1 : Int := if amount > (catalog.count : Int) then (catalog.count : Int) - 1 else amount
    match trip.parks.getLast? with
    | none => .ok .invalid  -- not reached: `trip->count` is not 0 here
    | some anchor =>
      if amount1 + 1 ≤ 0 then .fault .emptyResultList
      else
        let m := amount1.toNat
        (writeSlot ((List.range (m + 1)).map block) 0 anchor).andThen fun nl =>
          (roundsChecked lt distance catalog.parks m m 1 nl).andThen fun nl1 =>
            (printLoopChecked distance nl1 (m + 1) 0).andThen fun rs => .ok (.rows rs)

/-! ## Trip operations: lemmas -/

theorem addLoop_eq (id : Int) (l : List Park) (tp : List Park) (check : Bool) :
    addLoop id l (tp, check)
      = (tp ++ l.filter (fun q => decide (q.id = id)),
         check || l.any (fun q => decide (q.id = id))) := by
  induction l generalizing tp check with
  | nil => simp [addLoop]
  | cons p rest ih =>
    by_cases h : p.id = id
    · simp [addLoop, h, ih]
    · simp [addLoop, h, ih]

theorem filter_id_of_nodup (l : List Park) (p : Park)
    (hnd : (l.map (fun q => q.id)).Nodup) (hp : p ∈ l) :
    l.filter (fun q => decide (q.id = p.id)) = [p] := by
  induction l with
  | nil => cases hp
  | cons q rest ih =>
    simp only [List.map_cons, List.nodup_cons, List.mem_map, not_exists, not_and] at hnd
    rcases List.mem_cons.mp hp with h | h
    · subst h
      have : rest.filter (fun q => decide (q.id = p.id)) = [] := by
        rw [List.filter_eq_nil_iff]
        intro r hr
        have := hnd.1 r hr
        simpa using this
      simp [List.filter_cons, this]
    · have hne : q.id ≠ p.id := fun e => hnd.1 p h e.symm
      simp [List.filter_cons, hne, ih hnd.2 h]

theorem findIndex_none (parkID : Int) (l : List Park) (i : Nat)
    (h : ∀ q ∈ l, q.id ≠ parkID) : findIndex parkID l i = -1 := by
  induction l generalizing i with
  | nil => rfl
  | cons p rest ih =>
    have hp : p.id ≠ parkID := h p (List.mem_cons_self _ _)
    simp only [findIndex, hp, if_false]
    exact ih (i + 1) (fun q hq => h q (List.mem_cons_of_mem _ hq))

theorem findIndex_first (parkID : Int) (front : List Park) (e : Park) (back : List Park)
    (i : Nat) (h : ∀ q ∈ front, q.id ≠ parkID) (he : e.id = parkID) :
    findIndex parkID (front ++ e :: back) i = ((i + front.length : Nat) : Int) := by
  induction front generalizing i with
  | nil => simp [findIndex, he]
  | cons p rest ih =>
    have hp : p.id ≠ parkID := h p (List.mem_cons_self _ _)
    have hrec := ih (i + 1) (fun q hq => h q (List.mem_cons_of_mem _ hq))
    have hstep : findIndex parkID (p :: rest ++ e :: back) i
        = findIndex parkID (rest ++ e :: back) (i + 1) := by
      show (if p.id = parkID then (i : Int) else findIndex parkID (rest ++ e :: back) (i + 1)) = _
      rw [if_neg hp]
    rw [hstep, hrec]
    simp only [List.length_cons]
    congr 1
    omega

theorem split_first (parkID : Int) (l : List Park) (h : ∃ q ∈ l, q.id = parkID) :
    ∃ front e back, l = front ++ e :: back ∧ e.id = parkID ∧ ∀ q ∈ front, q.id ≠ parkID := by
  induction l with
  | nil => obtain ⟨q, hq, _⟩ := h; cases hq
  | cons p rest ih =>
    by_cases hp : p.id = parkID
    · exact ⟨[], p, rest, rfl, hp, fun q hq => by cases hq⟩
    · obtain ⟨q, hq, hid⟩ := h
      have hq1 : q ∈ rest := by
        rcases List.mem_cons.mp hq with e | e
        · subst e; exact absurd hid hp
        · exact e
      obtain ⟨front, e, back, hl, he, hf⟩ := ih ⟨q, hq1, hid⟩
      refine ⟨p :: front, e, back, by simp [hl], he, ?_⟩
      intro r hr
      rcases List.mem_cons.mp hr with e1 | e1
      · subst e1; exact hp
      · exact hf r e1

theorem shiftLeft_eq (front : List Park) (e : Park) (back : List Park) :
    ∃ x, shiftLeft back.length front.length (front ++ e :: back) = front ++ back ++ [x] := by
  induction back generalizing front e with
  | nil => exact ⟨e, by simp [shiftLeft]⟩
  | cons b bs ih =>
    obtain ⟨x, hx⟩ := ih (front ++ [b]) b
    refine ⟨x, ?_⟩
    have h1 : (front ++ e :: b :: bs)[front.length + 1]? = some b := by
      rw [List.getElem?_append_right (by omega)]
      simp
    have h2 : (front ++ e :: b :: bs).set front.length b = (front ++ [b]) ++ b :: bs := by
      rw [List.set_append_right _ _ (le_refl _)]
      simp
    simp only [List.length_cons, shiftLeft, h1, h2]
    have h3 : front.length + 1 = (front ++ [b]).length := by simp
    rw [h3, hx]
    simp

/-! ## Trip operations: the claims -/

/-- C6: over a catalog with pairwise-distinct ids, addParkToTrip with the id of a catalog
park `p` appends `p` at the end of the trip, whatever the trip holds (also when `p` is
in it already), keeps the earlier entries in place and prints no "Invalid command". -/
theorem addParkToTrip_appends (catalog : Catalog) (trip : Trip) (p : Park)
    (hnd : (catalog.parks.map (fun q => q.id)).Nodup) (hp : p ∈ catalog.parks) :
    (addParkToTrip catalog trip p.id).1.parks = trip.parks ++ [p] ∧
      (addParkToTrip catalog trip p.id).2 = false := by
  have hany : catalog.parks.any (fun q => decide (q.id = p.id)) = true :=
    List.any_eq_true.mpr ⟨p, hp, by simp⟩
  simp [addParkToTrip, addLoop_eq, filter_id_of_nodup catalog.parks p hnd hp, hany]

/-- Witness of C6: park 1 is added to a trip that already ends with park 1. -/
theorem addParkToTrip_appends_witness :
    (addParkToTrip sampleCatalog { parks := [mkPark 3 0 2, mkPark 1 0 0], capacity := 5 }
        (mkPark 1 0 0).id).1.parks
      = [mkPark 3 0 2, mkPark 1 0 0] ++ [mkPark 1 0 0] ∧
    (addParkToTrip sampleCatalog { parks := [mkPark 3 0 2, mkPark 1 0 0], capacity := 5 }
        (mkPark 1 0 0).id).2 = false :=
  addParkToTrip_appends sampleCatalog _ (mkPark 1 0 0) (by decide) (by decide)

/-- C7: when no catalog park has the id, addParkToTrip prints "Invalid command" and the
trip sequence is the one before the call (of the storage, the capacity of a full trip has
doubled before the search). -/
theorem addParkToTrip_unknown_id (catalog : Catalog) (trip : Trip) (id : Int)
    (h : ∀ q ∈ catalog.parks, q.id ≠ id) :
    (addParkToTrip catalog trip id).1.parks = trip.parks ∧
      (addParkToTrip catalog trip id).2 = true ∧
      (addParkToTrip catalog trip id).1.capacity
        = (if trip.count = trip.capacity then trip.capacity * 2 else trip.capacity) := by
  have hf : catalog.parks.filter (fun q => decide (q.id = id)) = [] := by
    rw [List.filter_eq_nil_iff]
    intro q hq
    simpa using h q hq
  have hany : catalog.parks.any (fun q => decide (q.id = id)) = false := by
    rw [List.any_eq_false]
    intro q hq
    simpa using h q hq
  simp [addParkToTrip, addLoop_eq, hf, hany]

/-- Witness of C7: id 7 is not in the sample catalog. -/
theorem addParkToTrip_unknown_id_witness :
    (addParkToTrip sampleCatalog { parks := [mkPark 3 0 2], capacity := 5 } 7).1.parks
      = [mkPark 3 0 2] ∧
    (addParkToTrip sampleCatalog { parks := [mkPark 3 0 2], capacity := 5 } 7).2 = true ∧
    (addParkToTrip sampleCatalog { parks := [mkPark 3 0 2], capacity := 5 } 7).1.capacity
      = (if (Trip.mk [mkPark 3 0 2] 5).count = (Trip.mk [mkPark 3 0 2] 5).capacity
          then (Trip.mk [mkPark 3 0 2] 5).capacity * 2 else (Trip.mk [mkPark 3 0 2] 5).capacity) :=
  addParkToTrip_unknown_id sampleCatalog _ 7 (by decide)

/-- C8, evaluated on the code: from the empty trip, `add 1` twice over the sample catalog
(pairwise-distinct ids) gives a trip that holds park 1 twice, and neither command prints
"Invalid command". -/
theorem addParkToTrip_twice_duplicates :
    (addParkToTrip sampleCatalog (addParkToTrip sampleCatalog makeTrip 1).1 1).1.parks
      = [mkPark 1 0 0, mkPark 1 0 0] ∧
    (addParkToTrip sampleCatalog makeTrip 1).2 = false ∧
    (addParkToTrip sampleCatalog (addParkToTrip sampleCatalog makeTrip 1).1 1).2 = false ∧
    ¬ (((addParkToTrip sampleCatalog (addParkToTrip sampleCatalog makeTrip 1).1 1).1.parks).map
        (fun q => q.id)).Nodup := by
  decide

/-- C9: when the trip has an entry with the id, removeParkFromTrip deletes the first such
entry: the trip is `front ++ e :: back` with `e` the first entry with the id, the result is
`front ++ back`, one entry shorter, and no "Invalid command" is printed. -/
theorem removeParkFromTrip_first (trip : Trip) (parkID : Int)
    (h : ∃ q ∈ trip.parks, q.id = parkID) :
    ∃ front e back, trip.parks = front ++ e :: back ∧ e.id = parkID ∧
      (∀ q ∈ front, q.id ≠ parkID) ∧
      (removeParkFromTrip trip parkID).1.parks = front ++ back ∧
      (removeParkFromTrip trip parkID).1.parks.length + 1 = trip.parks.length ∧
      (removeParkFromTrip trip parkID).2 = false := by
  obtain ⟨front, e, back, hl, he, hf⟩ := split_first parkID trip.parks h
  have hidx : findIndex parkID trip.parks 0 = ((front.length : Nat) : Int) := by
    rw [hl, findIndex_first parkID front e back 0 hf he]
    simp
  have hne : ((front.length : Nat) : Int) ≠ -1 := by omega
  obtain ⟨x, hx⟩ := shiftLeft_eq front e back
  have hcount : trip.count - 1 - front.length = back.length := by
    simp [Trip.count, hl]
  have hparks : (removeParkFromTrip trip parkID).1.parks = front ++ back := by
    simp only [removeParkFromTrip, hidx, hne, ne_eq, not_false_eq_true, if_true,
      Int.toNat_ofNat, hcount]
    rw [hl, hx]
    have hlen : trip.count - 1 = (front ++ back).length := by simp [Trip.count, hl]
    rw [hlen, List.take_left]
  refine ⟨front, e, back, hl, he, hf, hparks, ?_, ?_⟩
  · rw [hparks, hl]; simp; omega
  · simp [removeParkFromTrip, hidx, hne]

/-- Witness of C9: the trip 1, 3, 1, 2 with id 1 removed. -/
theorem removeParkFromTrip_first_witness :
    ∃ front e back,
      (Trip.mk [mkPark 1 0 0, mkPark 3 0 2, mkPark 1 0 0, mkPark 2 0 1] 5).parks
        = front ++ e :: back ∧ e.id = 1 ∧
      (∀ q ∈ front, q.id ≠ 1) ∧
      (removeParkFromTrip (Trip.mk [mkPark 1 0 0, mkPark 3 0 2, mkPark 1 0 0, mkPark 2 0 1] 5)
        1).1.parks = front ++ back ∧
      (removeParkFromTrip (Trip.mk [mkPark 1 0 0, mkPark 3 0 2, mkPark 1 0 0, mkPark 2 0 1] 5)
        1).1.parks.length + 1
        = (Trip.mk [mkPark 1 0 0, mkPark 3 0 2, mkPark 1 0 0, mkPark 2 0 1] 5).parks.length ∧
      (removeParkFromTrip (Trip.mk [mkPark 1 0 0, mkPark 3 0 2, mkPark 1 0 0, mkPark 2 0 1] 5)
        1).2 = false :=
  removeParkFromTrip_first _ 1 ⟨mkPark 1 0 0, by decide, by decide⟩

/-- C10: when no trip entry has the id, removeParkFromTrip prints "Invalid command" and
the trip (sequence and capacity) is the one before the call. -/
theorem removeParkFromTrip_absent (trip : Trip) (parkID : Int)
    (h : ∀ q ∈ trip.parks, q.id ≠ parkID) :
    removeParkFromTrip trip parkID = (trip, true) := by
  simp [removeParkFromTrip, findIndex_none parkID trip.parks 0 h]

/-- Witness of C10: id 2 is not in the trip 1, 3. -/
theorem removeParkFromTrip_absent_witness :
    removeParkFromTrip (Trip.mk [mkPark 1 0 0, mkPark 3 0 2] 5) 2
      = (Trip.mk [mkPark 1 0 0, mkPark 3 0 2] 5, true) :=
  removeParkFromTrip_absent _ 2 (by decide)

/-! ## getNearest: the invalid command -/

theorem andThen_rows_ne_invalid {D α : Type} (o : Outcome α) (f : α → List (Park × D)) :
    (o.andThen fun x => .ok (.rows (f x)) : Outcome (NearestReport D)) ≠ .ok .invalid := by
  cases o <;> simp [Outcome.andThen]

theorem andThen_ne_invalid {D α : Type} (o : Outcome α) (k : α → Outcome (NearestReport D))
    (h : ∀ x, k x ≠ .ok .invalid) : o.andThen k ≠ .ok .invalid := by
  cases o with
  | ok a => exact h a
  | fault f => simp [Outcome.andThen]
  | fuel => simp [Outcome.andThen]

/-- C5: getNearest prints "Invalid command" exactly when `amount <= 0` or the trip is
empty (so for `amount >= 1` and a non-empty trip it does not), and the `nearest` command
leaves the catalog and the trip as they were, whatever its arguments, whatever the
comparison of the distances and whatever the block of the result list holds. -/
theorem getNearest_invalid_iff {D : Type} (lt : D → D → Prop) [DecidableRel lt]
    (distance : Park → Park → D)
    (s : Session) (amount : Int) (block : Block) :
    (Session.nearest lt distance s amount block).1 = s ∧
    ((Session.nearest lt distance s amount block).2 = .ok .invalid
      ↔ (amount ≤ 0 ∨ s.trip.parks = [])) := by
  refine ⟨rfl, ?_⟩
  show getNearest lt distance s.catalog s.trip amount block = .ok .invalid ↔ _
  have hcount : s.trip.count = 0 ↔ s.trip.parks = [] := by
    simp [Trip.count]
  constructor
  · intro h
    by_contra hc
    have hc1 : ¬ (amount ≤ 0 ∨ s.trip.count = 0) := by rwa [hcount]
    have hne : s.trip.parks ≠ [] := fun e => hc (Or.inr e)
    obtain ⟨a, ha⟩ : ∃ a, s.trip.parks.getLast? = some a :=
      ⟨s.trip.parks.getLast hne, List.getLast?_eq_getLast _ hne⟩
    simp only [getNearest, hc1, if_false, ha] at h
    split_ifs at h <;>
      exact andThen_ne_invalid _ _ (fun nl1 => andThen_rows_ne_invalid _ _) h
  · intro h
    have h1 : amount ≤ 0 ∨ s.trip.count = 0 := by rwa [hcount]
    simp [getNearest, h1]

/-! ## getNearest: the loops and their functional description -/

theorem slotAt_slotsOf_zero (a : Park) (sel : List Park) (m : Nat) :
    slotAt (slotsOf a sel m) 0 = some a := by
  simp [slotAt, slotsOf]

theorem slotAt_slotsOf_succ (a : Park) (sel : List Park) (m x : Nat) :
    slotAt (slotsOf a sel m) (x + 1) = sel[x]? := by
  simp only [slotAt, slotsOf, List.getElem?_cons_succ]
  by_cases h : x < sel.length
  · rw [List.getElem?_append_left (by simpa using h)]
    simp [h]
  · rw [List.getElem?_append_right (by simpa using h)]
    have h1 : sel[x]? = none := List.getElem?_eq_none (by omega)
    rw [h1, List.getElem?_replicate]
    split_ifs <;> rfl

theorem skipFrom_drop (ids : List Int) (parks : List Park) (j : Nat) :
    skipFrom ids (parks.drop j) j
      = match parks[j]? with
        | none => .fault (.catalogRead j)
        | some p => if p.id ∈ ids then skipFrom ids (parks.drop (j + 1)) (j + 1) else .ok (j, p) := by
  cases h : parks[j]? with
  | none =>
    have : parks.drop j = [] := List.drop_eq_nil_of_le (by simpa using h)
    simp [this, skipFrom]
  | some p =>
    have hj : j < parks.length := (List.getElem?_eq_some_iff.mp h).1
    have hp : parks[j] = p := (List.getElem?_eq_some_iff.mp h).2
    have : parks.drop j = p :: parks.drop (j + 1) := by
      rw [← hp]; exact List.drop_eq_getElem_cons hj
    simp [this, skipFrom]

theorem landing_ok (parks : List Park) (j : Nat) :
    landing parks (.ok j)
      = match parks[j]? with
        | none => .fault (.catalogRead j)
        | some p => .ok (j, p) := rfl

theorem skipLoop_landing (a : Park) (sel parks : List Park) (m : Nat) (hm : sel.length ≤ m) :
    ∀ (fuel j y : Nat), y ≤ m → (parks.length - j) * (m + 1) + (m - y) + 1 ≤ fuel →
      landing parks (skipLoop parks (slotsOf a sel m) m fuel j (y + 1))
        = match parks[j]? with
          | none => .fault (.catalogRead j)
          | some p =>
            if p.id ∈ (sel.drop y).map (fun q => q.id)
            then skipFrom (sel.map fun q => q.id) (parks.drop (j + 1)) (j + 1)
            else .ok (j, p) := by
  intro fuel
  induction fuel with
  | zero => intro j y _ hf; omega
  | succ fuel ih =>
    intro j y hy hf
    rw [skipLoop]
    by_cases hx : y + 1 ≤ m
    · rw [if_pos hx, slotAt_slotsOf_succ]
      cases hs : sel[y]? with
      | none =>
        have hd : sel.drop y = [] :=
          List.drop_eq_nil_of_le (by simpa using hs)
        simp only [hd, List.map_nil, List.not_mem_nil, if_false]
        rw [landing_ok]
      | some q =>
        have hyl : y < sel.length := (List.getElem?_eq_some_iff.mp hs).1
        have hq : sel[y] = q := (List.getElem?_eq_some_iff.mp hs).2
        have hd : sel.drop y = q :: sel.drop (y + 1) := by
          rw [← hq]; exact List.drop_eq_getElem_cons hyl
        cases hp : parks[j]? with
        | none => simp [landing, Outcome.andThen]
        | some p =>
          have hj : j < parks.length := (List.getElem?_eq_some_iff.mp hp).1
          simp only []
          by_cases hpq : p.id = q.id
          · rw [if_pos hpq]
            have hmem : p.id ∈ (sel.drop y).map (fun q => q.id) := by
              rw [hd]; simp [hpq]
            rw [if_pos hmem]
            have hfuel : (parks.length - (j + 1)) * (m + 1) + (m - 0) + 1 ≤ fuel := by
              have e : parks.length - j = (parks.length - (j + 1)) + 1 := by omega
              rw [e, Nat.add_mul] at hf
              omega
            have := ih (j + 1) 0 (Nat.zero_le _) hfuel
            rw [this, List.drop_zero]
            exact (skipFrom_drop _ _ _).symm
          · rw [if_neg hpq]
            have hfuel : (parks.length - j) * (m + 1) + (m - (y + 1)) + 1 ≤ fuel := by
              omega
            have := ih j (y + 1) hx hfuel
            rw [this, hp]
            simp only [hd, List.map_cons, List.mem_cons, hpq, false_or]
    · rw [if_neg hx]
      have hd : sel.drop y = [] := List.drop_eq_nil_of_le (by omega)
      simp only [hd, List.map_nil, List.not_mem_nil, if_false]
      rw [landing_ok]

theorem skipLoop_start (a : Park) (sel : List Park) (p0 : Park) (rest : List Park) (m : Nat)
    (hm : sel.length ≤ m) :
    landing (p0 :: rest)
        (skipLoop (p0 :: rest) (slotsOf a sel m) m (((p0 :: rest).length + 1) * (m + 2)) 0 0)
      = firstLanding a (sel.map fun q => q.id) (p0 :: rest) := by
  have hF : ((p0 :: rest).length + 1) * (m + 2)
      = ((p0 :: rest).length * (m + 1) + m + 1 + (p0 :: rest).length) + 1 := by ring
  rw [hF, skipLoop, if_pos (Nat.zero_le _), slotAt_slotsOf_zero]
  simp only [List.getElem?_cons_zero, firstLanding]
  by_cases h : p0.id = a.id
  · rw [if_pos h, if_pos (Or.inl h)]
    have hfuel : ((p0 :: rest).length - 1) * (m + 1) + (m - 0) + 1
        ≤ (p0 :: rest).length * (m + 1) + m + 1 + (p0 :: rest).length := by
      have : ((p0 :: rest).length - 1) * (m + 1) ≤ (p0 :: rest).length * (m + 1) :=
        Nat.mul_le_mul_right _ (Nat.sub_le _ _)
      omega
    rw [skipLoop_landing a sel (p0 :: rest) m hm _ 1 0 (Nat.zero_le _) hfuel, List.drop_zero]
    exact (skipFrom_drop _ (p0 :: rest) 1).symm
  · rw [if_neg h]
    have hfuel : ((p0 :: rest).length - 0) * (m + 1) + (m - 0) + 1
        ≤ (p0 :: rest).length * (m + 1) + m + 1 + (p0 :: rest).length := by
      simp only [Nat.sub_zero]
      omega
    rw [skipLoop_landing a sel (p0 :: rest) m hm _ 0 0 (Nat.zero_le _) hfuel, List.drop_zero]
    simp [h]

theorem inListLoop_eq (p : Park) (l : List Park) (acc : Bool) :
    inListLoop p (l.map some) acc = (acc || decide (p.id ∈ l.map fun q => q.id)) := by
  induction l generalizing acc with
  | nil => simp [inListLoop]
  | cons q rest ih =>
    simp only [List.map_cons, inListLoop, ih, List.mem_cons, add_left_inj]
    by_cases h : p.id = q.id
    · simp [h]
    · simp [h]

theorem take_slotsOf (a : Park) (sel more : List Park) (m : Nat) :
    (slotsOf a (sel ++ more) m).take (sel.length + 1) = some a :: sel.map some := by
  simp only [slotsOf, List.take_succ_cons, List.map_append, List.append_assoc]
  rw [List.take_append_of_le_length (by simp)]
  rw [List.take_of_length_le (by simp)]

theorem set_slotsOf (a : Park) (sel : List Park) (c p : Park) (m : Nat) :
    (slotsOf a (sel ++ [c]) m).set (sel.length + 1) (some p) = slotsOf a (sel ++ [p]) m := by
  simp only [slotsOf, List.set_cons_succ, List.map_append, List.map_cons, List.map_nil,
    List.append_assoc, List.length_append, List.length_cons, List.length_nil]
  congr 1
  have : sel.length = (sel.map some).length := by simp
  rw [this, List.set_append_right _ _ (le_refl _)]
  simp

theorem set_slotsOf_new (a : Park) (sel : List Park) (c : Park) (m : Nat)
    (h : sel.length < m) :
    (slotsOf a sel m).set (sel.length + 1) (some c) = slotsOf a (sel ++ [c]) m := by
  simp only [slotsOf, List.set_cons_succ, List.map_append, List.map_cons, List.map_nil,
    List.append_assoc, List.length_append, List.length_cons, List.length_nil]
  congr 1
  obtain ⟨r, hr⟩ : ∃ r, m - sel.length = r + 1 := ⟨m - sel.length - 1, by omega⟩
  have hr1 : m - (sel.length + (0 + 1)) = r := by omega
  have hl : sel.length = (sel.map some).length := by simp
  rw [hr, hr1, List.replicate_succ]
  conv_lhs => rw [hl, List.set_append_right _ _ (le_refl _)]
  simp

theorem considerPark_slotsOf {D : Type} (lt : D → D → Prop) [DecidableRel lt]
    (distance : Park → Park → D)
    (a : Park) (sel : List Park) (c p : Park) (m : Nat) :
    considerPark lt distance (sel.length + 1) p (slotsOf a (sel ++ [c]) m)
      = .ok (slotsOf a (sel ++ [if lt (distance a p) (distance a c) ∧
            p.id ∉ (a.id :: sel.map fun q => q.id) then p else c]) m) := by
  have hi : slotAt (slotsOf a (sel ++ [c]) m) (sel.length + 1) = some c := by
    rw [slotAt_slotsOf_succ]
    simp
  have hin : inListLoop p (some a :: sel.map some) false
      = decide (p.id ∈ (a.id :: sel.map fun q => q.id)) := by
    have := inListLoop_eq p (a :: sel) false
    simpa using this
  simp only [considerPark, slotAt_slotsOf_zero, hi, take_slotsOf, hin, decide_eq_false_iff_not]
  split_ifs with h
  · rw [set_slotsOf]
  · rfl

theorem scanCatalog_tail {D : Type} (lt : D → D → Prop) [DecidableRel lt]
    (distance : Park → Park → D)
    (a : Park) (sel parks : List Park) (m : Nat) :
    ∀ (fuel j : Nat) (c : Park), 1 ≤ j → parks.length - j + 1 ≤ fuel →
      scanCatalog lt distance parks m (sel.length + 1) fuel j (slotsOf a (sel ++ [c]) m)
        = .ok (slotsOf a
            (sel ++ [pick lt distance a (a.id :: sel.map fun q => q.id) c (parks.drop j)]) m) := by
  intro fuel
  induction fuel with
  | zero => intro j c _ hf; omega
  | succ fuel ih =>
    intro j c hj hf
    rw [scanCatalog]
    by_cases hlt : j < parks.length
    · have hj0 : j ≠ 0 := by omega
      have hp : parks[j]? = some parks[j] := List.getElem?_eq_getElem hlt
      have hd : parks.drop j = parks[j] :: parks.drop (j + 1) := List.drop_eq_getElem_cons hlt
      rw [if_pos hlt, if_neg hj0]
      simp only [Outcome.andThen, hp, considerPark_slotsOf]
      rw [ih (j + 1) _ (by omega) (by omega), hd]
      rfl
    · rw [if_neg hlt]
      have hd : parks.drop j = [] := List.drop_eq_nil_of_le (by omega)
      simp [hd, pick]

theorem landing_andThen (parks : List Park) (o : Outcome Nat) (nl : Slots) (i : Nat) :
    (o.andThen fun j1 =>
        match parks[j1]? with
        | none => (.fault (.catalogRead j1) : Outcome (Nat × Slots))
        | some p => .ok (j1, nl.set i (some p)))
      = (landing parks o).andThen fun st => .ok (st.1, nl.set i (some st.2)) := by
  cases o with
  | ok j =>
    simp only [landing, Outcome.andThen]
    cases parks[j]? <;> rfl
  | fault f => rfl
  | fuel => rfl

theorem skipFrom_getElem (ids : List Int) (parks : List Park) :
    ∀ (j j1 : Nat) (c : Park), skipFrom ids (parks.drop j) j = .ok (j1, c) →
      j ≤ j1 ∧ parks[j1]? = some c ∧ c.id ∉ ids := by
  intro j
  obtain ⟨n, hn⟩ : ∃ n, parks.length - j = n := ⟨_, rfl⟩
  induction n generalizing j with
  | zero =>
    intro j1 c h
    have : parks.drop j = [] := List.drop_eq_nil_of_le (by omega)
    simp [this, skipFrom] at h
  | succ n ih =>
    intro j1 c h
    rw [skipFrom_drop] at h
    have hlt : j < parks.length := by omega
    rw [List.getElem?_eq_getElem hlt] at h
    simp only [] at h
    by_cases hmem : parks[j].id ∈ ids
    · rw [if_pos hmem] at h
      have := ih (j + 1) (by omega) j1 c h
      exact ⟨by omega, this.2⟩
    · rw [if_neg hmem] at h
      simp only [Outcome.ok.injEq, Prod.mk.injEq] at h
      obtain ⟨h1, h2⟩ := h
      subst h1; subst h2
      exact ⟨le_refl _, List.getElem?_eq_getElem hlt, hmem⟩

theorem firstLanding_getElem (a : Park) (ids : List Int) (parks : List Park)
    (j1 : Nat) (c : Park) (h : firstLanding a ids parks = .ok (j1, c)) :
    parks[j1]? = some c ∧ c.id ∉ ids := by
  cases parks with
  | nil => simp [firstLanding] at h
  | cons p0 rest =>
    simp only [firstLanding] at h
    split_ifs at h with h0
    · have := skipFrom_getElem ids (p0 :: rest) 1 j1 c (by simpa using h)
      exact this.2
    · simp only [Outcome.ok.injEq, Prod.mk.injEq] at h
      obtain ⟨h1, h2⟩ := h
      subst h1; subst h2
      exact ⟨by simp, fun hm => h0 (Or.inr hm)⟩

/-- One run of the loop over `j` (round `i` of getNearest, `i - 1` parks chosen so far)
computes `selectRound`. -/
theorem scanCatalog_round {D : Type} (lt : D → D → Prop) [DecidableRel lt]
    (distance : Park → Park → D)
    (a : Park) (sel parks : List Park) (m : Nat) (hm : sel.length < m) (hne : parks ≠ []) :
    scanCatalog lt distance parks m (sel.length + 1) (parks.length + 1) 0 (slotsOf a sel m)
      = (selectRound lt distance a parks sel).andThen fun sel1 => .ok (slotsOf a sel1 m) := by
  obtain ⟨p0, rest, rfl⟩ : ∃ p0 rest, parks = p0 :: rest := by
    cases parks with
    | nil => exact absurd rfl hne
    | cons p0 rest => exact ⟨p0, rest, rfl⟩
  rw [scanCatalog, if_pos (by simp), if_pos rfl, landing_andThen,
    skipLoop_start a sel p0 rest m (le_of_lt hm), selectRound]
  cases hl : firstLanding a (sel.map fun q => q.id) (p0 :: rest) with
  | fault f => rfl
  | fuel => rfl
  | ok st =>
    obtain ⟨j1, c⟩ := st
    have hc := (firstLanding_getElem a _ _ j1 c hl).1
    have hj1 : j1 < (p0 :: rest).length := (List.getElem?_eq_some_iff.mp hc).1
    simp only [Outcome.andThen, hc, set_slotsOf_new a sel c m hm, considerPark_slotsOf,
      ite_self]
    rw [scanCatalog_tail lt distance a sel (p0 :: rest) m _ (j1 + 1) c (by omega)
      (by simp only [List.length_cons]; omega)]

theorem selectRound_ok {D : Type} (lt : D → D → Prop) [DecidableRel lt]
    (distance : Park → Park → D)
    (a : Park) (parks sel sel1 : List Park) (h : selectRound lt distance a parks sel = .ok sel1) :
    ∃ w, sel1 = sel ++ [w] := by
  simp only [selectRound] at h
  cases hl : firstLanding a (sel.map fun q => q.id) parks with
  | fault f => simp [hl, Outcome.andThen] at h
  | fuel => simp [hl, Outcome.andThen] at h
  | ok st =>
    simp only [hl, Outcome.andThen, Outcome.ok.injEq] at h
    exact ⟨_, h.symm⟩

/-- The loop over `i` computes `selectRounds`. -/
theorem rounds_eq {D : Type} (lt : D → D → Prop) [DecidableRel lt]
    (distance : Park → Park → D)
    (a : Park) (parks : List Park) (m : Nat) (hne : parks ≠ []) :
    ∀ (r : Nat) (sel : List Park), sel.length + r ≤ m →
      rounds lt distance parks m r (sel.length + 1) (slotsOf a sel m)
        = (selectRounds lt distance a parks r sel).andThen fun sel1 => .ok (slotsOf a sel1 m) := by
  intro r
  induction r with
  | zero => intro sel _; rfl
  | succ r ih =>
    intro sel hr
    rw [rounds, scanCatalog_round lt distance a sel parks m (by omega) hne, selectRounds]
    cases hs : selectRound lt distance a parks sel with
    | fault f => rfl
    | fuel => rfl
    | ok sel1 =>
      obtain ⟨w, rfl⟩ := selectRound_ok lt distance a parks sel sel1 hs
      simp only [Outcome.andThen]
      have := ih (sel ++ [w]) (by simp only [List.length_append, List.length_singleton]; omega)
      simp only [List.length_append, List.length_singleton] at this
      exact this

theorem selectRounds_length {D : Type} (lt : D → D → Prop) [DecidableRel lt]
    (distance : Park → Park → D)
    (a : Park) (parks : List Park) :
    ∀ (r : Nat) (sel sel1 : List Park), selectRounds lt distance a parks r sel = .ok sel1 →
      sel1.length = sel.length + r := by
  intro r
  induction r with
  | zero =>
    intro sel sel1 h
    simp only [selectRounds, Outcome.ok.injEq] at h
    simp [h]
  | succ r ih =>
    intro sel sel1 h
    rw [selectRounds] at h
    cases hs : selectRound lt distance a parks sel with
    | fault f => simp [hs, Outcome.andThen] at h
    | fuel => simp [hs, Outcome.andThen] at h
    | ok sel2 =>
      obtain ⟨w, rfl⟩ := selectRound_ok lt distance a parks sel sel2 hs
      simp only [hs, Outcome.andThen] at h
      have := ih _ _ h
      simp only [List.length_append, List.length_singleton] at this
      omega

theorem printRows_map {D : Type} (distance : Park → Park → D) (a : Park) (l : List Park) :
    printRows distance a (l.map some) = .ok (l.map fun p => (p, distance a p)) := by
  induction l with
  | nil => rfl
  | cons p rest ih => simp [printRows, ih, Outcome.andThen]

theorem printRows_slotsOf {D : Type} (distance : Park → Park → D) (a : Park)
    (sel : List Park) (m : Nat) (h : sel.length = m) :
    printRows distance a (slotsOf a sel m) = .ok (rowsOf distance a sel) := by
  have : slotsOf a sel m = (a :: sel).map some := by
    simp [slotsOf, h]
  rw [this, printRows_map]
  rfl

theorem initialSlots_null (a : Park) (m : Nat) (block : Block)
    (hblock : ∀ x, x < m → block (x + 1) = none) :
    initialSlots a m block = slotsOf a [] m := by
  have h : (List.range m).map (fun x => block (x + 1)) = List.replicate m none := by
    rw [List.eq_replicate_iff]
    refine ⟨by simp, ?_⟩
    intro b hb
    obtain ⟨x, hx, rfl⟩ := List.mem_map.mp hb
    exact hblock x (List.mem_range.mp hx)
  simp [initialSlots, slotsOf, h]

/-- getNearest, for a positive amount and a trip with last entry `a` over a catalog that is
not empty, on a block whose entries `1..amount` hold NULL, computes `selectRounds` from the
empty list and prints its rows. -/
theorem getNearest_eq {D : Type} (lt : D → D → Prop) [DecidableRel lt]
    (distance : Park → Park → D)
    (catalog : Catalog) (trip : Trip) (amount : Int) (a : Park) (block : Block)
    (hlast : trip.parks.getLast? = some a) (hne : catalog.parks ≠ []) (hk : 1 ≤ amount)
    (hblock : ∀ x, x < clampAmount catalog.count amount → block (x + 1) = none) :
    getNearest lt distance catalog trip amount block
      = (selectRounds lt distance a catalog.parks (clampAmount catalog.count amount) []).andThen
          fun sel => .ok (.rows (rowsOf distance a sel)) := by
  have htrip : trip.count ≠ 0 := by
    intro h
    have : trip.parks = [] := by simpa [Trip.count] using h
    simp [this] at hlast
  have hc : ¬ (amount ≤ 0 ∨ trip.count = 0) := by
    intro h
    rcases h with h | h
    · omega
    · exact htrip h
  have hcount : 1 ≤ catalog.count := by
    have : catalog.parks.length ≠ 0 := fun h => hne (List.length_eq_zero.mp h)
    simp only [Catalog.count]
    omega
  have hpos : ¬ ((if amount > (catalog.count : Int) then (catalog.count : Int) - 1 else amount)
      + 1 ≤ 0) := by
    split_ifs <;> omega
  simp only [getNearest, hc, if_false, hlast, hpos]
  have hr := rounds_eq lt distance a catalog.parks (clampAmount catalog.count amount) hne
    (clampAmount catalog.count amount) [] (by simp)
  have hs : initialSlots a (clampAmount catalog.count amount) block
      = slotsOf a [] (clampAmount catalog.count amount) :=
    initialSlots_null a _ block hblock
  simp only [List.length_nil, Nat.zero_add] at hr
  show ((rounds lt distance catalog.parks (clampAmount catalog.count amount)
      (clampAmount catalog.count amount) 1
      (initialSlots a (clampAmount catalog.count amount) block)).andThen _) = _
  rw [hs, hr]
  cases hsel : selectRounds lt distance a catalog.parks (clampAmount catalog.count amount) [] with
  | fault f => rfl
  | fuel => rfl
  | ok sel =>
    have hlen := selectRounds_length lt distance a catalog.parks _ _ _ hsel
    simp only [Outcome.andThen]
    rw [printRows_slotsOf distance a sel _ (by simpa using hlen)]

/-! ## getNearest: the number of rows -/

theorem exists_id_not_mem (rest : List Park) (ids : List Int)
    (hnd : (rest.map fun q => q.id).Nodup) (hlen : ids.length < rest.length) :
    ∃ p ∈ rest, p.id ∉ ids := by
  by_contra hc
  push_neg at hc
  have hsub : (rest.map fun q => q.id) ⊆ ids := by
    intro x hx
    obtain ⟨p, hp, rfl⟩ := List.mem_map.mp hx
    exact hc p hp
  have := (hnd.subperm hsub).length_le
  simp only [List.length_map] at this
  omega

theorem skipFrom_ok (ids : List Int) (ps : List Park) (j : Nat)
    (h : ∃ p ∈ ps, p.id ∉ ids) : ∃ st, skipFrom ids ps j = .ok st := by
  induction ps generalizing j with
  | nil => obtain ⟨p, hp, _⟩ := h; cases hp
  | cons q rest ih =>
    by_cases hq : q.id ∈ ids
    · obtain ⟨p, hp, hpid⟩ := h
      have hp1 : p ∈ rest := by
        rcases List.mem_cons.mp hp with e | e
        · subst e; exact absurd hq hpid
        · exact e
      simp only [skipFrom, hq, if_true]
      exact ih (j + 1) ⟨p, hp1, hpid⟩
    · exact ⟨(j, q), by simp [skipFrom, hq]⟩

theorem firstLanding_ok (a : Park) (ids : List Int) (p0 : Park) (rest : List Park)
    (h : ∃ p ∈ rest, p.id ∉ ids) : ∃ st, firstLanding a ids (p0 :: rest) = .ok st := by
  simp only [firstLanding]
  split_ifs
  · exact skipFrom_ok ids rest 1 h
  · exact ⟨_, rfl⟩

theorem selectRounds_ok {D : Type} (lt : D → D → Prop) [DecidableRel lt]
    (distance : Park → Park → D)
    (a p0 : Park) (rest : List Park) (hnd : ((p0 :: rest).map fun q => q.id).Nodup) :
    ∀ (r : Nat) (sel : List Park), sel.length + r ≤ rest.length →
      ∃ sel1, selectRounds lt distance a (p0 :: rest) r sel = .ok sel1 ∧
        sel1.length = sel.length + r := by
  have hrest : (rest.map fun q => q.id).Nodup := by
    simp only [List.map_cons, List.nodup_cons] at hnd
    exact hnd.2
  intro r
  induction r with
  | zero => intro sel _; exact ⟨sel, rfl, rfl⟩
  | succ r ih =>
    intro sel hr
    obtain ⟨st, hst⟩ := firstLanding_ok a (sel.map fun q => q.id) p0 rest
      (exists_id_not_mem rest _ hrest (by simp only [List.length_map]; omega))
    have hround : selectRound lt distance a (p0 :: rest) sel
        = .ok (sel ++ [pick lt distance a (a.id :: sel.map fun q => q.id) st.2
            ((p0 :: rest).drop (st.1 + 1))]) := by
      simp only [selectRound, hst, Outcome.andThen]
    obtain ⟨sel1, h1, h2⟩ := ih (sel ++ [pick lt distance a (a.id :: sel.map fun q => q.id) st.2
        ((p0 :: rest).drop (st.1 + 1))])
      (by simp only [List.length_append, List.length_singleton]; omega)
    refine ⟨sel1, ?_, ?_⟩
    · rw [selectRounds, hround]
      exact h1
    · rw [h2]
      simp only [List.length_append, List.length_singleton]
      omega

theorem clampAmount_of_ne (count : Nat) (amount : Int) (hc : 1 ≤ count) (hk : 1 ≤ amount)
    (hkn : amount ≠ count) :
    clampAmount count amount ≤ count - 1 ∧
      ((clampAmount count amount : Nat) : Int) = min amount ((count : Int) - 1) := by
  simp only [clampAmount]
  split_ifs with h
  · constructor
    · omega
    · rw [Int.toNat_of_nonneg (by omega), min_eq_right (by omega)]
  · constructor
    · omega
    · rw [Int.toNat_of_nonneg (by omega), min_eq_left (by omega)]

/-- C1, as the code has it: over a catalog of `n` parks with pairwise-distinct ids, for a
trip whose last entry `a` is a catalog park and `amount >= 1` other than `n`, when the
entries `1..min (amount, n - 1)` of the block that `malloc` returns for the result list
hold NULL, getNearest prints the row of the anchor `a` itself (with `distance a a`)
followed by exactly `min (amount, n - 1)` rows, whatever the comparison of the distances
gives. -/
theorem getNearest_report_length {D : Type} (lt : D → D → Prop) [DecidableRel lt]
    (distance : Park → Park → D)
    (catalog : Catalog) (trip : Trip) (amount : Int) (a : Park) (block : Block)
    (hnd : (catalog.parks.map fun q => q.id).Nodup)
    (hlast : trip.parks.getLast? = some a) (ha : a ∈ catalog.parks)
    (hk : 1 ≤ amount) (hkn : amount ≠ (catalog.count : Int))
    (hblock : ∀ x : Nat, 1 ≤ x → (x : Int) ≤ min amount ((catalog.count : Int) - 1) →
      block x = none) :
    ∃ rs, getNearest lt distance catalog trip amount block
        = .ok (.rows ((a, distance a a) :: rs)) ∧
      (rs.length : Int) = min amount ((catalog.count : Int) - 1) := by
  have hne : catalog.parks ≠ [] := List.ne_nil_of_mem ha
  obtain ⟨p0, rest, hparks⟩ : ∃ p0 rest, catalog.parks = p0 :: rest := by
    cases h : catalog.parks with
    | nil => exact absurd h hne
    | cons p0 rest => exact ⟨p0, rest, rfl⟩
  have hcount : catalog.count = rest.length + 1 := by simp [Catalog.count, hparks]
  obtain ⟨hle, hmin⟩ := clampAmount_of_ne catalog.count amount (by omega) hk hkn
  rw [hparks] at hnd
  obtain ⟨sel, hsel, hlen⟩ := selectRounds_ok lt distance a p0 rest hnd
    (clampAmount catalog.count amount) [] (by simp only [List.length_nil]; omega)
  refine ⟨sel.map fun p => (p, distance a p), ?_, ?_⟩
  · rw [getNearest_eq lt distance catalog trip amount a block hlast hne hk
      (fun x hx => hblock (x + 1) (by omega) (by rw [← hmin]; omega)), hparks, hsel]
    rfl
  · rw [List.length_map, hlen, ← hmin]
    simp

/-- Witness of C1 as the code has it: `nearest 2` with the trip 1, 3 over the sample
catalog, on a block of NULL entries. -/
theorem getNearest_report_length_witness :
    ∃ rs, getNearest (· < ·) gridDistance sampleCatalog (Trip.mk [mkPark 1 0 0, mkPark 3 0 2] 5)
          2 nullBlock
        = .ok (.rows ((mkPark 3 0 2, gridDistance (mkPark 3 0 2) (mkPark 3 0 2)) :: rs)) ∧
      (rs.length : Int) = min 2 ((sampleCatalog.count : Int) - 1) :=
  getNearest_report_length (· < ·) gridDistance sampleCatalog
    (Trip.mk [mkPark 1 0 0, mkPark 3 0 2] 5) 2 (mkPark 3 0 2) nullBlock
    (by decide) rfl (by decide) (by decide) (by decide) (fun _ _ _ => rfl)

/-- C1 as stated fails: `nearest 1` with the trip 1 over the sample catalog (3 parks), on a
block of NULL entries, prints 2 rows, not min (1, 3 - 1) = 1. -/
theorem getNearest_report_length_counterexample :
    ¬ ∃ rs, getNearest (· < ·) gridDistance sampleCatalog (Trip.mk [mkPark 1 0 0] 5) 1 nullBlock
        = .ok (.rows rs) ∧
      rs.length = min 1 (sampleCatalog.count - 1) := by
  rintro ⟨rs, hrs, hlen⟩
  rw [getNearest_eq (· < ·) gridDistance sampleCatalog (Trip.mk [mkPark 1 0 0] 5) 1
    (mkPark 1 0 0) nullBlock rfl (by decide) (by decide) (fun _ _ => rfl)] at hrs
  cases hsel : selectRounds (· < ·) gridDistance (mkPark 1 0 0) sampleCatalog.parks
      (clampAmount sampleCatalog.count 1) [] with
  | fault f => simp [hsel, Outcome.andThen] at hrs
  | fuel => simp [hsel, Outcome.andThen] at hrs
  | ok sel =>
    have h1 := selectRounds_length (· < ·) gridDistance _ _ _ _ _ hsel
    simp only [hsel, Outcome.andThen, Outcome.ok.injEq, NearestReport.rows.injEq] at hrs
    subst hrs
    have hc : clampAmount sampleCatalog.count 1 = 1 := by decide
    rw [hc] at h1
    simp [rowsOf, h1] at hlen
    revert hlen
    decide

/-! ## getNearest: the anchor among the chosen parks, and `amount = count` -/

/-- C2, evaluated on the code: over the catalog 1, 2, 3 (longitudes 0, 1, 3) with the trip
2, on a block of NULL entries, `nearest 2` prints the anchor 2, then park 1, then the
anchor 2 again, for every distance function and comparison for which the distance of park
3 from park 2 does not compare as less than that of park 1 and than that of park 2 itself.
In round 2 the loop over `x` passes park 1, restarts at entry 1 of the result list and so
does not compare park 2 with the anchor in entry 0. -/
theorem getNearest_reports_anchor_again {D : Type} (lt : D → D → Prop) [DecidableRel lt]
    (distance : Park → Park → D)
    (h1 : ¬ lt (distance (mkPark 2 0 1) (mkPark 3 0 3)) (distance (mkPark 2 0 1) (mkPark 1 0 0)))
    (h2 : ¬ lt (distance (mkPark 2 0 1) (mkPark 3 0 3))
      (distance (mkPark 2 0 1) (mkPark 2 0 1))) :
    getNearest lt distance spreadCatalog (Trip.mk [mkPark 2 0 1] 5) 2 nullBlock
      = .ok (.rows [(mkPark 2 0 1, distance (mkPark 2 0 1) (mkPark 2 0 1)),
                    (mkPark 1 0 0, distance (mkPark 2 0 1) (mkPark 1 0 0)),
                    (mkPark 2 0 1, distance (mkPark 2 0 1) (mkPark 2 0 1))]) := by
  simp only [mkPark] at h1 h2
  simp [getNearest, rounds, scanCatalog, skipLoop, slotAt, considerPark, inListLoop, printRows,
    Outcome.andThen, mkPark, spreadCatalog, Catalog.count, Trip.count, initialSlots, nullBlock,
    List.range_succ, h1, h2]

/-- Witness of the evaluation for C2, with the sample distance. -/
theorem getNearest_reports_anchor_again_witness :
    getNearest (· < ·) gridDistance spreadCatalog (Trip.mk [mkPark 2 0 1] 5) 2 nullBlock
      = .ok (.rows [(mkPark 2 0 1, gridDistance (mkPark 2 0 1) (mkPark 2 0 1)),
                    (mkPark 1 0 0, gridDistance (mkPark 2 0 1) (mkPark 1 0 0)),
                    (mkPark 2 0 1, gridDistance (mkPark 2 0 1) (mkPark 2 0 1))]) :=
  getNearest_reports_anchor_again (· < ·) gridDistance
    (by norm_num [gridDistance, mkPark]) (by norm_num [gridDistance, mkPark])

/-- C4, evaluated on the code: over the catalog 1, 2 with the trip 1, on a block of NULL
entries, `nearest 2` (`amount = count`, which the adjustment `amount > count` does not
catch) reads `catalog->parks[2]`, outside the positions 0..1, for every distance function
and comparison. -/
theorem getNearest_amount_eq_count_reads_outside {D : Type} (lt : D → D → Prop)
    [DecidableRel lt] (distance : Park → Park → D) :
    getNearest lt distance pairCatalog (Trip.mk [mkPark 1 0 0] 5) 2 nullBlock
      = .fault (.catalogRead 2) := by
  simp [getNearest, rounds, scanCatalog, skipLoop, slotAt, considerPark, inListLoop, printRows,
    Outcome.andThen, mkPark, pairCatalog, Catalog.count, Trip.count, initialSlots, nullBlock,
    List.range_succ]

/-! ## getNearest: what the premises on the block and on the comparison exclude -/

/-- On a block that is not clear getNearest may leave the catalog: over the sample catalog
with the trip 1, `nearest 2` on a block whose entry 2 holds the address of park 3 (as the
block of an earlier `nearest 2` does) reads `catalog->parks[3]`, for every distance
function and comparison for which the distance of park 3 from park 1 does not compare as
less than that of park 2. In round 2 the loop over `x` goes on past entry 1, finds park 3
in entry 2, which round 2 has not written yet, and moves `j` past the last park. -/
theorem getNearest_stale_block_reads_outside {D : Type} (lt : D → D → Prop) [DecidableRel lt]
    (distance : Park → Park → D)
    (h : ¬ lt (distance (mkPark 1 0 0) (mkPark 3 0 2)) (distance (mkPark 1 0 0) (mkPark 2 0 1))) :
    getNearest lt distance sampleCatalog (Trip.mk [mkPark 1 0 0] 5) 2
        (staleBlock 2 (mkPark 3 0 2))
      = .fault (.catalogRead 3) := by
  simp only [mkPark] at h
  simp [getNearest, rounds, scanCatalog, skipLoop, slotAt, considerPark, inListLoop, printRows,
    Outcome.andThen, mkPark, sampleCatalog, Catalog.count, Trip.count, initialSlots, staleBlock,
    List.range_succ, h]

/-- The run of `getNearest_stale_block_reads_outside` with the sample distance. -/
theorem getNearest_stale_block_sample :
    getNearest (· < ·) gridDistance sampleCatalog (Trip.mk [mkPark 1 0 0] 5) 2
        (staleBlock 2 (mkPark 3 0 2))
      = .fault (.catalogRead 3) :=
  getNearest_stale_block_reads_outside (· < ·) gridDistance
    (by norm_num [gridDistance, mkPark])

/-- With a comparison that never holds (that of C on doubles when the distance in
`nearestList[i]` is NaN) getNearest keeps the park on which the loop over `x` has landed:
over the sample catalog with the trip 3, on a block of NULL entries, `nearest 1` prints the
anchor 3 and then park 1, the first park of the catalog, for every distance function. -/
theorem getNearest_unordered_keeps_landing {D : Type} (distance : Park → Park → D) :
    getNearest (fun _ _ => False) distance sampleCatalog (Trip.mk [mkPark 3 0 2] 5) 1 nullBlock
      = .ok (.rows [(mkPark 3 0 2, distance (mkPark 3 0 2) (mkPark 3 0 2)),
                    (mkPark 1 0 0, distance (mkPark 3 0 2) (mkPark 1 0 0))]) := by
  simp [getNearest, rounds, scanCatalog, skipLoop, slotAt, considerPark, inListLoop, printRows,
    Outcome.andThen, mkPark, sampleCatalog, Catalog.count, Trip.count, initialSlots, nullBlock,
    List.range_succ]

/-! ## getNearest: the order of the chosen parks -/

theorem firstNearest_cons_cons {D : Type} [LinearOrder D] (distance : Park → Park → D)
    (a c p : Park) (l : List Park) :
    firstNearest distance a (c :: p :: l)
      = firstNearest distance a ((if distance a p < distance a c then p else c) :: l) := by
  simp only [firstNearest]
  cases firstNearest distance a l with
  | none =>
    by_cases h : distance a p < distance a c
    · simp [h, not_le.mpr h]
    · simp [h, not_lt.mp h]
  | some q =>
    by_cases h : distance a p < distance a c
    · by_cases h1 : distance a p ≤ distance a q
      · simp [h, h1, not_le.mpr h]
      · have h2 : ¬ distance a c ≤ distance a q :=
          fun hc => h1 (le_trans (le_of_lt h) hc)
        simp [h, h1, h2]
    · have hcp : distance a c ≤ distance a p := not_lt.mp h
      by_cases h1 : distance a p ≤ distance a q
      · simp [h, h1, hcp, le_trans hcp h1]
      · simp [h, h1]

theorem firstNearest_pick {D : Type} [LinearOrder D] (distance : Park → Park → D)
    (a : Park) (excl : List Int) (ps : List Park) (c : Park) :
    firstNearest distance a (c :: ps.filter fun p => decide (p.id ∉ excl))
      = some (pick (· < ·) distance a excl c ps) := by
  induction ps generalizing c with
  | nil => simp [firstNearest, pick]
  | cons p rest ih =>
    by_cases hp : p.id ∈ excl
    · have hf : (p :: rest).filter (fun p => decide (p.id ∉ excl))
          = rest.filter (fun p => decide (p.id ∉ excl)) := by
        simp [List.filter_cons, hp]
      rw [hf, ih c]
      simp [pick, hp]
    · have hf : (p :: rest).filter (fun p => decide (p.id ∉ excl))
          = p :: rest.filter (fun p => decide (p.id ∉ excl)) := by
        simp [List.filter_cons, hp]
      rw [hf, firstNearest_cons_cons, ih]
      simp [pick, hp]

theorem insertionSort_firstNearest {D : Type} [LinearOrder D] (distance : Park → Park → D)
    (a : Park) (l : List Park) :
    l.insertionSort (fun p q => distance a p ≤ distance a q)
      = match firstNearest distance a l with
        | none => []
        | some w => w :: (l.erase w).insertionSort (fun p q => distance a p ≤ distance a q) := by
  induction l with
  | nil => rfl
  | cons p rest ih =>
    simp only [List.insertionSort, firstNearest]
    cases hf : firstNearest distance a rest with
    | none =>
      rw [hf] at ih
      simp [ih]
    | some q =>
      rw [hf] at ih
      simp only [] at ih
      rw [ih]
      by_cases h : distance a p ≤ distance a q
      · simp only [h, if_true, List.erase_cons_head]
        rw [List.orderedInsert, if_pos h, ← ih]
      · have hne : p ≠ q := fun e => h (by rw [e])
        simp only [h, if_false]
        rw [List.orderedInsert, if_neg h]
        have he : (p :: rest).erase q = p :: rest.erase q := by
          rw [List.erase_cons_tail]
          simpa using hne
        rw [he]
        rfl

theorem firstNearest_mem {D : Type} [LinearOrder D] (distance : Park → Park → D)
    (a : Park) (l : List Park) (w : Park) (h : firstNearest distance a l = some w) : w ∈ l := by
  induction l generalizing w with
  | nil => simp [firstNearest] at h
  | cons p rest ih =>
    simp only [firstNearest] at h
    cases hf : firstNearest distance a rest with
    | none =>
      simp only [hf, Option.some.injEq] at h
      simp [h]
    | some q =>
      simp only [hf] at h
      split_ifs at h
      · simp only [Option.some.injEq] at h
        simp [h]
      · simp only [Option.some.injEq] at h
        subst h
        exact List.mem_cons_of_mem _ (ih q hf)

theorem filter_erase_id (parks : List Park) (excl : List Int) (w : Park)
    (hnd : (parks.map fun q => q.id).Nodup) (hw : w ∈ parks) :
    (parks.filter fun p => decide (p.id ∉ excl)).erase w
      = parks.filter fun p => decide (p.id ∉ w.id :: excl) := by
  have hnd1 : (parks.filter fun p => decide (p.id ∉ excl)).Nodup :=
    (List.Nodup.of_map _ hnd).filter _
  rw [List.Nodup.erase_eq_filter hnd1, List.filter_filter]
  apply List.filter_congr
  intro p hp
  have hinj : p.id = w.id ↔ p = w :=
    ⟨fun e => List.inj_on_of_nodup_map hnd hp hw e, fun e => by rw [e]⟩
  by_cases h1 : p = w
  · subst h1; simp
  · have h2 : p.id ≠ w.id := fun e => h1 (hinj.mp e)
    simp [h1, h2]

theorem skipFrom_spec (ids : List Int) (ps : List Park) (j j1 : Nat) (c : Park)
    (h : skipFrom ids ps j = .ok (j1, c)) :
    ∃ front back, ps = front ++ c :: back ∧ j1 = j + front.length ∧
      (∀ p ∈ front, p.id ∈ ids) ∧ c.id ∉ ids := by
  induction ps generalizing j with
  | nil => simp [skipFrom] at h
  | cons q rest ih =>
    simp only [skipFrom] at h
    by_cases hq : q.id ∈ ids
    · rw [if_pos hq] at h
      obtain ⟨front, back, h1, h2, h3, h4⟩ := ih (j + 1) h
      refine ⟨q :: front, back, by simp [h1], by simp only [List.length_cons]; omega, ?_, h4⟩
      intro p hp
      rcases List.mem_cons.mp hp with e | e
      · subst e; exact hq
      · exact h3 p e
    · rw [if_neg hq] at h
      simp only [Outcome.ok.injEq, Prod.mk.injEq] at h
      obtain ⟨h1, h2⟩ := h
      subst h1; subst h2
      exact ⟨[], rest, rfl, rfl, fun p hp => absurd hp (List.not_mem_nil p), hq⟩

theorem firstLanding_spec (a : Park) (ids : List Int) (parks : List Park) (j1 : Nat) (c : Park)
    (h : firstLanding a ids parks = .ok (j1, c)) :
    ∃ front back, parks = front ++ c :: back ∧ parks.drop (j1 + 1) = back ∧
      (∀ p ∈ front, p.id = a.id ∨ p.id ∈ ids) ∧ c.id ∉ ids ∧ (front = [] → c.id ≠ a.id) := by
  cases parks with
  | nil => simp [firstLanding] at h
  | cons p0 rest =>
    simp only [firstLanding] at h
    by_cases h0 : p0.id = a.id ∨ p0.id ∈ ids
    · rw [if_pos h0] at h
      obtain ⟨front, back, h1, h2, h3, h4⟩ := skipFrom_spec ids rest 1 j1 c h
      refine ⟨p0 :: front, back, by simp [h1], ?_, ?_, h4, by simp⟩
      · rw [h2, h1]
        have : 1 + front.length + 1 = (p0 :: front ++ [c]).length := by
          simp only [List.cons_append, List.length_cons, List.length_append, List.length_nil]
          omega
        rw [this]
        have e : p0 :: (front ++ c :: back) = (p0 :: front ++ [c]) ++ back := by simp
        rw [e, List.drop_left]
      · intro p hp
        rcases List.mem_cons.mp hp with e | e
        · subst e; exact h0
        · exact Or.inr (h3 p e)
    · rw [if_neg h0] at h
      simp only [Outcome.ok.injEq, Prod.mk.injEq] at h
      obtain ⟨h1, h2⟩ := h
      subst h1; subst h2
      push_neg at h0
      exact ⟨[], rest, rfl, by simp, fun p hp => absurd hp (List.not_mem_nil p), h0.2,
        fun _ => h0.1⟩

theorem landing_ne_anchor (a : Park) (ids : List Int) (parks front back : List Park)
    (j1 : Nat) (c : Park) (hnd : (parks.map fun q => q.id).Nodup)
    (hsplit : parks = front ++ a :: back)
    (hl : firstLanding a ids parks = .ok (j1, c))
    (hfree : front = [] ∨ ∃ q ∈ front, q.id ∉ ids) : c.id ≠ a.id := by
  intro hca
  obtain ⟨f1, b1, h1, _, h3, _, h5⟩ := firstLanding_spec a ids parks j1 c hl
  have hndp : parks.Nodup := List.Nodup.of_map _ hnd
  have ha : a ∈ parks := by rw [hsplit]; simp
  have hc : c ∈ parks := by rw [h1]; simp
  have hcea : c = a := List.inj_on_of_nodup_map hnd hc ha hca
  subst hcea
  rw [hsplit] at hndp
  have hnf : c ∉ front := fun hm => by
    have := List.nodup_append.mp hndp
    exact this.2.2 hm (List.mem_cons_self _ _)
  have hnb : c ∉ back := by
    have := (List.nodup_append.mp hndp).2.1
    exact (List.nodup_cons.mp this).1
  have heq : front ++ c :: back = f1 ++ c :: b1 := by rw [← hsplit, h1]
  obtain ⟨e1, _, _⟩ := (List.append_cons_inj_of_not_mem hnf hnb).mp heq
  subst e1
  rcases hfree with hf | ⟨q, hq, hqid⟩
  · exact h5 hf rfl
  · rcases h3 q hq with e | e
    · have hqp : q ∈ parks := by rw [hsplit]; simp [hq]
      have : q = c := List.inj_on_of_nodup_map hnd hqp ha e
      subst this
      exact hnf hq
    · exact hqid e

theorem selectRound_nearest {D : Type} [LinearOrder D] (distance : Park → Park → D)
    (a : Park) (parks sel : List Park) (j1 : Nat) (c : Park)
    (hl : firstLanding a (sel.map fun q => q.id) parks = .ok (j1, c)) (hca : c.id ≠ a.id) :
    ∃ w, selectRound (· < ·) distance a parks sel = .ok (sel ++ [w]) ∧
      firstNearest distance a
        (parks.filter fun p => decide (p.id ∉ a.id :: sel.map fun q => q.id)) = some w := by
  refine ⟨pick (· < ·) distance a (a.id :: sel.map fun q => q.id) c (parks.drop (j1 + 1)), ?_, ?_⟩
  · simp only [selectRound, hl, Outcome.andThen]
  · obtain ⟨f1, b1, h1, h2, h3, h4, _⟩ := firstLanding_spec a _ parks j1 c hl
    have hf1 : f1.filter (fun p => decide (p.id ∉ a.id :: sel.map fun q => q.id)) = [] := by
      rw [List.filter_eq_nil_iff]
      intro p hp
      have := h3 p hp
      simp only [List.mem_cons, decide_not, Bool.not_eq_true', decide_eq_false_iff_not,
        not_not]
      exact this
    have hc : (c :: b1).filter (fun p => decide (p.id ∉ a.id :: sel.map fun q => q.id))
        = c :: b1.filter (fun p => decide (p.id ∉ a.id :: sel.map fun q => q.id)) := by
      apply List.filter_cons_of_pos
      simp only [List.mem_cons, not_or, decide_eq_true_eq]
      exact ⟨hca, h4⟩
    rw [h2]
    conv_lhs => rw [h1, List.filter_append, hf1, List.nil_append, hc]
    exact firstNearest_pick distance a _ b1 c

theorem nearestOrder_step {D : Type} [LinearOrder D] (distance : Park → Park → D)
    (a : Park) (parks sel : List Park) (w : Park)
    (hnd : (parks.map fun q => q.id).Nodup)
    (hinv : nearestOrder distance a parks
      = sel ++ (parks.filter fun p => decide (p.id ∉ a.id :: sel.map fun q => q.id)).insertionSort
          (fun p q => distance a p ≤ distance a q))
    (hw : firstNearest distance a
      (parks.filter fun p => decide (p.id ∉ a.id :: sel.map fun q => q.id)) = some w) :
    nearestOrder distance a parks
      = (sel ++ [w]) ++
        (parks.filter fun p => decide (p.id ∉ a.id :: (sel ++ [w]).map fun q => q.id)).insertionSort
          (fun p q => distance a p ≤ distance a q) := by
  have hwp : w ∈ parks := List.mem_of_mem_filter (firstNearest_mem distance a _ w hw)
  have hsort := insertionSort_firstNearest distance a
    (parks.filter fun p => decide (p.id ∉ a.id :: sel.map fun q => q.id))
  rw [hw] at hsort
  simp only [] at hsort
  rw [filter_erase_id parks _ w hnd hwp] at hsort
  have hcongr : (parks.filter fun p => decide (p.id ∉ w.id :: a.id :: sel.map fun q => q.id))
      = parks.filter fun p => decide (p.id ∉ a.id :: (sel ++ [w]).map fun q => q.id) := by
    apply List.filter_congr
    intro p _
    simp only [List.mem_cons, List.map_append, List.map_cons, List.map_nil, List.mem_append,
      List.mem_singleton, List.not_mem_nil, or_false, decide_eq_decide]
    tauto
  rw [hinv, hsort, hcongr]
  simp

theorem selectRounds_nearest {D : Type} [LinearOrder D] (distance : Park → Park → D)
    (a p0 : Park) (rest front back : List Park) (t : Nat)
    (hnd : ((p0 :: rest).map fun q => q.id).Nodup)
    (hsplit : p0 :: rest = front ++ a :: back) (ht : t ≤ rest.length)
    (hfree : front = [] ∨
      ∃ q ∈ front, q ∉ (nearestOrder distance a (p0 :: rest)).take (t - 1)) :
    ∀ (r : Nat) (sel : List Park), sel.length + r = t →
      nearestOrder distance a (p0 :: rest)
        = sel ++ ((p0 :: rest).filter fun p =>
            decide (p.id ∉ a.id :: sel.map fun q => q.id)).insertionSort
              (fun p q => distance a p ≤ distance a q) →
      selectRounds (· < ·) distance a (p0 :: rest) r sel
        = .ok ((nearestOrder distance a (p0 :: rest)).take t) := by
  have hrest : (rest.map fun q => q.id).Nodup := by
    simp only [List.map_cons, List.nodup_cons] at hnd
    exact hnd.2
  intro r
  induction r with
  | zero =>
    intro sel hlen hinv
    rw [selectRounds]
    conv_rhs => rw [hinv]
    rw [List.take_left' (by omega)]
  | succ r ih =>
    intro sel hlen hinv
    obtain ⟨st, hst⟩ := firstLanding_ok a (sel.map fun q => q.id) p0 rest
      (exists_id_not_mem rest _ hrest (by simp only [List.length_map]; omega))
    obtain ⟨j1, c⟩ := st
    have hsel : sel = (nearestOrder distance a (p0 :: rest)).take sel.length := by
      conv_rhs => rw [hinv]
      rw [List.take_left]
    have hfree1 : front = [] ∨ ∃ q ∈ front, q.id ∉ sel.map fun q => q.id := by
      rcases hfree with h | ⟨q, hq, hqn⟩
      · exact Or.inl h
      · refine Or.inr ⟨q, hq, ?_⟩
        intro hmem
        obtain ⟨s, hs, hsid⟩ := List.mem_map.mp hmem
        have hs1 : s ∈ (nearestOrder distance a (p0 :: rest)).take (t - 1) := by
          rw [hsel] at hs
          exact List.take_subset_take_left _ (by omega) hs
        have hsp : s ∈ p0 :: rest := by
          have := List.take_subset _ _ hs1
          rw [nearestOrder, List.mem_insertionSort] at this
          exact List.mem_of_mem_filter this
        have hqp : q ∈ p0 :: rest := by rw [hsplit]; simp [hq]
        have : s = q := List.inj_on_of_nodup_map hnd hsp hqp hsid
        subst this
        exact hqn hs1
    have hca := landing_ne_anchor a _ (p0 :: rest) front back j1 c hnd hsplit hst hfree1
    obtain ⟨w, hround, hw⟩ := selectRound_nearest distance a (p0 :: rest) sel j1 c hst hca
    have hinv1 := nearestOrder_step distance a (p0 :: rest) sel w hnd hinv hw
    rw [selectRounds, hround]
    exact ih (sel ++ [w]) (by simp only [List.length_append, List.length_singleton]; omega) hinv1

theorem nearestOrder_pairwise {D : Type} [LinearOrder D] (distance : Park → Park → D)
    (a : Park) (parks : List Park) (t : Nat) :
    (((nearestOrder distance a parks).take t).map fun p => distance a p).Pairwise
      (fun x y => x ≤ y) := by
  haveI : IsTotal Park (fun p q => distance a p ≤ distance a q) :=
    ⟨fun p q => le_total _ _⟩
  haveI : IsTrans Park (fun p q => distance a p ≤ distance a q) :=
    ⟨fun _ _ _ h1 h2 => le_trans h1 h2⟩
  have hs : List.Pairwise (fun p q => distance a p ≤ distance a q)
      (nearestOrder distance a parks) :=
    List.sorted_insertionSort (fun p q => distance a p ≤ distance a q) _
  exact (hs.sublist (List.take_sublist t _)).map _ (fun _ _ h => h)

/-! ### Distances that are ordered

The comparison `lt` is that of a linear order on the distances from the anchor to the
catalog parks when some `key` maps these distances into a linear order `K` so that `lt` is
`<` on the keys. For doubles this is so when none of these distances is NaN, the key of a
double being its value. -/

theorem pick_congr {D K : Type} (lt : D → D → Prop) [DecidableRel lt] [LinearOrder K]
    (key : D → K) (distance : Park → Park → D) (a : Park) (excl : List Int)
    (parks : List Park)
    (hkey : ∀ p ∈ parks, ∀ c ∈ parks,
      (lt (distance a p) (distance a c) ↔ key (distance a p) < key (distance a c))) :
    ∀ (ps : List Park) (c : Park), (∀ p ∈ ps, p ∈ parks) → c ∈ parks →
      pick lt distance a excl c ps
        = pick (· < ·) (fun p q => key (distance p q)) a excl c ps := by
  intro ps
  induction ps with
  | nil => intro c _ _; rfl
  | cons p rest ih =>
    intro c hps hc
    have hp : p ∈ parks := hps p (List.mem_cons_self _ _)
    have hrest : ∀ q ∈ rest, q ∈ parks := fun q hq => hps q (List.mem_cons_of_mem _ hq)
    have hstep : (if lt (distance a p) (distance a c) ∧ p.id ∉ excl then p else c)
        = (if key (distance a p) < key (distance a c) ∧ p.id ∉ excl then p else c) := by
      simp only [hkey p hp c hc]
    have hmem : (if lt (distance a p) (distance a c) ∧ p.id ∉ excl then p else c) ∈ parks := by
      split_ifs
      · exact hp
      · exact hc
    have h1 : pick lt distance a excl c (p :: rest)
        = pick lt distance a excl
            (if lt (distance a p) (distance a c) ∧ p.id ∉ excl then p else c) rest := rfl
    have h2 : pick (· < ·) (fun p q => key (distance p q)) a excl c (p :: rest)
        = pick (· < ·) (fun p q => key (distance p q)) a excl
            (if key (distance a p) < key (distance a c) ∧ p.id ∉ excl then p else c) rest := rfl
    rw [h1, h2, ih _ hrest hmem, hstep]

theorem selectRound_congr {D K : Type} (lt : D → D → Prop) [DecidableRel lt] [LinearOrder K]
    (key : D → K) (distance : Park → Park → D) (a : Park) (parks : List Park)
    (hkey : ∀ p ∈ parks, ∀ c ∈ parks,
      (lt (distance a p) (distance a c) ↔ key (distance a p) < key (distance a c)))
    (sel : List Park) :
    selectRound lt distance a parks sel
      = selectRound (· < ·) (fun p q => key (distance p q)) a parks sel := by
  simp only [selectRound]
  cases hl : firstLanding a (sel.map fun q => q.id) parks with
  | fault f => rfl
  | fuel => rfl
  | ok st =>
    obtain ⟨j1, c⟩ := st
    have hc : c ∈ parks := by
      obtain ⟨hj, hcj⟩ := List.getElem?_eq_some_iff.mp (firstLanding_getElem a _ _ j1 c hl).1
      rw [← hcj]
      exact List.getElem_mem hj
    simp only [Outcome.andThen]
    rw [pick_congr lt key distance a _ parks hkey _ c
      (fun p hp => List.mem_of_mem_drop hp) hc]

theorem selectRounds_congr {D K : Type} (lt : D → D → Prop) [DecidableRel lt] [LinearOrder K]
    (key : D → K) (distance : Park → Park → D) (a : Park) (parks : List Park)
    (hkey : ∀ p ∈ parks, ∀ c ∈ parks,
      (lt (distance a p) (distance a c) ↔ key (distance a p) < key (distance a c))) :
    ∀ (r : Nat) (sel : List Park),
      selectRounds lt distance a parks r sel
        = selectRounds (· < ·) (fun p q => key (distance p q)) a parks r sel := by
  intro r
  induction r with
  | zero => intro sel; rfl
  | succ r ih =>
    intro sel
    rw [selectRounds, selectRounds, selectRound_congr lt key distance a parks hkey sel]
    cases selectRound (· < ·) (fun p q => key (distance p q)) a parks sel with
    | fault f => rfl
    | fuel => rfl
    | ok sel1 => exact ih sel1

/-- C3, as the code has it: over a catalog `front ++ a :: back` of `n` parks with
pairwise-distinct ids, for a trip whose last entry is `a` and `amount >= 1` other than `n`,
when the entries `1..min (amount, n - 1)` of the block that `malloc` returns for the result
list hold NULL, when the comparison `<` of the distances from `a` to the catalog parks is
that of a linear order on their keys (for doubles: none of these distances is NaN), and
when the anchor `a` is the first catalog park, or some park before it in catalog order is
not among the first `min (amount, n - 1) - 1` parks of the order, getNearest prints the row
of the anchor itself followed by the rows of exactly the first `min (amount, n - 1)` parks
of the order: the non-anchor catalog parks in ascending distance from the anchor, parks at
equal distance in catalog order. The distances of these rows are non-decreasing. -/
theorem getNearest_report_order {D K : Type} (lt : D → D → Prop) [DecidableRel lt]
    [LinearOrder K] (key : D → K) (distance : Park → Park → D)
    (catalog : Catalog) (trip : Trip) (amount : Int) (a : Park) (front back : List Park)
    (block : Block)
    (hnd : (catalog.parks.map fun q => q.id).Nodup)
    (hlast : trip.parks.getLast? = some a)
    (hsplit : catalog.parks = front ++ a :: back)
    (hk : 1 ≤ amount) (hkn : amount ≠ (catalog.count : Int))
    (hblock : ∀ x : Nat, 1 ≤ x → (x : Int) ≤ min amount ((catalog.count : Int) - 1) →
      block x = none)
    (hkey : ∀ p ∈ catalog.parks, ∀ c ∈ catalog.parks,
      (lt (distance a p) (distance a c) ↔ key (distance a p) < key (distance a c)))
    (hfree : front = [] ∨
      ∃ q ∈ front, q ∉ (nearestOrder (fun p q => key (distance p q)) a catalog.parks).take
        ((min amount ((catalog.count : Int) - 1)).toNat - 1)) :
    getNearest lt distance catalog trip amount block
        = .ok (.rows ((a, distance a a) ::
            ((nearestOrder (fun p q => key (distance p q)) a catalog.parks).take
              (min amount ((catalog.count : Int) - 1)).toNat).map fun p => (p, distance a p))) ∧
      (((nearestOrder (fun p q => key (distance p q)) a catalog.parks).take
          (min amount ((catalog.count : Int) - 1)).toNat).map
            fun p => key (distance a p)).Pairwise (fun x y => x ≤ y) := by
  refine ⟨?_, nearestOrder_pairwise (fun p q => key (distance p q)) a catalog.parks _⟩
  have ha : a ∈ catalog.parks := by rw [hsplit]; simp
  have hne : catalog.parks ≠ [] := List.ne_nil_of_mem ha
  obtain ⟨p0, rest, hparks⟩ : ∃ p0 rest, catalog.parks = p0 :: rest := by
    cases h : catalog.parks with
    | nil => exact absurd h hne
    | cons p0 rest => exact ⟨p0, rest, rfl⟩
  have hcount : catalog.count = rest.length + 1 := by simp [Catalog.count, hparks]
  obtain ⟨hle, hmin⟩ := clampAmount_of_ne catalog.count amount (by omega) hk hkn
  have hm : (min amount ((catalog.count : Int) - 1)).toNat = clampAmount catalog.count amount := by
    rw [← hmin]; simp
  rw [hm] at hfree ⊢
  rw [getNearest_eq lt distance catalog trip amount a block hlast hne hk
    (fun x hx => hblock (x + 1) (by omega) (by rw [← hmin]; omega)),
    selectRounds_congr lt key distance a catalog.parks hkey]
  rw [hparks] at hnd hsplit hfree ⊢
  have hinit : nearestOrder (fun p q => key (distance p q)) a (p0 :: rest)
      = [] ++ ((p0 :: rest).filter fun p =>
          decide (p.id ∉ a.id :: ([] : List Park).map fun q => q.id)).insertionSort
            (fun p q => key (distance a p) ≤ key (distance a q)) := by
    rw [nearestOrder, List.nil_append]
    congr 1
    apply List.filter_congr
    intro p _
    simp
  rw [selectRounds_nearest (fun p q => key (distance p q)) a p0 rest front back
    (clampAmount catalog.count amount)
    hnd hsplit (by omega) hfree (clampAmount catalog.count amount) [] (by simp) hinit]
  rfl

theorem nearestOrder_orderCatalog :
    nearestOrder (fun p q => id (gridDistance p q)) (mkPark 2 0 5) orderCatalog.parks
      = [mkPark 4 0 6, mkPark 3 0 8, mkPark 1 0 0] := by
  have hf : (orderCatalog.parks.filter fun p => decide (p.id ≠ (mkPark 2 0 5).id))
      = [mkPark 1 0 0, mkPark 3 0 8, mkPark 4 0 6] := by decide
  rw [nearestOrder, hf]
  norm_num [List.insertionSort, List.orderedInsert, gridDistance, mkPark]

/-- Witness of C3 as the code has it: `nearest 2` with the trip 2 over the catalog 1, 2, 3,
4 at longitudes 0, 5, 8, 6, on a block of NULL entries, with the order of the rational
numbers. Park 1 precedes the anchor 2 in the catalog and is not the nearest park; the two
parks chosen are 4 and then 3, against their catalog order. -/
theorem getNearest_report_order_witness :
    getNearest (· < ·) gridDistance orderCatalog (Trip.mk [mkPark 2 0 5] 5) 2 nullBlock
        = .ok (.rows ((mkPark 2 0 5, gridDistance (mkPark 2 0 5) (mkPark 2 0 5)) ::
            ((nearestOrder (fun p q => id (gridDistance p q)) (mkPark 2 0 5)
                orderCatalog.parks).take
              (min 2 ((orderCatalog.count : Int) - 1)).toNat).map
                fun p => (p, gridDistance (mkPark 2 0 5) p))) ∧
      (((nearestOrder (fun p q => id (gridDistance p q)) (mkPark 2 0 5)
            orderCatalog.parks).take
          (min 2 ((orderCatalog.count : Int) - 1)).toNat).map
            fun p => id (gridDistance (mkPark 2 0 5) p)).Pairwise (fun x y => x ≤ y) :=
  getNearest_report_order (· < ·) id gridDistance orderCatalog (Trip.mk [mkPark 2 0 5] 5) 2
    (mkPark 2 0 5) [mkPark 1 0 0] [mkPark 3 0 8, mkPark 4 0 6] nullBlock
    (by decide) rfl rfl (by decide) (by decide) (fun _ _ _ => rfl)
    (fun _ _ _ _ => Iff.rfl)
    (Or.inr ⟨mkPark 1 0 0, by decide, by
      have h : (min 2 ((orderCatalog.count : Int) - 1)).toNat - 1 = 1 := by decide
      rw [h, nearestOrder_orderCatalog]
      decide⟩)

/-- C3 as stated fails: `nearest 1` with the trip 1 over the sample catalog, on a block of
NULL entries, prints two rows, the anchor 1 and then park 2, which is not the list of the
first min (1, 3 - 1) = 1 parks of the order. -/
theorem getNearest_report_order_counterexample :
    getNearest (· < ·) gridDistance sampleCatalog (Trip.mk [mkPark 1 0 0] 5) 1 nullBlock
      ≠ .ok (.rows (((nearestOrder gridDistance (mkPark 1 0 0) sampleCatalog.parks).take
          (min 1 (sampleCatalog.count - 1))).map fun p => (p, gridDistance (mkPark 1 0 0) p))) := by
  intro h
  rw [getNearest_eq (· < ·) gridDistance sampleCatalog (Trip.mk [mkPark 1 0 0] 5) 1
    (mkPark 1 0 0) nullBlock rfl (by decide) (by decide) (fun _ _ => rfl)] at h
  cases hsel : selectRounds (· < ·) gridDistance (mkPark 1 0 0) sampleCatalog.parks
      (clampAmount sampleCatalog.count 1) [] with
  | fault f => simp [hsel, Outcome.andThen] at h
  | fuel => simp [hsel, Outcome.andThen] at h
  | ok sel =>
    have h1 := selectRounds_length (· < ·) gridDistance _ _ _ _ _ hsel
    simp only [hsel, Outcome.andThen, Outcome.ok.injEq, NearestReport.rows.injEq] at h
    have h2 := congrArg List.length h
    have hc : clampAmount sampleCatalog.count 1 = 1 := by decide
    have h3 : min 1 (sampleCatalog.count - 1) = 1 := by decide
    rw [hc] at h1
    simp only [rowsOf, List.length_cons, List.length_map, h1, List.length_nil, Nat.zero_add,
      h3, List.length_take] at h2
    omega

/-! ## Adding and removing, listTrip -/

theorem removeParkFromTrip_split (trip : Trip) (parkID : Int) (front : List Park) (e : Park)
    (back : List Park) (hl : trip.parks = front ++ e :: back) (he : e.id = parkID)
    (hf : ∀ q ∈ front, q.id ≠ parkID) :
    (removeParkFromTrip trip parkID).1.parks = front ++ back ∧
      (removeParkFromTrip trip parkID).2 = false := by
  have hidx : findIndex parkID trip.parks 0 = ((front.length : Nat) : Int) := by
    rw [hl, findIndex_first parkID front e back 0 hf he]
    simp
  have hne : ((front.length : Nat) : Int) ≠ -1 := by omega
  obtain ⟨x, hx⟩ := shiftLeft_eq front e back
  have hcount : trip.count - 1 - front.length = back.length := by
    simp [Trip.count, hl]
  constructor
  · simp only [removeParkFromTrip, hidx, hne, ne_eq, not_false_eq_true, if_true,
      Int.toNat_ofNat, hcount]
    rw [hl, hx]
    have hlen : trip.count - 1 = (front ++ back).length := by simp [Trip.count, hl]
    rw [hlen, List.take_left]
  · simp [removeParkFromTrip, hidx, hne]

/-- C11: over a catalog with pairwise-distinct ids, for a catalog park `p` whose id no
trip entry has, addParkToTrip with the id of `p` followed by removeParkFromTrip with the
same id gives back the trip sequence, and neither prints "Invalid command". -/
theorem add_then_remove (catalog : Catalog) (trip : Trip) (p : Park)
    (hnd : (catalog.parks.map fun q => q.id).Nodup) (hp : p ∈ catalog.parks)
    (hnew : ∀ q ∈ trip.parks, q.id ≠ p.id) :
    (removeParkFromTrip (addParkToTrip catalog trip p.id).1 p.id).1.parks = trip.parks ∧
      (addParkToTrip catalog trip p.id).2 = false ∧
      (removeParkFromTrip (addParkToTrip catalog trip p.id).1 p.id).2 = false := by
  have hany : catalog.parks.any (fun q => decide (q.id = p.id)) = true :=
    List.any_eq_true.mpr ⟨p, hp, by simp⟩
  have hadd : (addParkToTrip catalog trip p.id).1.parks = trip.parks ++ p :: [] := by
    simp [addParkToTrip, addLoop_eq, filter_id_of_nodup catalog.parks p hnd hp]
  have hflag : (addParkToTrip catalog trip p.id).2 = false := by
    simp [addParkToTrip, addLoop_eq, hany]
  have hrem := removeParkFromTrip_split (addParkToTrip catalog trip p.id).1 p.id
    trip.parks p [] hadd rfl hnew
  refine ⟨?_, hflag, hrem.2⟩
  rw [hrem.1]
  simp

/-- Witness of C11: park 2 is added to the trip 1, 3 and removed again. -/
theorem add_then_remove_witness :
    (removeParkFromTrip (addParkToTrip sampleCatalog (Trip.mk [mkPark 1 0 0, mkPark 3 0 2] 5)
        (mkPark 2 0 1).id).1 (mkPark 2 0 1).id).1.parks
      = (Trip.mk [mkPark 1 0 0, mkPark 3 0 2] 5).parks ∧
    (addParkToTrip sampleCatalog (Trip.mk [mkPark 1 0 0, mkPark 3 0 2] 5)
        (mkPark 2 0 1).id).2 = false ∧
    (removeParkFromTrip (addParkToTrip sampleCatalog (Trip.mk [mkPark 1 0 0, mkPark 3 0 2] 5)
        (mkPark 2 0 1).id).1 (mkPark 2 0 1).id).2 = false :=
  add_then_remove sampleCatalog _ (mkPark 2 0 1) (by decide) (by decide) (by decide)

theorem listTripLoop_parks {D : Type} [Add D] [Zero D] (distance : Park → Park → D)
    (l : List Park) (total : D) (previous : Option Park) :
    (listTripLoop distance l total previous).map (fun r => r.1) = l := by
  induction l generalizing total previous with
  | nil => rfl
  | cons p rest ih => simp [listTripLoop, ih]

theorem listTripLoop_next {D : Type} [Add D] [Zero D] (distance : Park → Park → D)
    (l : List Park) (total : D) (q : Park) (i : Nat) (r0 r1 : Park × D)
    (h0 : ((q, total) :: listTripLoop distance l total (some q))[i]? = some r0)
    (h1 : ((q, total) :: listTripLoop distance l total (some q))[i + 1]? = some r1) :
    r1.2 = r0.2 + distance r0.1 r1.1 := by
  induction l generalizing total q i r0 r1 with
  | nil => simp [listTripLoop] at h1
  | cons p rest ih =>
    cases i with
    | zero =>
      simp only [listTripLoop, List.getElem?_cons_zero, List.getElem?_cons_succ,
        Option.some.injEq] at h0 h1
      subst h0; subst h1
      rfl
    | succ i =>
      rw [listTripLoop, List.getElem?_cons_succ] at h0 h1
      exact ih (total + distance q p) p i r0 r1 h0 h1

/-- C12: listTrip prints one row per trip entry, in trip order; the first row carries 0 and
every later row carries the value of the row before it plus the distance from the park of
that row to its own park (the running total along the path); for the empty trip there is
no row. -/
theorem listTrip_rows {D : Type} [AddZeroClass D] (distance : Park → Park → D) (trip : Trip) :
    (listTrip distance trip).map (fun r => r.1) = trip.parks ∧
    (listTrip distance trip).length = trip.count ∧
    (∀ r, (listTrip distance trip)[0]? = some r → r.2 = 0) ∧
    (∀ i r0 r1, (listTrip distance trip)[i]? = some r0 →
      (listTrip distance trip)[i + 1]? = some r1 → r1.2 = r0.2 + distance r0.1 r1.1) ∧
    (trip.parks = [] → listTrip distance trip = []) := by
  have hparks : (listTrip distance trip).map (fun r => r.1) = trip.parks :=
    listTripLoop_parks distance trip.parks 0 none
  refine ⟨hparks, ?_, ?_, ?_, ?_⟩
  · have := congrArg List.length hparks
    simpa [Trip.count] using this
  · intro r hr
    cases hp : trip.parks with
    | nil => simp [listTrip, hp, listTripLoop] at hr
    | cons p rest =>
      simp only [listTrip, hp, listTripLoop, List.getElem?_cons_zero, Option.some.injEq] at hr
      rw [← hr]
      exact zero_add 0
  · intro i r0 r1 h0 h1
    cases hp : trip.parks with
    | nil => simp [listTrip, hp, listTripLoop] at h0
    | cons p rest =>
      have he : listTrip distance trip
          = (p, (0 : D)) :: listTripLoop distance rest 0 (some p) := by
        simp only [listTrip, hp, listTripLoop, zero_add]
      rw [he] at h0 h1
      exact listTripLoop_next distance rest 0 p i r0 r1 h0 h1
  · intro h
    simp [listTrip, h, listTripLoop]

/-- Witness of C12: the trip 1, 3, 2 over the sample catalog with the sample distance. -/
theorem listTrip_rows_witness :
    (listTrip gridDistance (Trip.mk [mkPark 1 0 0, mkPark 3 0 2, mkPark 2 0 1] 5)).map
        (fun r => r.1) = [mkPark 1 0 0, mkPark 3 0 2, mkPark 2 0 1] ∧
    (listTrip gridDistance (Trip.mk [mkPark 1 0 0, mkPark 3 0 2, mkPark 2 0 1] 5)).length = 3 :=
  ⟨(listTrip_rows gridDistance (Trip.mk [mkPark 1 0 0, mkPark 3 0 2, mkPark 2 0 1] 5)).1,
   (listTrip_rows gridDistance (Trip.mk [mkPark 1 0 0, mkPark 3 0 2, mkPark 2 0 1] 5)).2.1⟩

/-! ## The comparison functions -/

theorem compareBytes_neg (x y : List Nat) : compareBytes y x = - compareBytes x y := by
  induction x generalizing y with
  | nil =>
    cases y with
    | nil => simp [compareBytes]
    | cons b bs => simp [compareBytes]
  | cons a as ih =>
    cases y with
    | nil => simp [compareBytes]
    | cons b bs =>
      simp only [compareBytes]
      by_cases h : a = b
      · subst h; simp [ih]
      · have h1 : ¬ b = a := fun e => h e.symm
        simp only [h, h1, if_false]
        omega

theorem compareBytes_sign (x y : List Nat) (hx : ∀ b ∈ x, b ≠ 0) (hy : ∀ b ∈ y, b ≠ 0) :
    (compareBytes x y < 0 ↔ List.Lex (fun a b => a < b) x y) ∧
      (compareBytes x y = 0 ↔ x = y) := by
  induction x generalizing y with
  | nil =>
    cases y with
    | nil =>
      simp only [compareBytes, lt_self_iff_false, true_iff, iff_true, and_true, false_iff]
      exact List.Lex.not_nil_right _ _
    | cons b bs =>
      have hb : b ≠ 0 := hy b (List.mem_cons_self _ _)
      simp only [compareBytes]
      constructor
      · constructor
        · intro _; exact List.Lex.nil
        · intro _; omega
      · constructor
        · intro h; omega
        · intro h; cases h
  | cons a as ih =>
    have ha : a ≠ 0 := hx a (List.mem_cons_self _ _)
    cases y with
    | nil =>
      simp only [compareBytes]
      constructor
      · constructor
        · intro h; omega
        · intro h; exact absurd h (List.Lex.not_nil_right _ _)
      · constructor
        · intro h; omega
        · intro h; cases h
    | cons b bs =>
      have hrec := ih bs (fun c hc => hx c (List.mem_cons_of_mem _ hc))
        (fun c hc => hy c (List.mem_cons_of_mem _ hc))
      simp only [compareBytes]
      by_cases h : a = b
      · subst h
        simp only [if_true, List.cons.injEq, true_and]
        exact ⟨hrec.1.trans List.Lex.cons_iff.symm, hrec.2⟩
      · simp only [h, if_false, List.cons.injEq, false_and, iff_false]
        constructor
        · constructor
          · intro hlt; exact List.Lex.rel (by omega)
          · intro hlex
            cases hlex with
            | cons h1 => exact absurd rfl h
            | rel h1 => omega
        · omega

theorem cstr_ne_zero (s : List Nat) : ∀ b ∈ cstr s, b ≠ 0 := by
  intro b hb
  have := List.mem_takeWhile_imp hb
  simpa using this

theorem strcmp_neg (a b : List Nat) : strcmp b a = - strcmp a b :=
  compareBytes_neg _ _

theorem strcmp_lt_iff (a b : List Nat) :
    strcmp a b < 0 ↔ List.Lex (fun x y => x < y) (cstr a) (cstr b) :=
  (compareBytes_sign _ _ (cstr_ne_zero a) (cstr_ne_zero b)).1

theorem strcmp_eq_iff (a b : List Nat) : strcmp a b = 0 ↔ cstr a = cstr b :=
  (compareBytes_sign _ _ (cstr_ne_zero a) (cstr_ne_zero b)).2

theorem compareParksByID_neg (a b : Park) : compareParksByID b a = - compareParksByID a b := by
  simp only [compareParksByID]
  split_ifs <;> omega

theorem compareParksByID_le (a b : Park) : compareParksByID a b ≤ 0 ↔ a.id ≤ b.id := by
  simp only [compareParksByID]
  split_ifs <;> omega

theorem compareParksByName_neg (a b : Park) :
    compareParksByName b a = - compareParksByName a b := by
  simp only [compareParksByName, strcmp_neg a.name b.name]
  split_ifs <;> omega

theorem compareParksByName_le (a b : Park) :
    compareParksByName a b ≤ 0 ↔
      (List.Lex (fun x y => x < y) (cstr a.name) (cstr b.name) ∨
        (cstr a.name = cstr b.name ∧ a.id ≤ b.id)) := by
  have h1 := strcmp_lt_iff a.name b.name
  have h2 := strcmp_eq_iff a.name b.name
  simp only [compareParksByName]
  by_cases h0 : strcmp a.name b.name = 0
  · have heq := h2.mp h0
    have hirr : ¬ List.Lex (fun x y => x < y) (cstr a.name) (cstr b.name) :=
      fun hl => by have := h1.mpr hl; omega
    simp only [h0, ne_eq, not_true_eq_false, if_false, heq, true_and]
    rw [heq] at hirr
    simp only [hirr, false_or]
    split_ifs <;> omega
  · have hne : ¬ cstr a.name = cstr b.name := fun e => h0 (h2.mpr e)
    simp only [h0, ne_eq, not_false_eq_true, if_true, hne, false_and, or_false]
    rw [← h1]
    omega

theorem compareParksByID_isOrdering : IsOrdering compareParksByID := by
  constructor
  · intro a b
    rw [compareParksByID_neg a b]
    omega
  · intro a b c h1 h2
    rw [compareParksByID_le] at h1 h2 ⊢
    omega

theorem compareParksByName_isOrdering : IsOrdering compareParksByName := by
  constructor
  · intro a b
    rw [compareParksByName_neg a b]
    omega
  · intro a b c h1 h2
    rw [compareParksByName_le] at h1 h2 ⊢
    rcases h1 with h1 | ⟨e1, i1⟩
    · rcases h2 with h2 | ⟨e2, _⟩
      · exact Or.inl (IsTrans.trans _ _ _ h1 h2)
      · rw [← e2]; exact Or.inl h1
    · rcases h2 with h2 | ⟨e2, i2⟩
      · rw [e1]; exact Or.inl h2
      · exact Or.inr ⟨e1.trans e2, by omega⟩

theorem insertionQsort_isQsort : IsQsort insertionQsort := by
  constructor
  · intro compare l
    exact List.perm_insertionSort _ l
  · intro compare l h
    haveI : IsTotal Park (fun a b => compare a b ≤ 0) := ⟨fun a b => by
      by_cases hab : compare a b ≤ 0
      · exact Or.inl hab
      · have := (h.1 b a).mpr (by omega)
        exact Or.inr (by omega)⟩
    haveI : IsTrans Park (fun a b => compare a b ≤ 0) := ⟨fun a b c => h.2 a b c⟩
    exact (List.sorted_insertionSort (fun a b => compare a b ≤ 0) l).chain'

theorem sortParks_perm_pairwise (qsort : (Park → Park → Int) → List Park → List Park)
    (hq : IsQsort qsort) (catalog : Catalog) (compare : Park → Park → Int)
    (hc : IsOrdering compare) :
    (sortParks qsort catalog compare).parks.Perm catalog.parks ∧
      (sortParks qsort catalog compare).parks.Pairwise (fun a b => compare a b ≤ 0) ∧
      (sortParks qsort catalog compare).capacity = catalog.capacity := by
  haveI : IsTrans Park (fun a b => compare a b ≤ 0) := ⟨fun a b c => hc.2 a b c⟩
  simp only [sortParks]
  split_ifs with h
  · refine ⟨List.Perm.refl _, ?_, rfl⟩
    simp only [Catalog.count] at h
    match hp : catalog.parks with
    | [] => exact List.Pairwise.nil
    | [p] => exact List.pairwise_singleton _ _
    | p :: q :: rest => rw [hp] at h; simp at h; omega
  · exact ⟨hq.perm compare _, List.chain'_iff_pairwise.mp (hq.ascending compare _ hc), rfl⟩

theorem sortParks_byID_unique (qsort : (Park → Park → Int) → List Park → List Park)
    (hq : IsQsort qsort) (c1 c2 : Catalog) (hperm : c1.parks.Perm c2.parks)
    (hcap : c1.capacity = c2.capacity) (hnd : (c2.parks.map fun q => q.id).Nodup) :
    sortParks qsort c1 compareParksByID = sortParks qsort c2 compareParksByID := by
  obtain ⟨p1, s1, k1⟩ := sortParks_perm_pairwise qsort hq c1 _ compareParksByID_isOrdering
  obtain ⟨p2, s2, k2⟩ := sortParks_perm_pairwise qsort hq c2 _ compareParksByID_isOrdering
  have hp : (sortParks qsort c1 compareParksByID).parks.Perm
      (sortParks qsort c2 compareParksByID).parks := (p1.trans hperm).trans p2.symm
  have hnd2 : ((sortParks qsort c2 compareParksByID).parks.map fun q => q.id).Nodup :=
    (p2.map _).nodup_iff.mpr hnd
  have hnd1 : ((sortParks qsort c1 compareParksByID).parks.map fun q => q.id).Nodup :=
    (hp.map _).nodup_iff.mpr hnd2
  have strict : ∀ l : List Park, (l.map fun q => q.id).Nodup →
      l.Pairwise (fun a b => compareParksByID a b ≤ 0) → l.Pairwise (fun a b => a.id < b.id) := by
    intro l hl hs
    have hne : l.Pairwise (fun a b => a.id ≠ b.id) := by
      rw [List.Nodup, List.pairwise_map] at hl
      exact hl
    refine (hs.and hne).imp ?_
    intro a b h
    have := (compareParksByID_le a b).mp h.1
    exact lt_of_le_of_ne this h.2
  haveI : IsAntisymm Park (fun a b => a.id < b.id) :=
    ⟨fun a b h1 h2 => absurd h1 (not_lt.mpr (le_of_lt h2))⟩
  have heq : (sortParks qsort c1 compareParksByID).parks
      = (sortParks qsort c2 compareParksByID).parks :=
    List.eq_of_perm_of_sorted hp (strict _ hnd1 s1) (strict _ hnd2 s2)
  cases h1 : sortParks qsort c1 compareParksByID with
  | mk parks1 cap1 =>
    cases h2 : sortParks qsort c2 compareParksByID with
    | mk parks2 cap2 =>
      rw [h1] at heq k1
      rw [h2] at heq k2
      simp only at heq k1 k2
      rw [heq, k1, k2, hcap]

/-- C13: for every sorting function with the properties of qsort and every catalog,
`list parks` (sortParks with compareParksByID) leaves the catalog a rearrangement of its
content in ascending order of id; hence, when the ids are pairwise distinct, sorting by id,
then by name, then by id gives the same catalog as the first sort by id. -/
theorem sortParks_byID (qsort : (Park → Park → Int) → List Park → List Park)
    (hq : IsQsort qsort) (catalog : Catalog) :
    (sortParks qsort catalog compareParksByID).parks.Perm catalog.parks ∧
      ((sortParks qsort catalog compareParksByID).parks.map fun q => q.id).Pairwise
        (fun x y => x ≤ y) ∧
      ((catalog.parks.map fun q => q.id).Nodup →
        sortParks qsort
            (sortParks qsort (sortParks qsort catalog compareParksByID) compareParksByName)
            compareParksByID
          = sortParks qsort catalog compareParksByID) := by
  obtain ⟨p1, s1, k1⟩ := sortParks_perm_pairwise qsort hq catalog _ compareParksByID_isOrdering
  refine ⟨p1, ?_, ?_⟩
  · rw [List.pairwise_map]
    exact s1.imp (fun h => (compareParksByID_le _ _).mp h)
  · intro hnd
    obtain ⟨p2, _, k2⟩ := sortParks_perm_pairwise qsort hq
      (sortParks qsort catalog compareParksByID) _ compareParksByName_isOrdering
    have hnd1 : ((sortParks qsort catalog compareParksByID).parks.map fun q => q.id).Nodup :=
      (p1.map _).nodup_iff.mpr hnd
    have h3 := sortParks_byID_unique qsort hq
      (sortParks qsort (sortParks qsort catalog compareParksByID) compareParksByName)
      (sortParks qsort catalog compareParksByID) p2 k2 hnd1
    have h4 := sortParks_byID_unique qsort hq
      (sortParks qsort catalog compareParksByID) catalog p1 k1 hnd
    rw [h3, h4]

/-- Witness of C13: the catalog of named parks sorted with insertion sort. -/
theorem sortParks_byID_witness :
    (sortParks insertionQsort namedCatalog compareParksByID).parks.Perm namedCatalog.parks ∧
      ((sortParks insertionQsort namedCatalog compareParksByID).parks.map fun q => q.id).Pairwise
        (fun x y => x ≤ y) ∧
      ((namedCatalog.parks.map fun q => q.id).Nodup →
        sortParks insertionQsort
            (sortParks insertionQsort (sortParks insertionQsort namedCatalog compareParksByID)
              compareParksByName)
            compareParksByID
          = sortParks insertionQsort namedCatalog compareParksByID) :=
  sortParks_byID insertionQsort insertionQsort_isQsort namedCatalog

/-- C14: for every sorting function with the properties of qsort and every catalog,
`list names` (sortParks with compareParksByName) leaves the catalog a rearrangement of its
content in which, of every two neighbours, the name of the first is smaller than the name
of the second in the lexicographic order of the bytes, or the names are equal and the id
of the first is not greater than the id of the second; a catalog with fewer than 2 parks
is left as it is. -/
theorem sortParks_byName (qsort : (Park → Park → Int) → List Park → List Park)
    (hq : IsQsort qsort) (catalog : Catalog) :
    (sortParks qsort catalog compareParksByName).parks.Perm catalog.parks ∧
      (sortParks qsort catalog compareParksByName).parks.Chain'
        (fun a b => List.Lex (fun x y => x < y) (cstr a.name) (cstr b.name) ∨
          (cstr a.name = cstr b.name ∧ a.id ≤ b.id)) ∧
      (catalog.count < 2 → sortParks qsort catalog compareParksByName = catalog) := by
  obtain ⟨p1, s1, _⟩ := sortParks_perm_pairwise qsort hq catalog _ compareParksByName_isOrdering
  refine ⟨p1, ?_, ?_⟩
  · exact (s1.imp (fun h => (compareParksByName_le _ _).mp h)).chain'
  · intro h
    simp [sortParks, h]

/-- Witness of C14: the catalog of named parks sorted with insertion sort. -/
theorem sortParks_byName_witness :
    (sortParks insertionQsort namedCatalog compareParksByName).parks.Perm namedCatalog.parks ∧
      (sortParks insertionQsort namedCatalog compareParksByName).parks.Chain'
        (fun a b => List.Lex (fun x y => x < y) (cstr a.name) (cstr b.name) ∨
          (cstr a.name = cstr b.name ∧ a.id ≤ b.id)) ∧
      (namedCatalog.count < 2 →
        sortParks insertionQsort namedCatalog compareParksByName = namedCatalog) :=
  sortParks_byName insertionQsort insertionQsort_isQsort namedCatalog

/-! ## Listing the parks of a county -/

theorem cstr_of_not_mem (s : List Nat) (h : 0 ∉ s) : cstr s = s := by
  rw [cstr, List.takeWhile_eq_self_iff]
  intro b hb
  have : b ≠ 0 := fun e => h (e ▸ hb)
  simpa using this

theorem listParksLoop_eq_filter (test : Park → List Nat → Bool) (str : Option (List Nat))
    (l : List Park) :
    listParksLoop test str l
      = l.filter fun park => match str with
        | none => true
        | some s => test park s := by
  cases str with
  | none =>
    induction l with
    | nil => rfl
    | cons p rest ih => simp [listParksLoop, ih]
  | some s =>
    induction l with
    | nil => rfl
    | cons p rest ih => simp only [listParksLoop, List.filter_cons, ih]

theorem sscanf3_three (input : List Nat) (a b c : List Nat) (rest : List (List Nat))
    (h : scanTokens input = a :: b :: c :: rest) :
    sscanf3 input = { result := 3, cmd := some a, param1 := some b, param2 := some c } := by
  simp [sscanf3, h]

theorem sscanf3_two (input : List Nat) (a b : List Nat) (h : scanTokens input = [a, b]) :
    sscanf3 input = { result := 2, cmd := some a, param1 := some b, param2 := none } := by
  simp [sscanf3, h]

theorem sscanf3_one (input : List Nat) (a : List Nat) (h : scanTokens input = [a]) :
    sscanf3 input = { result := 1, cmd := some a, param1 := none, param2 := none } := by
  simp [sscanf3, h]

/-- C15, evaluated on the code: a park file with the counties `Transylvania Henderson` is
read without complaint (the label of 12 bytes passes the test `> 12`), and over the catalog
it gives `list county Transylvania` lists no park, although Transylvania is a county label
of park 7: strcpy has written the 13 bytes of the first label into its slot of 12 bytes,
the second label has overwritten the NUL, and the string in the first slot is
`TransylvaniaHenderson`, under which name the park is listed. `list county Henderson`
lists the park. -/
theorem list_county_misses_long_label :
    readParks longLabelFile makeCatalog = .ok { parks := [longLabelPark], capacity := 5 } ∧
      interpret insertionQsort (· < ·) gridDistance
          (Session.mk { parks := [longLabelPark], capacity := 5 } makeTrip)
          (bytes "list county Transylvania") nullBlock
        = .running (Session.mk { parks := [longLabelPark], capacity := 5 } makeTrip)
            (.parks []) ∧
      interpret insertionQsort (· < ·) gridDistance
          (Session.mk { parks := [longLabelPark], capacity := 5 } makeTrip)
          (bytes "list county TransylvaniaHenderson") nullBlock
        = .running (Session.mk { parks := [longLabelPark], capacity := 5 } makeTrip)
            (.parks [longLabelPark]) ∧
      interpret insertionQsort (· < ·) gridDistance
          (Session.mk { parks := [longLabelPark], capacity := 5 } makeTrip)
          (bytes "list county Henderson") nullBlock
        = .running (Session.mk { parks := [longLabelPark], capacity := 5 } makeTrip)
            (.parks [longLabelPark]) := by
  decide

/-! ## The command loop -/

theorem interpret_cons {D : Type} [Add D] [Zero D]
    (qsort : (Park → Park → Int) → List Park → List Park)
    (lt : D → D → Prop) [DecidableRel lt] (distance : Park → Park → D)
    (s : Session) (input cmd : List Nat) (args : List (List Nat)) (block : Block)
    (h : scanTokens input = cmd :: args) :
    interpret qsort lt distance s input block
      = if args = [] ∧ strcmp cmd (bytes "quit") = 0 then .terminated
        else if strcmp cmd (bytes "list") = 0 then
          listStep qsort s { result := 0, cmd := none, param1 := args[0]?, param2 := args[1]? }
        else if strcmp cmd (bytes "add") = 0 then
          (match args[0]? with
            | none => .indeterminate
            | some param1 => addStep s (atoi param1))
        else if strcmp cmd (bytes "remove") = 0 then
          (match args[0]? with
            | none => .indeterminate
            | some param1 => removeStep s (atoi param1))
        else if strcmp cmd (bytes "trip") = 0 then .running s (.trip (listTrip distance s.trip))
        else if strcmp cmd (bytes "nearest") = 0 then
          (match args[0]? with
            | none => .indeterminate
            | some param1 => nearestStep lt distance s (atoi param1) block)
        else .running s .invalid := by
  have hres1 : (sscanf3 input).result = 1 ↔ args = [] := by
    simp only [sscanf3, h, List.length_cons]
    cases args with
    | nil => simp
    | cons a rest =>
      simp only [List.length_cons, reduceCtorEq, if_false, iff_false]
      omega
  have hres : (sscanf3 input).result ≥ 1 := by
    simp only [sscanf3, h, List.length_cons, reduceCtorEq, if_false]
    omega
  have hcmd : (sscanf3 input).cmd = some cmd := by simp [sscanf3, h]
  have hp1 : (sscanf3 input).param1 = args[0]? := by simp [sscanf3, h]
  have hp2 : (sscanf3 input).param2 = args[1]? := by simp [sscanf3, h]
  simp only [interpret, dispatch, hcmd, hres1, hres, true_and, hp1, listStep, hp2]

theorem scanWords_word (l : List Nat) (hl : ∀ b ∈ l, b ≠ 0) :
    ∀ cur : List Nat, (∀ b ∈ cur, b ≠ 0 ∧ isspace b = false) →
      ∀ w ∈ scanWords l cur, ∀ b ∈ w, b ≠ 0 ∧ isspace b = false := by
  induction l with
  | nil =>
    intro cur hcur w hw
    simp only [scanWords] at hw
    split_ifs at hw with h
    · cases hw
    · rw [List.mem_singleton.mp hw]
      exact hcur
  | cons a rest ih =>
    intro cur hcur w hw
    have hrest : ∀ b ∈ rest, b ≠ 0 := fun b hb => hl b (List.mem_cons_of_mem _ hb)
    simp only [scanWords] at hw
    split_ifs at hw with hsp hnil
    · exact ih hrest [] (fun b hb => absurd hb (List.not_mem_nil b)) w hw
    · rcases List.mem_cons.mp hw with e | e
      · rw [e]; exact hcur
      · exact ih hrest [] (fun b hb => absurd hb (List.not_mem_nil b)) w e
    · refine ih hrest (cur ++ [a]) ?_ w hw
      intro b hb
      rcases List.mem_append.mp hb with e | e
      · exact hcur b e
      · rw [List.mem_singleton.mp e]
        exact ⟨hl a (List.mem_cons_self _ _), by simpa using hsp⟩

theorem scanTokens_word (input w : List Nat) (hw : w ∈ scanTokens input) :
    ∀ b ∈ w, b ≠ 0 ∧ isspace b = false :=
  scanWords_word (cstr input) (cstr_ne_zero input) []
    (fun b hb => absurd hb (List.not_mem_nil b)) w hw

theorem atoiDigits_takeWhile (l : List Nat) (acc : Int) :
    atoiDigits (l.takeWhile isdigit) acc = atoiDigits l acc := by
  induction l generalizing acc with
  | nil => rfl
  | cons b rest ih =>
    by_cases hb : isdigit b = true
    · simp only [List.takeWhile_cons_of_pos hb, atoiDigits, hb, if_true]
      exact ih _
    · simp only [List.takeWhile_cons_of_neg hb, atoiDigits, hb]
      rfl

theorem decimalValue_word (w : List Nat) (hw : ∀ b ∈ w, b ≠ 0 ∧ isspace b = false) :
    decimalValue w = signedValue w := by
  have hc : cstr w = w := cstr_of_not_mem w (fun h => (hw 0 h).1 rfl)
  have hd : w.dropWhile isspace = w := by
    cases w with
    | nil => rfl
    | cons b rest =>
      exact List.dropWhile_cons_of_neg (by simp [(hw b (List.mem_cons_self _ _)).2])
  rw [decimalValue, hc, hd]

theorem isdigit_word (ds : List Nat) (hds : ∀ d ∈ ds, isdigit d = true) :
    ∀ b ∈ ds, (b ≠ 0 ∧ isspace b = false) ∧ b ≠ 45 ∧ b ≠ 43 := by
  intro b hb
  have h := hds b hb
  simp only [isdigit, Bool.and_eq_true, decide_eq_true_eq] at h
  refine ⟨⟨by omega, ?_⟩, by omega, by omega⟩
  simp only [isspace, Bool.or_eq_false_iff, decide_eq_false_iff_not, Bool.and_eq_false_imp,
    decide_eq_true_eq]
  omega

theorem decimalValue_digits (ds : List Nat) (hds : ∀ d ∈ ds, isdigit d = true) :
    decimalValue ds = atoiDigits ds 0 := by
  rw [decimalValue_word ds (fun b hb => (isdigit_word ds hds b hb).1)]
  cases ds with
  | nil => rfl
  | cons d rest =>
    obtain ⟨_, h45, h43⟩ := isdigit_word (d :: rest) hds d (List.mem_cons_self _ _)
    simp only [signedValue]
    split
    · rename_i heq; simp only [List.cons.injEq] at heq; exact absurd heq.1 h45
    · rename_i heq; simp only [List.cons.injEq] at heq; exact absurd heq.1 h43
    · rfl

theorem decimalValue_minus (rest : List Nat)
    (hw : ∀ b ∈ 45 :: rest, b ≠ 0 ∧ isspace b = false) :
    decimalValue (45 :: rest) = - atoiDigits rest 0 := by
  rw [decimalValue_word _ hw]
  rfl

theorem decimalValue_plus (rest : List Nat)
    (hw : ∀ b ∈ 43 :: rest, b ≠ 0 ∧ isspace b = false) :
    decimalValue (43 :: rest) = atoiDigits rest 0 := by
  rw [decimalValue_word _ hw]
  rfl

theorem decimalValue_unsigned (w : List Nat) (hw : ∀ b ∈ w, b ≠ 0 ∧ isspace b = false)
    (h45 : w.head? ≠ some 45) (h43 : w.head? ≠ some 43) :
    decimalValue w = atoiDigits w 0 := by
  rw [decimalValue_word w hw]
  simp only [signedValue]
  split
  · exact absurd rfl h45
  · exact absurd rfl h43
  · rfl

theorem signed_word (sg : Nat) (ds : List Nat) (hsg : sg = 45 ∨ sg = 43)
    (hds : ∀ d ∈ ds, isdigit d = true) :
    ∀ b ∈ sg :: ds, b ≠ 0 ∧ isspace b = false := by
  intro b hb
  rcases List.mem_cons.mp hb with e | e
  · rcases hsg with h | h
    · rw [e, h]; decide
    · rw [e, h]; decide
  · exact (isdigit_word ds hds b e).1

/-- Of a word atoi reads its numeral: the sign and the digits after it. -/
theorem decimalValue_numeralOf (w : List Nat) (hw : ∀ b ∈ w, b ≠ 0 ∧ isspace b = false) :
    decimalValue w = decimalValue (numeralOf w) ∧
      (digitsOf w = [] → decimalValue w = 0) := by
  have hdig : ∀ l : List Nat, ∀ d ∈ l.takeWhile isdigit, isdigit d = true := by
    intro l d hd
    exact List.mem_takeWhile_imp hd
  have hzero : decimalValue (bytes "0") = 0 := by decide
  have hnone : ∀ l : List Nat, l.takeWhile isdigit = [] → atoiDigits l 0 = 0 := by
    intro l hl
    rw [← atoiDigits_takeWhile, hl]
    rfl
  cases w with
  | nil => exact ⟨by decide, fun _ => by decide⟩
  | cons b rest =>
    by_cases h45 : b = 45
    · subst h45
      have hs : signOf (45 :: rest) = [45] := rfl
      have hd : digitsOf (45 :: rest) = rest.takeWhile isdigit := rfl
      rw [decimalValue_minus rest hw, numeralOf, hs, hd]
      by_cases hnil : rest.takeWhile isdigit = []
      · simp [hnil, hzero, hnone rest hnil]
      · simp only [hnil, if_false, List.singleton_append, false_implies, and_true]
        rw [decimalValue_minus _ (signed_word 45 _ (Or.inl rfl) (hdig rest)),
          atoiDigits_takeWhile]
    · by_cases h43 : b = 43
      · subst h43
        have hs : signOf (43 :: rest) = [43] := rfl
        have hd : digitsOf (43 :: rest) = rest.takeWhile isdigit := rfl
        rw [decimalValue_plus rest hw, numeralOf, hs, hd]
        by_cases hnil : rest.takeWhile isdigit = []
        · simp [hnil, hzero, hnone rest hnil]
        · simp only [hnil, if_false, List.singleton_append, false_implies, and_true]
          rw [decimalValue_plus _ (signed_word 43 _ (Or.inr rfl) (hdig rest)),
            atoiDigits_takeWhile]
      · have hs : signOf (b :: rest) = [] := by
          simp only [signOf]
          split
          · rename_i heq; simp only [List.cons.injEq] at heq; exact absurd heq.1 h45
          · rename_i heq; simp only [List.cons.injEq] at heq; exact absurd heq.1 h43
          · rfl
        have hd : digitsOf (b :: rest) = (b :: rest).takeWhile isdigit := by
          rw [digitsOf, hs]; rfl
        have hu : decimalValue (b :: rest) = atoiDigits (b :: rest) 0 :=
          decimalValue_unsigned _ hw (by simpa using h45) (by simpa using h43)
        rw [hu, numeralOf, hs, hd]
        by_cases hnil : (b :: rest).takeWhile isdigit = []
        · simp [hnil, hzero, hnone _ hnil]
        · simp only [hnil, if_false, List.nil_append, false_implies, and_true]
          rw [decimalValue_digits _ (hdig (b :: rest)), atoiDigits_takeWhile]

/-- C16, as the code has it: the argument of `add`, `remove` and `nearest` goes through
atoi without a test. A line with the words `add`, `remove` or `nearest` and an argument,
whatever it is, is interpreted exactly like the line with the same command and the numeral
of the argument: its sign, if it starts with one, and the decimal digits after it, or `0`
when no digit follows (`add 12abc` like `add 12`, `add -5abc` like `add -5`, `add abc`
and `add -abc` like `add 0`). So for an argument without such digits `nearest` prints
"Invalid command" and leaves the session as it is, and `add` and `remove` do what they do
for the id 0. -/
theorem interpret_atoi_argument {D : Type} [Add D] [Zero D]
    (qsort : (Park → Park → Int) → List Park → List Park)
    (lt : D → D → Prop) [DecidableRel lt] (distance : Park → Park → D)
    (s : Session) (verb arg input input1 : List Nat) (block : Block)
    (hverb : verb = bytes "add" ∨ verb = bytes "remove" ∨ verb = bytes "nearest")
    (hline : scanTokens input = [verb, arg])
    (hline1 : scanTokens input1 = [verb, numeralOf arg]) :
    interpret qsort lt distance s input block = interpret qsort lt distance s input1 block ∧
      (digitsOf arg = [] → interpret qsort lt distance s input block
        = if verb = bytes "add" then addStep s 0
          else if verb = bytes "remove" then removeStep s 0
          else .running s .invalid) := by
  have hw : ∀ b ∈ arg, b ≠ 0 ∧ isspace b = false :=
    scanTokens_word input arg (by rw [hline]; simp)
  obtain ⟨hnum, hnone⟩ := decimalValue_numeralOf arg hw
  have ha : atoi arg = atoi (numeralOf arg) := by
    rw [atoi, atoi, hnum]
  have hzero : digitsOf arg = [] → atoi arg = 0 := by
    intro h
    rw [atoi, hnone h]
    decide
  have hnear : ∀ k : Int, k ≤ 0 → nearestStep lt distance s k block = .running s .invalid := by
    intro k hk
    simp [nearestStep, getNearest, hk]
  rw [interpret_cons qsort lt distance s input verb _ block hline,
    interpret_cons qsort lt distance s input1 verb _ block hline1]
  simp only [List.getElem?_cons_zero, ← ha]
  rcases hverb with h | h | h
  · subst h
    have e1 : ¬ strcmp (bytes "add") (bytes "quit") = 0 := by decide
    have e2 : ¬ strcmp (bytes "add") (bytes "list") = 0 := by decide
    have e3 : strcmp (bytes "add") (bytes "add") = 0 := by decide
    simp only [e1, e2, e3, and_false, if_false, if_true, true_and]
    intro hnil
    rw [hzero hnil]
  · subst h
    have e1 : ¬ strcmp (bytes "remove") (bytes "quit") = 0 := by decide
    have e2 : ¬ strcmp (bytes "remove") (bytes "list") = 0 := by decide
    have e3 : ¬ strcmp (bytes "remove") (bytes "add") = 0 := by decide
    have e4 : strcmp (bytes "remove") (bytes "remove") = 0 := by decide
    have e5 : ¬ bytes "remove" = bytes "add" := by decide
    simp only [e1, e2, e3, e4, e5, and_false, if_false, if_true, true_and]
    intro hnil
    rw [hzero hnil]
  · subst h
    have e1 : ¬ strcmp (bytes "nearest") (bytes "quit") = 0 := by decide
    have e2 : ¬ strcmp (bytes "nearest") (bytes "list") = 0 := by decide
    have e3 : ¬ strcmp (bytes "nearest") (bytes "add") = 0 := by decide
    have e4 : ¬ strcmp (bytes "nearest") (bytes "remove") = 0 := by decide
    have e5 : ¬ strcmp (bytes "nearest") (bytes "trip") = 0 := by decide
    have e6 : strcmp (bytes "nearest") (bytes "nearest") = 0 := by decide
    have e7 : ¬ bytes "nearest" = bytes "add" := by decide
    have e8 : ¬ bytes "nearest" = bytes "remove" := by decide
    simp only [e1, e2, e3, e4, e5, e6, e7, e8, and_false, if_false, if_true, true_and]
    intro hnil
    rw [hzero hnil, hnear 0 (le_refl 0)]

/-- Witness of C16 as the code has it: `add -5abc` and `add -5` over a catalog with a park
of id -5. -/
theorem interpret_atoi_argument_witness :
    interpret insertionQsort (· < ·) gridDistance (Session.mk minusCatalog makeTrip)
          (bytes "add -5abc") nullBlock
        = interpret insertionQsort (· < ·) gridDistance (Session.mk minusCatalog makeTrip)
            (bytes "add -5") nullBlock ∧
      (digitsOf (bytes "-5abc") = [] →
        interpret insertionQsort (· < ·) gridDistance (Session.mk minusCatalog makeTrip)
            (bytes "add -5abc") nullBlock
          = if bytes "add" = bytes "add" then addStep (Session.mk minusCatalog makeTrip) 0
            else if bytes "add" = bytes "remove" then
              removeStep (Session.mk minusCatalog makeTrip) 0
            else .running (Session.mk minusCatalog makeTrip) .invalid) :=
  interpret_atoi_argument insertionQsort (· < ·) gridDistance (Session.mk minusCatalog makeTrip)
    (bytes "add") (bytes "-5abc") (bytes "add -5abc") (bytes "add -5") nullBlock
    (Or.inl rfl) (by decide) (by decide)

/-- C16 as stated fails: over a catalog with a park of id 0, the line `add abc` appends
that park to the trip and prints no "Invalid command". -/
theorem interpret_atoi_argument_counterexample :
    interpret insertionQsort (· < ·) gridDistance (Session.mk zeroCatalog makeTrip)
          (bytes "add abc") nullBlock
        = .running (Session.mk zeroCatalog (Trip.mk [mkPark 0 0 0] 5)) .nothing ∧
      interpret insertionQsort (· < ·) gridDistance (Session.mk zeroCatalog makeTrip)
          (bytes "add abc") nullBlock
        ≠ .running (Session.mk zeroCatalog makeTrip) .invalid := by
  decide

/-- C17, as the code has it: the commands other than `quit` do not count their arguments.
A line that consists of a command with all its arguments (`trip`, `list parks`,
`list names`, `list county X`, `add A`, `remove A`, `nearest A`) followed by at least one
more word is interpreted exactly like the line without the words that follow; a line with
`quit` followed by at least one word prints "Invalid command" and the loop goes on with
the session as it was. -/
theorem interpret_extra_arguments {D : Type} [Add D] [Zero D]
    (qsort : (Park → Park → Int) → List Park → List Park)
    (lt : D → D → Prop) [DecidableRel lt] (distance : Park → Park → D)
    (s : Session) (words more : List (List Nat)) (e input input1 : List Nat) (block : Block)
    (hline : scanTokens input = words ++ e :: more)
    (hline1 : scanTokens input1 = words) :
    (IsCommandLine words →
        interpret qsort lt distance s input block
          = interpret qsort lt distance s input1 block) ∧
      (words = [bytes "quit"] →
        interpret qsort lt distance s input block = .running s .invalid) := by
  constructor
  · intro hcmd
    rcases hcmd with h | h | h | ⟨x, h⟩ | ⟨a, h⟩ | ⟨a, h⟩ | ⟨a, h⟩ <;> subst h
    · have e1 : ¬ strcmp (bytes "trip") (bytes "quit") = 0 := by decide
      rw [interpret_cons qsort lt distance s input _ _ block hline,
        interpret_cons qsort lt distance s input1 _ _ block hline1]
      simp only [e1, and_false, if_false]
      have e2 : ¬ strcmp (bytes "trip") (bytes "list") = 0 := by decide
      have e3 : ¬ strcmp (bytes "trip") (bytes "add") = 0 := by decide
      have e4 : ¬ strcmp (bytes "trip") (bytes "remove") = 0 := by decide
      have e5 : strcmp (bytes "trip") (bytes "trip") = 0 := by decide
      simp only [e2, e3, e4, e5, if_false, if_true]
    · have e1 : strcmp (bytes "list") (bytes "list") = 0 := by decide
      have e2 : strcmp (bytes "parks") (bytes "parks") = 0 := by decide
      rw [interpret_cons qsort lt distance s input _ _ block hline,
        interpret_cons qsort lt distance s input1 _ _ block hline1]
      simp [e1, e2, listStep]
    · have e1 : strcmp (bytes "list") (bytes "list") = 0 := by decide
      have e2 : ¬ strcmp (bytes "names") (bytes "parks") = 0 := by decide
      have e3 : strcmp (bytes "names") (bytes "names") = 0 := by decide
      rw [interpret_cons qsort lt distance s input _ _ block hline,
        interpret_cons qsort lt distance s input1 _ _ block hline1]
      simp [e1, e2, e3, listStep]
    all_goals
      have f1 : ¬ strcmp (bytes "add") (bytes "list") = 0 := by decide
      have f2 : ¬ strcmp (bytes "remove") (bytes "list") = 0 := by decide
      have f3 : ¬ strcmp (bytes "nearest") (bytes "list") = 0 := by decide
      rw [interpret_cons qsort lt distance s input _ _ block hline,
        interpret_cons qsort lt distance s input1 _ _ block hline1]
      simp [f1, f2, f3]
  · intro h
    subst h
    rw [interpret_cons qsort lt distance s input _ _ block hline]
    have e1 : ¬ strcmp (bytes "quit") (bytes "list") = 0 := by decide
    have e2 : ¬ strcmp (bytes "quit") (bytes "add") = 0 := by decide
    have e3 : ¬ strcmp (bytes "quit") (bytes "remove") = 0 := by decide
    have e4 : ¬ strcmp (bytes "quit") (bytes "trip") = 0 := by decide
    have e5 : ¬ strcmp (bytes "quit") (bytes "nearest") = 0 := by decide
    simp [e1, e2, e3, e4, e5]

/-- Witness of C17 as the code has it: `add 1 2` is interpreted like `add 1`. -/
theorem interpret_extra_arguments_witness :
    (IsCommandLine [bytes "add", bytes "1"] →
        interpret insertionQsort (· < ·) gridDistance (Session.mk sampleCatalog makeTrip)
            (bytes "add 1 2") nullBlock
          = interpret insertionQsort (· < ·) gridDistance (Session.mk sampleCatalog makeTrip)
              (bytes "add 1") nullBlock) ∧
      ([bytes "add", bytes "1"] = [bytes "quit"] →
        interpret insertionQsort (· < ·) gridDistance (Session.mk sampleCatalog makeTrip)
            (bytes "add 1 2") nullBlock
          = .running (Session.mk sampleCatalog makeTrip) .invalid) :=
  interpret_extra_arguments insertionQsort (· < ·) gridDistance
    (Session.mk sampleCatalog makeTrip)
    [bytes "add", bytes "1"] [] (bytes "2") (bytes "add 1 2") (bytes "add 1") nullBlock
    (by decide) (by decide)

/-- C17 as stated fails: over the sample catalog and the empty trip, the line `add 1 2`
appends park 1 to the trip and prints no "Invalid command". -/
theorem interpret_extra_arguments_counterexample :
    interpret insertionQsort (· < ·) gridDistance (Session.mk sampleCatalog makeTrip)
          (bytes "add 1 2") nullBlock
        = .running (Session.mk sampleCatalog (Trip.mk [mkPark 1 0 0] 5)) .nothing ∧
      interpret insertionQsort (· < ·) gridDistance (Session.mk sampleCatalog makeTrip)
          (bytes "add 1 2") nullBlock
        ≠ .running (Session.mk sampleCatalog makeTrip) .invalid := by
  decide

/-! ## distance -/

/-- C19: for all parks `a` and `b`, `distance a b` and `distance b a` are the same value,
in every arithmetic with a commutative multiplication: the components of the two unit
vectors are multiplied pairwise and the products are added in the same order in both
calls. -/
theorem distance_comm {F : Type} (A : DoubleArith F) (a b : Park) :
    distance A a b = distance A b a := by
  have h : List.zipWith A.mul (unitVector A a) (unitVector A b)
      = List.zipWith A.mul (unitVector A b) (unitVector A a) :=
    List.zipWith_comm_of_comm A.mul A.mul_comm _ _
  simp only [distance, h]

/-- The adjustment of `distance` is for a dot product greater than 1 only: when the
comparison `dp > 1` fails, the result is `EARTH_RADIUS * acos(dp)`, also for a dot product
that the rounding of the products and sums has left below 1. -/
theorem distance_of_not_gt {F : Type} (A : DoubleArith F) (a b : Park)
    (h : A.gt ((List.zipWith A.mul (unitVector A a) (unitVector A b)).foldl A.add A.zero) A.one
      = false) :
    distance A a b
      = A.mul A.earthRadius
          (A.acos ((List.zipWith A.mul (unitVector A a) (unitVector A b)).foldl A.add A.zero)) := by
  simp [distance, h]

/-- C19 at the sample arithmetic, for parks 1 and 2 of the sample catalog. -/
theorem distance_comm_witness :
    distance sampleArith (mkPark 1 0 0) (mkPark 2 0 1)
      = distance sampleArith (mkPark 2 0 1) (mkPark 1 0 0) :=
  distance_comm sampleArith (mkPark 1 0 0) (mkPark 2 0 1)

/-! ## readParks -/

theorem readRecord_ok (catalog catalog1 : Catalog) (r : ParkLines)
    (h : readRecord catalog r = .ok catalog1) :
    ∃ id latitude longitude, r.header = some (id, latitude, longitude) ∧
      id ∉ catalog.parks.map (fun q => q.id) ∧
      catalog1.parks.map (fun q => q.id) = catalog.parks.map (fun q => q.id) ++ [id] ∧
      catalog1.count = catalog.count + 1 ∧
      catalog1.capacity
        = (if catalog.count = catalog.capacity then catalog.capacity * 2
           else catalog.capacity) := by
  simp only [readRecord] at h
  cases hh : r.header with
  | none => simp [hh] at h
  | some t =>
    obtain ⟨id, latitude, longitude⟩ := t
    simp only [hh] at h
    by_cases h1 : catalog.parks.any (fun p => decide (p.id = id)) = true
    · simp [h1] at h
    · simp only [h1] at h
      cases hs : storeCounties r.counties 0
          ((List.range (MAX_COUNTIES * MAX_COUNTIES_NAME_LENGTH)).map r.fresh) with
      | none => simp [hs] at h
      | some counties =>
        simp only [hs] at h
        by_cases h3 : r.name.length > MAX_NAME_LENGTH
        · simp [h3] at h
        · simp only [h3, if_false, Bool.false_eq_true, Load.ok.injEq] at h
          subst h
          refine ⟨id, latitude, longitude, rfl, ?_, ?_, ?_, rfl⟩
          · intro hm
            obtain ⟨p, hp, hpid⟩ := List.mem_map.mp hm
            exact h1 (List.any_eq_true.mpr ⟨p, hp, by simpa using hpid⟩)
          · simp
          · simp [Catalog.count]

theorem readRecord_invariant (catalog catalog1 : Catalog) (r : ParkLines)
    (hnd : (catalog.parks.map fun q => q.id).Nodup)
    (hcap : catalog.count ≤ catalog.capacity) (hpos : 0 < catalog.capacity)
    (h : readRecord catalog r = .ok catalog1) :
    (catalog1.parks.map fun q => q.id).Nodup ∧ catalog1.count ≤ catalog1.capacity ∧
      0 < catalog1.capacity ∧
      catalog1.parks.map (fun q => q.id)
        = catalog.parks.map (fun q => q.id) ++ (r.header.map fun t => t.1).toList := by
  obtain ⟨id, latitude, longitude, hh, hnew, hids, hcount, hcapacity⟩ :=
    readRecord_ok catalog catalog1 r h
  refine ⟨?_, ?_, ?_, ?_⟩
  · rw [hids]
    exact List.Nodup.append hnd (List.nodup_singleton id)
      (by simpa [List.Disjoint] using hnew)
  · rw [hcount, hcapacity]
    split_ifs <;> omega
  · rw [hcapacity]
    split_ifs <;> omega
  · rw [hids, hh]
    rfl

theorem readLoop_invariant (records : List ParkLines) :
    ∀ (catalog catalog1 : Catalog), (catalog.parks.map fun q => q.id).Nodup →
      catalog.count ≤ catalog.capacity → 0 < catalog.capacity →
      readLoop records catalog = .ok catalog1 →
      (catalog1.parks.map fun q => q.id).Nodup ∧ catalog1.count ≤ catalog1.capacity ∧
        0 < catalog1.capacity ∧
        catalog1.parks.map (fun q => q.id)
          = catalog.parks.map (fun q => q.id)
            ++ records.filterMap (fun r => r.header.map fun t => t.1) := by
  induction records with
  | nil =>
    intro catalog catalog1 hnd hcap hpos h
    simp only [readLoop, Load.ok.injEq] at h
    subst h
    exact ⟨hnd, hcap, hpos, by simp⟩
  | cons r rest ih =>
    intro catalog catalog1 hnd hcap hpos h
    rw [readLoop] at h
    cases hr : readRecord catalog r with
    | exit => simp [hr] at h
    | ok c1 =>
      simp only [hr] at h
      obtain ⟨a1, a2, a3, a4⟩ := readRecord_invariant catalog c1 r hnd hcap hpos hr
      obtain ⟨b1, b2, b3, b4⟩ := ih c1 catalog1 a1 a2 a3 h
      refine ⟨b1, b2, b3, ?_⟩
      rw [b4, a4, List.append_assoc]
      congr 1
      cases hh : r.header with
      | none => simp [List.filterMap_cons, hh]
      | some t => simp [List.filterMap_cons, hh]

theorem readFiles_invariant (files : List (Option (List ParkLines))) :
    ∀ (catalog catalog1 : Catalog), (catalog.parks.map fun q => q.id).Nodup →
      catalog.count ≤ catalog.capacity → 0 < catalog.capacity →
      readFiles files catalog = .ok catalog1 →
      (catalog1.parks.map fun q => q.id).Nodup ∧ catalog1.count ≤ catalog1.capacity ∧
        0 < catalog1.capacity ∧
        catalog1.parks.map (fun q => q.id)
          = catalog.parks.map (fun q => q.id) ++ fileIds files := by
  induction files with
  | nil =>
    intro catalog catalog1 hnd hcap hpos h
    simp only [readFiles, Load.ok.injEq] at h
    subst h
    exact ⟨hnd, hcap, hpos, by simp [fileIds]⟩
  | cons file rest ih =>
    intro catalog catalog1 hnd hcap hpos h
    rw [readFiles] at h
    cases hr : readParks file catalog with
    | exit => simp [hr] at h
    | ok c1 =>
      simp only [hr] at h
      cases file with
      | none => simp [readParks] at hr
      | some records =>
        simp only [readParks] at hr
        obtain ⟨a1, a2, a3, a4⟩ := readLoop_invariant records catalog c1 hnd hcap hpos hr
        obtain ⟨b1, b2, b3, b4⟩ := ih c1 catalog1 a1 a2 a3 h
        refine ⟨b1, b2, b3, ?_⟩
        rw [b4, a4, List.append_assoc]
        simp [fileIds]

/-- C20: starting from a catalog with pairwise-distinct ids and `count <= capacity` (such
as the empty catalog of makeCatalog), the lines of a park whose id some park of the catalog
has end the process; when the loading of the files returns, the ids of the catalog are the
ids it had followed by the ids of the parks of the files in their order, they are pairwise
distinct and `count <= capacity`; so an id that occurs twice, in one file or in two, ends
the process. -/
theorem readParks_ids_unique (files : List (Option (List ParkLines)))
    (catalog : Catalog) (hnd : (catalog.parks.map fun q => q.id).Nodup)
    (hcap : catalog.count ≤ catalog.capacity) (hpos : 0 < catalog.capacity) :
    (∀ r id latitude longitude, r.header = some (id, latitude, longitude) →
        (∃ p ∈ catalog.parks, p.id = id) → readRecord catalog r = .exit) ∧
      (∀ catalog1, readFiles files catalog = .ok catalog1 →
        (catalog1.parks.map fun q => q.id).Nodup ∧ catalog1.count ≤ catalog1.capacity ∧
          catalog1.parks.map (fun q => q.id)
            = catalog.parks.map (fun q => q.id) ++ fileIds files) ∧
      (¬ (catalog.parks.map (fun q => q.id) ++ fileIds files).Nodup →
        readFiles files catalog = .exit) := by
  refine ⟨?_, ?_, ?_⟩
  · intro r id latitude longitude hh hdup
    obtain ⟨p, hp, hpid⟩ := hdup
    have hany : catalog.parks.any (fun p => decide (p.id = id)) = true :=
      List.any_eq_true.mpr ⟨p, hp, by simpa using hpid⟩
    simp [readRecord, hh, hany]
  · intro catalog1 h
    obtain ⟨h1, h2, _, h4⟩ := readFiles_invariant files catalog catalog1 hnd hcap hpos h
    exact ⟨h1, h2, h4⟩
  · intro hdup
    cases h : readFiles files catalog with
    | exit => rfl
    | ok catalog1 =>
      obtain ⟨h1, _, _, h4⟩ := readFiles_invariant files catalog catalog1 hnd hcap hpos h
      rw [h4] at h1
      exact absurd h1 hdup

/-- Witness of C20: the two sample files are read into the empty catalog. -/
theorem readParks_ids_unique_witness :
    (∀ r id latitude longitude, r.header = some (id, latitude, longitude) →
        (∃ p ∈ makeCatalog.parks, p.id = id) → readRecord makeCatalog r = .exit) ∧
      (∀ catalog1, readFiles sampleFiles makeCatalog = .ok catalog1 →
        (catalog1.parks.map fun q => q.id).Nodup ∧ catalog1.count ≤ catalog1.capacity ∧
          catalog1.parks.map (fun q => q.id)
            = makeCatalog.parks.map (fun q => q.id) ++ fileIds sampleFiles) ∧
      (¬ (makeCatalog.parks.map (fun q => q.id) ++ fileIds sampleFiles).Nodup →
        readFiles sampleFiles makeCatalog = .exit) :=
  readParks_ids_unique sampleFiles makeCatalog (by decide) (by decide) (by decide)

/-! ## The storage of the trip -/

theorem filter_id_length_le (l : List Park) (id : Int)
    (hnd : (l.map (fun q => q.id)).Nodup) :
    (l.filter (fun q => decide (q.id = id))).length ≤ 1 := by
  by_cases h : ∃ p ∈ l, p.id = id
  · obtain ⟨p, hp, hid⟩ := h
    subst hid
    rw [filter_id_of_nodup l p hnd hp]
    simp
  · have : l.filter (fun q => decide (q.id = id)) = [] := by
      rw [List.filter_eq_nil_iff]
      intro q hq
      simpa using fun e => h ⟨q, hq, e⟩
    simp [this]

theorem addParkToTrip_storage (catalog : Catalog) (trip : Trip) (id : Int)
    (hnd : (catalog.parks.map (fun q => q.id)).Nodup) :
    trip.count ≤ (addParkToTrip catalog trip id).1.count ∧
      (addParkToTrip catalog trip id).1.count ≤ trip.count + 1 ∧
      ((addParkToTrip catalog trip id).1.capacity = trip.capacity ∨
        (addParkToTrip catalog trip id).1.capacity = trip.capacity * 2) ∧
      (trip.count ≤ trip.capacity → 0 < trip.capacity →
        (addParkToTrip catalog trip id).1.count ≤ (addParkToTrip catalog trip id).1.capacity) := by
  have hlen := filter_id_length_le catalog.parks id hnd
  simp only [addParkToTrip, addLoop_eq, Trip.count, List.length_append]
  refine ⟨by omega, by omega, ?_, ?_⟩
  · split_ifs
    · exact Or.inr rfl
    · exact Or.inl rfl
  · intro h1 h2
    split_ifs with h <;> omega

theorem removeParkFromTrip_storage (trip : Trip) (parkID : Int) :
    (removeParkFromTrip trip parkID).1.count ≤ trip.count ∧
      (removeParkFromTrip trip parkID).1.capacity = trip.capacity := by
  simp only [removeParkFromTrip]
  split_ifs with h
  · simp only [Trip.count, List.length_take, and_true]
    omega
  · exact ⟨le_refl _, rfl⟩

theorem runTrip_storage (catalog : Catalog)
    (hnd : (catalog.parks.map (fun q => q.id)).Nodup) (cmds : List TripCommand) (trip : Trip)
    (e : Nat) (h1 : trip.count ≤ trip.capacity) (h2 : trip.capacity = INITIAL_CAPACITY * 2 ^ e) :
    (runTrip catalog cmds trip).count ≤ (runTrip catalog cmds trip).capacity ∧
      ∃ d, (runTrip catalog cmds trip).capacity = INITIAL_CAPACITY * 2 ^ (e + d) := by
  induction cmds generalizing trip e with
  | nil => exact ⟨h1, 0, h2⟩
  | cons c rest ih =>
    have hpos : 0 < trip.capacity := by
      rw [h2]
      exact Nat.mul_pos (by decide) (pow_pos (by decide) _)
    cases c with
    | add id =>
      obtain ⟨_, _, hcap, hinv⟩ := addParkToTrip_storage catalog trip id hnd
      rcases hcap with hc | hc
      · obtain ⟨k1, d, k2⟩ := ih (addParkToTrip catalog trip id).1 e (hinv h1 hpos)
          (hc.trans h2)
        exact ⟨k1, d, k2⟩
      · obtain ⟨k1, d, k2⟩ := ih (addParkToTrip catalog trip id).1 (e + 1) (hinv h1 hpos)
          (by rw [hc, h2, pow_succ, Nat.mul_assoc])
        exact ⟨k1, 1 + d, by rw [← Nat.add_assoc]; exact k2⟩
    | remove id =>
      obtain ⟨hcnt, hc⟩ := removeParkFromTrip_storage trip id
      obtain ⟨k1, d, k2⟩ := ih (removeParkFromTrip trip id).1 e (by rw [hc]; omega)
        (hc.trans h2)
      exact ⟨k1, d, k2⟩

/-- C22: over a catalog with pairwise-distinct ids, every trip reached from makeTrip by add
and remove commands has `count ≤ capacity` and a capacity that is the initial capacity 5
doubled some number of times; from such a trip an add stores at most one more entry and
leaves the capacity as it is or doubles it, a remove leaves the capacity as it is and does
not increase the count, and both leave `count ≤ capacity`. -/
theorem trip_storage_invariant (catalog : Catalog)
    (hnd : (catalog.parks.map (fun q => q.id)).Nodup) (cmds : List TripCommand) (id : Int) :
    makeTrip.count = 0 ∧ makeTrip.capacity = 5 ∧
      (runTrip catalog cmds makeTrip).count ≤ (runTrip catalog cmds makeTrip).capacity ∧
      (∃ d, (runTrip catalog cmds makeTrip).capacity = 5 * 2 ^ d) ∧
      (runTrip catalog cmds makeTrip).count
        ≤ (addParkToTrip catalog (runTrip catalog cmds makeTrip) id).1.count ∧
      (addParkToTrip catalog (runTrip catalog cmds makeTrip) id).1.count
        ≤ (runTrip catalog cmds makeTrip).count + 1 ∧
      ((addParkToTrip catalog (runTrip catalog cmds makeTrip) id).1.capacity
          = (runTrip catalog cmds makeTrip).capacity ∨
        (addParkToTrip catalog (runTrip catalog cmds makeTrip) id).1.capacity
          = (runTrip catalog cmds makeTrip).capacity * 2) ∧
      (addParkToTrip catalog (runTrip catalog cmds makeTrip) id).1.count
        ≤ (addParkToTrip catalog (runTrip catalog cmds makeTrip) id).1.capacity ∧
      (removeParkFromTrip (runTrip catalog cmds makeTrip) id).1.count
        ≤ (runTrip catalog cmds makeTrip).count ∧
      (removeParkFromTrip (runTrip catalog cmds makeTrip) id).1.capacity
        = (runTrip catalog cmds makeTrip).capacity := by
  obtain ⟨k1, d, k2⟩ := runTrip_storage catalog hnd cmds makeTrip 0 (Nat.zero_le _) rfl
  have hpos : 0 < (runTrip catalog cmds makeTrip).capacity := by
    rw [k2]
    exact Nat.mul_pos (by decide) (pow_pos (by decide) _)
  obtain ⟨a1, a2, a3, a4⟩ :=
    addParkToTrip_storage catalog (runTrip catalog cmds makeTrip) id hnd
  obtain ⟨r1, r2⟩ := removeParkFromTrip_storage (runTrip catalog cmds makeTrip) id
  refine ⟨rfl, rfl, k1, ⟨0 + d, k2⟩, a1, a2, a3, a4 k1 hpos, r1, r2⟩

/-- Witness of C22: over the sample catalog, six adds (the sixth on a full trip of
capacity 5) and one remove, then a further add or remove of park 2. -/
theorem trip_storage_invariant_witness :
    (sampleCatalog.parks.map (fun q => q.id)).Nodup ∧
      (makeTrip.count = 0 ∧ makeTrip.capacity = 5 ∧
      (runTrip sampleCatalog [.add 1, .add 2, .add 3, .add 1, .add 2, .add 3, .remove 2]
          makeTrip).count
        ≤ (runTrip sampleCatalog [.add 1, .add 2, .add 3, .add 1, .add 2, .add 3, .remove 2]
          makeTrip).capacity ∧
      (∃ d, (runTrip sampleCatalog [.add 1, .add 2, .add 3, .add 1, .add 2, .add 3, .remove 2]
          makeTrip).capacity = 5 * 2 ^ d) ∧
      (runTrip sampleCatalog [.add 1, .add 2, .add 3, .add 1, .add 2, .add 3, .remove 2]
          makeTrip).count
        ≤ (addParkToTrip sampleCatalog (runTrip sampleCatalog
            [.add 1, .add 2, .add 3, .add 1, .add 2, .add 3, .remove 2] makeTrip) 2).1.count ∧
      (addParkToTrip sampleCatalog (runTrip sampleCatalog
            [.add 1, .add 2, .add 3, .add 1, .add 2, .add 3, .remove 2] makeTrip) 2).1.count
        ≤ (runTrip sampleCatalog [.add 1, .add 2, .add 3, .add 1, .add 2, .add 3, .remove 2]
          makeTrip).count + 1 ∧
      ((addParkToTrip sampleCatalog (runTrip sampleCatalog
            [.add 1, .add 2, .add 3, .add 1, .add 2, .add 3, .remove 2] makeTrip) 2).1.capacity
          = (runTrip sampleCatalog [.add 1, .add 2, .add 3, .add 1, .add 2, .add 3, .remove 2]
            makeTrip).capacity ∨
        (addParkToTrip sampleCatalog (runTrip sampleCatalog
            [.add 1, .add 2, .add 3, .add 1, .add 2, .add 3, .remove 2] makeTrip) 2).1.capacity
          = (runTrip sampleCatalog [.add 1, .add 2, .add 3, .add 1, .add 2, .add 3, .remove 2]
            makeTrip).capacity * 2) ∧
      (addParkToTrip sampleCatalog (runTrip sampleCatalog
            [.add 1, .add 2, .add 3, .add 1, .add 2, .add 3, .remove 2] makeTrip) 2).1.count
        ≤ (addParkToTrip sampleCatalog (runTrip sampleCatalog
            [.add 1, .add 2, .add 3, .add 1, .add 2, .add 3, .remove 2] makeTrip) 2).1.capacity ∧
      (removeParkFromTrip (runTrip sampleCatalog
            [.add 1, .add 2, .add 3, .add 1, .add 2, .add 3, .remove 2] makeTrip) 2).1.count
        ≤ (runTrip sampleCatalog [.add 1, .add 2, .add 3, .add 1, .add 2, .add 3, .remove 2]
          makeTrip).count ∧
      (removeParkFromTrip (runTrip sampleCatalog
            [.add 1, .add 2, .add 3, .add 1, .add 2, .add 3, .remove 2] makeTrip) 2).1.capacity
        = (runTrip sampleCatalog [.add 1, .add 2, .add 3, .add 1, .add 2, .add 3, .remove 2]
          makeTrip).capacity) :=
  ⟨by decide, trip_storage_invariant sampleCatalog (by decide)
    [.add 1, .add 2, .add 3, .add 1, .add 2, .add 3, .remove 2] 2⟩

/-! ## The comparators determine the sorted order -/

theorem reverseQsort_isQsort : IsQsort reverseQsort := by
  constructor
  · intro compare l
    exact (insertionQsort_isQsort.perm compare l.reverse).trans (List.reverse_perm l)
  · intro compare l h
    exact insertionQsort_isQsort.ascending compare l.reverse h

theorem compareParksByID_ne (a b : Park) (h : a.id ≠ b.id) : compareParksByID a b ≠ 0 := by
  simp only [compareParksByID]
  split_ifs <;> omega

theorem compareParksByName_ne (a b : Park) (h : a.id ≠ b.id) : compareParksByName a b ≠ 0 := by
  simp only [compareParksByName]
  split_ifs <;> omega

theorem sortParks_unique (compare : Park → Park → Int) (hc : IsOrdering compare)
    (hne : ∀ a b : Park, a.id ≠ b.id → compare a b ≠ 0)
    (qsort1 qsort2 : (Park → Park → Int) → List Park → List Park)
    (hq1 : IsQsort qsort1) (hq2 : IsQsort qsort2) (c1 c2 : Catalog)
    (hperm : c1.parks.Perm c2.parks) (hnd : (c2.parks.map fun q => q.id).Nodup) :
    (sortParks qsort1 c1 compare).parks = (sortParks qsort2 c2 compare).parks := by
  obtain ⟨p1, s1, _⟩ := sortParks_perm_pairwise qsort1 hq1 c1 _ hc
  obtain ⟨p2, s2, _⟩ := sortParks_perm_pairwise qsort2 hq2 c2 _ hc
  have hp : (sortParks qsort1 c1 compare).parks.Perm (sortParks qsort2 c2 compare).parks :=
    (p1.trans hperm).trans p2.symm
  have hnd2 : ((sortParks qsort2 c2 compare).parks.map fun q => q.id).Nodup :=
    (p2.map _).nodup_iff.mpr hnd
  have hnd1 : ((sortParks qsort1 c1 compare).parks.map fun q => q.id).Nodup :=
    (hp.map _).nodup_iff.mpr hnd2
  have strict : ∀ l : List Park, (l.map fun q => q.id).Nodup →
      l.Pairwise (fun a b => compare a b ≤ 0) → l.Pairwise (fun a b => compare a b < 0) := by
    intro l hl hs
    have hdiff : l.Pairwise (fun a b => a.id ≠ b.id) := by
      rw [List.Nodup, List.pairwise_map] at hl
      exact hl
    refine (hs.and hdiff).imp ?_
    intro a b h
    exact lt_of_le_of_ne h.1 (hne a b h.2)
  haveI : IsAntisymm Park (fun a b => compare a b < 0) :=
    ⟨fun a b h1 h2 => by
      have := (hc.1 a b).mp h1
      omega⟩
  exact List.eq_of_perm_of_sorted hp (strict _ hnd1 s1) (strict _ hnd2 s2)

/-- C23: compareParksByID and compareParksByName are antisymmetric (the sign of
`compare a b` is the opposite of the sign of `compare b a`) and transitive, and they do not
return 0 on two parks with different ids; hence, for two catalogs with the same content of
pairwise-distinct ids in any two enumeration orders and any two sorting functions with the
properties of qsort, `list parks` leaves both catalogs in the same order, and so does
`list names`. -/
theorem sortParks_order_unique (qsort1 qsort2 : (Park → Park → Int) → List Park → List Park)
    (hq1 : IsQsort qsort1) (hq2 : IsQsort qsort2) (c1 c2 : Catalog)
    (hperm : c1.parks.Perm c2.parks) (hnd : (c2.parks.map fun q => q.id).Nodup) :
    (∀ a b, (compareParksByID a b).sign = - (compareParksByID b a).sign) ∧
      (∀ a b, (compareParksByName a b).sign = - (compareParksByName b a).sign) ∧
      (∀ a b c, compareParksByID a b ≤ 0 → compareParksByID b c ≤ 0 →
        compareParksByID a c ≤ 0) ∧
      (∀ a b c, compareParksByName a b ≤ 0 → compareParksByName b c ≤ 0 →
        compareParksByName a c ≤ 0) ∧
      (∀ a b : Park, a.id ≠ b.id → compareParksByID a b ≠ 0 ∧ compareParksByName a b ≠ 0) ∧
      (sortParks qsort1 c1 compareParksByID).parks
        = (sortParks qsort2 c2 compareParksByID).parks ∧
      (sortParks qsort1 c1 compareParksByName).parks
        = (sortParks qsort2 c2 compareParksByName).parks := by
  refine ⟨?_, ?_, compareParksByID_isOrdering.2, compareParksByName_isOrdering.2, ?_, ?_, ?_⟩
  · intro a b
    rw [compareParksByID_neg b a, Int.sign_neg]
  · intro a b
    rw [compareParksByName_neg b a, Int.sign_neg]
  · intro a b h
    exact ⟨compareParksByID_ne a b h, compareParksByName_ne a b h⟩
  · exact sortParks_unique _ compareParksByID_isOrdering compareParksByID_ne
      qsort1 qsort2 hq1 hq2 c1 c2 hperm hnd
  · exact sortParks_unique _ compareParksByName_isOrdering compareParksByName_ne
      qsort1 qsort2 hq1 hq2 c1 c2 hperm hnd

/-- Witness of C23: the catalog of named parks (two parks are named "Eno") sorted with
insertion sort, and the same parks in the reverse enumeration order sorted with insertion
sort on the reversed sequence. -/
theorem sortParks_order_unique_witness :
    (namedCatalog.parks.Perm namedCatalog.parks.reverse ∧
      ((Catalog.mk namedCatalog.parks.reverse 5).parks.map fun q => q.id).Nodup) ∧
    ((∀ a b, (compareParksByID a b).sign = - (compareParksByID b a).sign) ∧
      (∀ a b, (compareParksByName a b).sign = - (compareParksByName b a).sign) ∧
      (∀ a b c, compareParksByID a b ≤ 0 → compareParksByID b c ≤ 0 →
        compareParksByID a c ≤ 0) ∧
      (∀ a b c, compareParksByName a b ≤ 0 → compareParksByName b c ≤ 0 →
        compareParksByName a c ≤ 0) ∧
      (∀ a b : Park, a.id ≠ b.id → compareParksByID a b ≠ 0 ∧ compareParksByName a b ≠ 0) ∧
      (sortParks insertionQsort namedCatalog compareParksByID).parks
        = (sortParks reverseQsort (Catalog.mk namedCatalog.parks.reverse 5)
            compareParksByID).parks ∧
      (sortParks insertionQsort namedCatalog compareParksByName).parks
        = (sortParks reverseQsort (Catalog.mk namedCatalog.parks.reverse 5)
            compareParksByName).parks) :=
  ⟨⟨(List.reverse_perm _).symm, by decide⟩,
    sortParks_order_unique insertionQsort reverseQsort insertionQsort_isQsort
      reverseQsort_isQsort namedCatalog (Catalog.mk namedCatalog.parks.reverse 5)
      (List.reverse_perm _).symm (by decide)⟩

/-! ## getNearest with amount 1 -/

theorem firstNearest_spec {D : Type} [LinearOrder D] (distance : Park → Park → D)
    (a : Park) (l : List Park) (w : Park) (h : firstNearest distance a l = some w) :
    ∃ f b, l = f ++ w :: b ∧ (∀ p ∈ f, distance a w < distance a p) ∧
      ∀ p ∈ b, distance a w ≤ distance a p := by
  induction l generalizing w with
  | nil => simp [firstNearest] at h
  | cons p rest ih =>
    simp only [firstNearest] at h
    cases hf : firstNearest distance a rest with
    | none =>
      have hrest : rest = [] := by
        cases rest with
        | nil => rfl
        | cons q more =>
          simp only [firstNearest] at hf
          split at hf
          · cases hf
          · split_ifs at hf
      simp only [hf, Option.some.injEq] at h
      subst h
      subst hrest
      exact ⟨[], [], rfl, fun p hp => absurd hp (List.not_mem_nil p),
        fun p hp => absurd hp (List.not_mem_nil p)⟩
    | some q =>
      obtain ⟨f, b, hl, hfr, hbk⟩ := ih q hf
      have hall : ∀ x ∈ rest, distance a q ≤ distance a x := by
        intro x hx
        rw [hl] at hx
        rcases List.mem_append.mp hx with hx | hx
        · exact le_of_lt (hfr x hx)
        · rcases List.mem_cons.mp hx with hx | hx
          · rw [hx]
          · exact hbk x hx
      simp only [hf] at h
      split_ifs at h with hpq
      · simp only [Option.some.injEq] at h
        subst h
        exact ⟨[], rest, rfl, fun x hx => absurd hx (List.not_mem_nil x),
          fun x hx => le_trans hpq (hall x hx)⟩
      · simp only [Option.some.injEq] at h
        subst h
        refine ⟨p :: f, b, by rw [hl]; rfl, ?_, hbk⟩
        intro x hx
        rcases List.mem_cons.mp hx with hx | hx
        · rw [hx]; exact not_le.mp hpq
        · exact hfr x hx

theorem getNearest_one {D K : Type} (lt : D → D → Prop) [DecidableRel lt] [LinearOrder K]
    (key : D → K) (distance : Park → Park → D)
    (catalog : Catalog) (trip : Trip) (a : Park) (front back : List Park) (block : Block)
    (hnd : (catalog.parks.map fun q => q.id).Nodup)
    (hlast : trip.parks.getLast? = some a)
    (hsplit : catalog.parks = front ++ a :: back) (hn : 2 ≤ catalog.count)
    (hblock : block 1 = none)
    (hkey : ∀ p ∈ catalog.parks, ∀ c ∈ catalog.parks,
      (lt (distance a p) (distance a c) ↔ key (distance a p) < key (distance a c))) :
    ∃ w, firstNearest (fun p q => key (distance p q)) a
          (catalog.parks.filter fun p => decide (p.id ≠ a.id)) = some w ∧
      getNearest lt distance catalog trip 1 block
        = .ok (.rows [(a, distance a a), (w, distance a w)]) := by
  have ha : a ∈ catalog.parks := by rw [hsplit]; simp
  have hne : catalog.parks ≠ [] := List.ne_nil_of_mem ha
  obtain ⟨p0, rest, hparks⟩ : ∃ p0 rest, catalog.parks = p0 :: rest := by
    cases h : catalog.parks with
    | nil => exact absurd h hne
    | cons p0 rest => exact ⟨p0, rest, rfl⟩
  have hcount : catalog.count = rest.length + 1 := by simp [Catalog.count, hparks]
  have hclamp : clampAmount catalog.count 1 = 1 := by
    have h1 : ¬ ((1 : Int) > (catalog.count : Int)) := by omega
    simp [clampAmount, h1]
  have hb : ∀ x, x < clampAmount catalog.count 1 → block (x + 1) = none := by
    intro x hx
    rw [hclamp] at hx
    have : x = 0 := by omega
    rw [this]
    exact hblock
  rw [getNearest_eq lt distance catalog trip 1 a block hlast hne (le_refl _) hb, hclamp,
    selectRounds_congr lt key distance a catalog.parks hkey]
  rw [hparks] at hnd hsplit ⊢
  have hinit : nearestOrder (fun p q => key (distance p q)) a (p0 :: rest)
      = [] ++ ((p0 :: rest).filter fun p =>
          decide (p.id ∉ a.id :: ([] : List Park).map fun q => q.id)).insertionSort
            (fun p q => key (distance a p) ≤ key (distance a q)) := by
    rw [nearestOrder, List.nil_append]
    congr 1
    apply List.filter_congr
    intro p _
    simp
  have hfree : front = [] ∨
      ∃ q ∈ front, q ∉ (nearestOrder (fun p q => key (distance p q)) a (p0 :: rest)).take
        (1 - 1) := by
    cases front with
    | nil => exact Or.inl rfl
    | cons q more => exact Or.inr ⟨q, List.mem_cons_self _ _, by simp⟩
  have hsel := selectRounds_nearest (fun p q => key (distance p q)) a p0 rest front back 1
    hnd hsplit (by omega) hfree 1 [] (by simp) hinit
  have hlen := selectRounds_length _ _ _ _ _ _ _ hsel
  rw [hsel]
  have hins : nearestOrder (fun p q => key (distance p q)) a (p0 :: rest)
      = match firstNearest (fun p q => key (distance p q)) a
            ((p0 :: rest).filter fun p => decide (p.id ≠ a.id)) with
        | none => []
        | some w => w :: (((p0 :: rest).filter fun p => decide (p.id ≠ a.id)).erase
            w).insertionSort (fun p q => key (distance a p) ≤ key (distance a q)) :=
    insertionSort_firstNearest (fun p q => key (distance p q)) a _
  rw [hins] at hlen ⊢
  cases hf : firstNearest (fun p q => key (distance p q)) a
      ((p0 :: rest).filter fun p => decide (p.id ≠ a.id)) with
  | none =>
    rw [hf] at hlen
    simp at hlen
  | some w =>
    refine ⟨w, rfl, ?_⟩
    simp [Outcome.andThen, rowsOf]

/-- C21, as the code has it: over a catalog of `n >= 2` parks with pairwise-distinct ids,
for every trip whose last entry `a` is a catalog park, whatever parks the trip holds before
it, when entry 1 of the block that `malloc` returns for the result list holds NULL and the
comparison `<` of the distances from `a` to the catalog parks is that of a linear order on
their keys (for doubles: none of these distances is NaN), `nearest 1` prints two rows: the
row of the anchor `a` itself and then the row of the park `w` that is, in the sequence of
the catalog parks other than `a` in catalog order, strictly nearer to `a` than every park
before it and at least as near as every park after it. -/
theorem getNearest_one_nearest {D K : Type} (lt : D → D → Prop) [DecidableRel lt]
    [LinearOrder K] (key : D → K) (distance : Park → Park → D)
    (catalog : Catalog) (trip : Trip) (a : Park) (front back : List Park) (block : Block)
    (hnd : (catalog.parks.map fun q => q.id).Nodup)
    (hlast : trip.parks.getLast? = some a)
    (hsplit : catalog.parks = front ++ a :: back) (hn : 2 ≤ catalog.count)
    (hblock : block 1 = none)
    (hkey : ∀ p ∈ catalog.parks, ∀ c ∈ catalog.parks,
      (lt (distance a p) (distance a c) ↔ key (distance a p) < key (distance a c))) :
    ∃ w f b, (catalog.parks.filter fun p => decide (p.id ≠ a.id)) = f ++ w :: b ∧
      (∀ p ∈ f, key (distance a w) < key (distance a p)) ∧
      (∀ p ∈ b, key (distance a w) ≤ key (distance a p)) ∧
      getNearest lt distance catalog trip 1 block
        = .ok (.rows [(a, distance a a), (w, distance a w)]) := by
  obtain ⟨w, hw, hrun⟩ := getNearest_one lt key distance catalog trip a front back block
    hnd hlast hsplit hn hblock hkey
  obtain ⟨f, b, hl, hfr, hbk⟩ := firstNearest_spec (fun p q => key (distance p q)) a _ w hw
  exact ⟨w, f, b, hl, hfr, hbk, hrun⟩

/-- Witness of C21 as the code has it: the sample catalog after `add 1`, `add 3`, on a
block of NULL entries, with the order of the rational numbers; the anchor is park 3 and
park 1 is in the trip as well. -/
theorem getNearest_one_nearest_witness :
    ((sampleCatalog.parks.map fun q => q.id).Nodup ∧
      (addParkToTrip sampleCatalog (addParkToTrip sampleCatalog makeTrip 1).1 3).1.parks.getLast?
        = some (mkPark 3 0 2) ∧
      sampleCatalog.parks = [mkPark 1 0 0, mkPark 2 0 1] ++ mkPark 3 0 2 :: [] ∧
      2 ≤ sampleCatalog.count ∧ nullBlock 1 = none) ∧
    ∃ w f b, (sampleCatalog.parks.filter fun p => decide (p.id ≠ (mkPark 3 0 2).id))
        = f ++ w :: b ∧
      (∀ p ∈ f, id (gridDistance (mkPark 3 0 2) w) < id (gridDistance (mkPark 3 0 2) p)) ∧
      (∀ p ∈ b, id (gridDistance (mkPark 3 0 2) w) ≤ id (gridDistance (mkPark 3 0 2) p)) ∧
      getNearest (· < ·) gridDistance sampleCatalog
          (addParkToTrip sampleCatalog (addParkToTrip sampleCatalog makeTrip 1).1 3).1 1
          nullBlock
        = .ok (.rows [(mkPark 3 0 2, gridDistance (mkPark 3 0 2) (mkPark 3 0 2)),
            (w, gridDistance (mkPark 3 0 2) w)]) :=
  ⟨⟨by decide, by decide, by decide, by decide, rfl⟩,
    getNearest_one_nearest (· < ·) id gridDistance sampleCatalog
      (addParkToTrip sampleCatalog (addParkToTrip sampleCatalog makeTrip 1).1 3).1
      (mkPark 3 0 2) [mkPark 1 0 0, mkPark 2 0 1] [] nullBlock (by decide) (by decide)
      (by decide) (by decide) rfl (fun _ _ _ _ => Iff.rfl)⟩

/-- C21 as stated fails on its own example: over the sample catalog, after `add 1` and
`add 3`, on a block of NULL entries, `nearest 1` prints two rows, the anchor park 3 with
its distance from itself and then park 2 with its distance from park 3; the report is not
the single row of park 2. -/
theorem getNearest_one_nearest_counterexample :
    getNearest (· < ·) gridDistance sampleCatalog
        (addParkToTrip sampleCatalog (addParkToTrip sampleCatalog makeTrip 1).1 3).1 1
        nullBlock
      = .ok (.rows [(mkPark 3 0 2, gridDistance (mkPark 3 0 2) (mkPark 3 0 2)),
          (mkPark 2 0 1, gridDistance (mkPark 3 0 2) (mkPark 2 0 1))]) ∧
    getNearest (· < ·) gridDistance sampleCatalog
        (addParkToTrip sampleCatalog (addParkToTrip sampleCatalog makeTrip 1).1 3).1 1
        nullBlock
      ≠ .ok (.rows [(mkPark 2 0 1, gridDistance (mkPark 3 0 2) (mkPark 2 0 1))]) := by
  obtain ⟨w, hw, hrun⟩ := getNearest_one (· < ·) id gridDistance sampleCatalog
    (addParkToTrip sampleCatalog (addParkToTrip sampleCatalog makeTrip 1).1 3).1
    (mkPark 3 0 2) [mkPark 1 0 0, mkPark 2 0 1] [] nullBlock (by decide) (by decide)
    (by decide) (by decide) rfl (fun _ _ _ _ => Iff.rfl)
  have hfil : (sampleCatalog.parks.filter fun p => decide (p.id ≠ (mkPark 3 0 2).id))
      = [mkPark 1 0 0, mkPark 2 0 1] := by decide
  have hd : ¬ gridDistance (mkPark 3 0 2) (mkPark 1 0 0)
      ≤ gridDistance (mkPark 3 0 2) (mkPark 2 0 1) := by
    norm_num [gridDistance, mkPark]
  rw [hfil] at hw
  simp only [firstNearest, id, hd, if_false, Option.some.injEq] at hw
  subst hw
  rw [hrun]
  refine ⟨rfl, ?_⟩
  intro h
  simp only [Outcome.ok.injEq, NearestReport.rows.injEq, List.cons.injEq, and_false,
    reduceCtorEq] at h

/-! ## getNearest: the accesses to nearestList stay inside the array -/

theorem readSlot_getElem (nl : Slots) (x : Nat) (h : x < nl.length) :
    readSlot nl x = .ok (nl.get ⟨x, h⟩) := by
  simp [readSlot, List.getElem?_eq_getElem h]

theorem slotAt_getElem (nl : Slots) (x : Nat) (h : x < nl.length) :
    slotAt nl x = nl.get ⟨x, h⟩ := by
  simp [slotAt, List.getElem?_eq_getElem h]

theorem readSlot_eq (nl : Slots) (x : Nat) (h : x < nl.length) :
    readSlot nl x = .ok (slotAt nl x) := by
  rw [readSlot_getElem nl x h, slotAt_getElem nl x h]

theorem skipLoopChecked_eq (parks : List Park) (nl : Slots) (amount : Nat)
    (h : amount < nl.length) (fuel j x : Nat) :
    skipLoopChecked parks nl amount fuel j x = skipLoop parks nl amount fuel j x := by
  induction fuel generalizing j x with
  | zero => rfl
  | succ fuel ih =>
    simp only [skipLoopChecked, skipLoop]
    split_ifs with hx
    · rw [readSlot_eq nl x (by omega)]
      simp only [Outcome.andThen]
      cases slotAt nl x with
      | none => rfl
      | some q =>
        cases parks[j]? with
        | none => rfl
        | some p => simp only [ih]
    · rfl

theorem inListLoopChecked_eq (p : Park) (nl : Slots) (n y : Nat) (acc : Bool)
    (h : y + n ≤ nl.length) :
    inListLoopChecked p nl n y acc = .ok (inListLoop p ((nl.drop y).take n) acc) := by
  induction n generalizing y acc with
  | zero => simp [inListLoopChecked, inListLoop]
  | succ n ih =>
    have hy : y < nl.length := by omega
    have hd : nl.drop y = nl.get ⟨y, hy⟩ :: nl.drop (y + 1) := List.drop_eq_getElem_cons hy
    rw [inListLoopChecked, readSlot_getElem nl y hy, hd, List.take_succ_cons]
    simp only [Outcome.andThen]
    cases nl.get ⟨y, hy⟩ with
    | none => rfl
    | some q =>
      simp only [inListLoop]
      exact ih (y + 1) _ (by omega)

theorem considerParkChecked_eq {D : Type} (lt : D → D → Prop) [DecidableRel lt]
    (distance : Park → Park → D)
    (i : Nat) (p : Park) (nl : Slots) (h : i < nl.length) :
    considerParkChecked lt distance i p nl = considerPark lt distance i p nl := by
  have h0 : 0 < nl.length := by omega
  simp only [considerParkChecked, considerPark]
  rw [inListLoopChecked_eq p nl i 0 false (by omega), readSlot_eq nl 0 h0, readSlot_eq nl i h]
  simp only [Outcome.andThen, List.drop_zero]
  cases slotAt nl 0 with
  | none => rfl
  | some a =>
    cases slotAt nl i with
    | none => rfl
    | some c =>
      simp only [writeSlot, h, if_true]

theorem considerPark_slots {D : Type} (lt : D → D → Prop) [DecidableRel lt]
    (distance : Park → Park → D)
    (i : Nat) (p : Park) (nl nl1 : Slots) (hi : 1 ≤ i)
    (h : considerPark lt distance i p nl = .ok nl1) :
    nl1.length = nl.length ∧ nl1[0]? = nl[0]? := by
  simp only [considerPark] at h
  split at h
  · split_ifs at h
    · simp only [Outcome.ok.injEq] at h
      subst h
      exact ⟨List.length_set _ _ _, by rw [List.getElem?_set_ne (by omega)]⟩
    · simp only [Outcome.ok.injEq] at h
      subst h
      exact ⟨rfl, rfl⟩
  · cases h

theorem scanCatalog_slots {D : Type} (lt : D → D → Prop) [DecidableRel lt]
    (distance : Park → Park → D)
    (parks : List Park) (amount i : Nat) (hi : 1 ≤ i) (fuel j : Nat) (nl nl1 : Slots)
    (h : scanCatalog lt distance parks amount i fuel j nl = .ok nl1) :
    nl1.length = nl.length ∧ nl1[0]? = nl[0]? := by
  induction fuel generalizing j nl with
  | zero => cases h
  | succ fuel ih =>
    have htail : ∀ (j1 : Nat) (nl0 : Slots),
        (match parks[j1]? with
          | none => Outcome.fault (.catalogRead j1)
          | some p =>
            (considerPark lt distance i p nl0).andThen fun nl2 =>
              scanCatalog lt distance parks amount i fuel (j1 + 1) nl2) = .ok nl1 →
        nl1.length = nl0.length ∧ nl1[0]? = nl0[0]? := by
      intro j1 nl0 h1
      cases hp : parks[j1]? with
      | none => rw [hp] at h1; cases h1
      | some p =>
        rw [hp] at h1
        simp only at h1
        cases hc : considerPark lt distance i p nl0 with
        | fault f => rw [hc] at h1; cases h1
        | fuel => rw [hc] at h1; cases h1
        | ok nl2 =>
          rw [hc] at h1
          obtain ⟨l1, z1⟩ := considerPark_slots lt distance i p nl0 nl2 hi hc
          obtain ⟨l2, z2⟩ := ih (j1 + 1) nl2 h1
          exact ⟨l2.trans l1, z2.trans z1⟩
    simp only [scanCatalog] at h
    split_ifs at h with hj h0
    · cases hs : skipLoop parks nl amount ((parks.length + 1) * (amount + 2)) j 0 with
      | fault f => rw [hs] at h; cases h
      | fuel => rw [hs] at h; cases h
      | ok j1 =>
        rw [hs] at h
        simp only [Outcome.andThen] at h
        cases hp : parks[j1]? with
        | none => rw [hp] at h; cases h
        | some p =>
          rw [hp] at h
          obtain ⟨l1, z1⟩ := htail j1 (nl.set i (some p)) h
          exact ⟨l1.trans (List.length_set _ _ _),
            z1.trans (by rw [List.getElem?_set_ne (by omega)])⟩
    · exact htail j nl h
    · simp only [Outcome.ok.injEq] at h
      subst h
      exact ⟨rfl, rfl⟩

theorem scanCatalogChecked_eq {D : Type} (lt : D → D → Prop) [DecidableRel lt]
    (distance : Park → Park → D)
    (parks : List Park) (amount i : Nat) (hi : 1 ≤ i) (fuel j : Nat) (nl : Slots)
    (ha : amount < nl.length) (hil : i < nl.length) :
    scanCatalogChecked lt distance parks amount i fuel j nl
      = scanCatalog lt distance parks amount i fuel j nl := by
  induction fuel generalizing j nl with
  | zero => rfl
  | succ fuel ih =>
    have htail : ∀ (j1 : Nat) (nl0 : Slots), amount < nl0.length → i < nl0.length →
        (match parks[j1]? with
          | none => Outcome.fault (.catalogRead j1)
          | some p =>
            (considerParkChecked lt distance i p nl0).andThen fun nl2 =>
              scanCatalogChecked lt distance parks amount i fuel (j1 + 1) nl2)
        = (match parks[j1]? with
          | none => Outcome.fault (.catalogRead j1)
          | some p =>
            (considerPark lt distance i p nl0).andThen fun nl2 =>
              scanCatalog lt distance parks amount i fuel (j1 + 1) nl2) := by
      intro j1 nl0 ha0 hi0
      cases parks[j1]? with
      | none => rfl
      | some p =>
        simp only
        rw [considerParkChecked_eq lt distance i p nl0 hi0]
        cases hc : considerPark lt distance i p nl0 with
        | fault f => rfl
        | fuel => rfl
        | ok nl2 =>
          obtain ⟨l1, _⟩ := considerPark_slots lt distance i p nl0 nl2 hi hc
          simp only [Outcome.andThen]
          exact ih (j1 + 1) nl2 (by omega) (by omega)
    simp only [scanCatalogChecked, scanCatalog]
    split_ifs with hj h0
    · rw [skipLoopChecked_eq parks nl amount ha]
      cases skipLoop parks nl amount ((parks.length + 1) * (amount + 2)) j 0 with
      | fault f => rfl
      | fuel => rfl
      | ok j1 =>
        simp only [Outcome.andThen]
        cases hp : parks[j1]? with
        | none => rfl
        | some p =>
          have := htail j1 (nl.set i (some p)) (by rw [List.length_set]; exact ha)
            (by rw [List.length_set]; exact hil)
          simp only [hp, Outcome.andThen] at this
          simp only [writeSlot, hil, if_true, hp, Outcome.andThen]
          exact this
    · simp only [Outcome.andThen]
      exact htail j nl ha hil
    · rfl

theorem rounds_slots {D : Type} (lt : D → D → Prop) [DecidableRel lt]
    (distance : Park → Park → D)
    (parks : List Park) (amount n i : Nat) (hi : 1 ≤ i) (nl nl1 : Slots)
    (h : rounds lt distance parks amount n i nl = .ok nl1) :
    nl1.length = nl.length ∧ nl1[0]? = nl[0]? := by
  induction n generalizing i nl with
  | zero =>
    simp only [rounds, Outcome.ok.injEq] at h
    subst h
    exact ⟨rfl, rfl⟩
  | succ n ih =>
    simp only [rounds] at h
    cases hs : scanCatalog lt distance parks amount i (parks.length + 1) 0 nl with
    | fault f => rw [hs] at h; cases h
    | fuel => rw [hs] at h; cases h
    | ok nl2 =>
      rw [hs] at h
      obtain ⟨l1, z1⟩ := scanCatalog_slots lt distance parks amount i hi _ _ nl nl2 hs
      obtain ⟨l2, z2⟩ := ih (i + 1) (by omega) nl2 h
      exact ⟨l2.trans l1, z2.trans z1⟩

theorem roundsChecked_eq {D : Type} (lt : D → D → Prop) [DecidableRel lt]
    (distance : Park → Park → D)
    (parks : List Park) (amount n i : Nat) (hi : 1 ≤ i) (nl : Slots)
    (ha : amount < nl.length) (hin : i + n ≤ nl.length) :
    roundsChecked lt distance parks amount n i nl = rounds lt distance parks amount n i nl := by
  induction n generalizing i nl with
  | zero => rfl
  | succ n ih =>
    simp only [roundsChecked, rounds]
    rw [scanCatalogChecked_eq lt distance parks amount i hi _ _ nl ha (by omega)]
    cases hs : scanCatalog lt distance parks amount i (parks.length + 1) 0 nl with
    | fault f => rfl
    | fuel => rfl
    | ok nl2 =>
      obtain ⟨l1, _⟩ := scanCatalog_slots lt distance parks amount i hi _ _ nl nl2 hs
      simp only [Outcome.andThen]
      exact ih (i + 1) (by omega) nl2 (by omega) (by omega)

theorem printLoopChecked_eq {D : Type} (distance : Park → Park → D) (anchor : Park)
    (nl : Slots) (h0 : nl[0]? = some (some anchor)) (n i : Nat) (h : i + n = nl.length) :
    printLoopChecked distance nl n i = printRows distance anchor (nl.drop i) := by
  have hpos : 0 < nl.length := by
    cases nl with
    | nil => simp at h0
    | cons e rest => simp
  have hr0 : readSlot nl 0 = .ok (some anchor) := by
    simp [readSlot, h0]
  induction n generalizing i with
  | zero =>
    rw [List.drop_of_length_le (by omega)]
    rfl
  | succ n ih =>
    have hi : i < nl.length := by omega
    have hd : nl.drop i = nl.get ⟨i, hi⟩ :: nl.drop (i + 1) := List.drop_eq_getElem_cons hi
    rw [printLoopChecked, readSlot_getElem nl i hi, hr0, hd]
    simp only [Outcome.andThen]
    cases nl.get ⟨i, hi⟩ with
    | none => rfl
    | some p =>
      simp only [printRows]
      rw [ih (i + 1) (by omega)]
      rfl

/-- The tests of `getNearestChecked` never fail: on every input it has the result of
`getNearest`. -/
theorem getNearestChecked_eq {D : Type} (lt : D → D → Prop) [DecidableRel lt]
    (distance : Park → Park → D)
    (catalog : Catalog) (trip : Trip) (amount : Int) (block : Block) :
    getNearestChecked lt distance catalog trip amount block
      = getNearest lt distance catalog trip amount block := by
  simp only [getNearestChecked, getNearest]
  by_cases h1 : amount ≤ 0 ∨ trip.count = 0
  · simp only [h1, if_true]
  · simp only [h1, if_false]
    cases trip.parks.getLast? with
    | none => rfl
    | some anchor =>
      simp only
      by_cases h2 : (if amount > (catalog.count : Int) then (catalog.count : Int) - 1
          else amount) + 1 ≤ 0
      · simp only [h2, if_true]
      · simp only [h2, if_false]
        generalize (if amount > (catalog.count : Int) then (catalog.count : Int) - 1
          else amount).toNat = m
        have hw : writeSlot ((List.range (m + 1)).map block) 0 anchor
            = .ok (initialSlots anchor m block) := by
          simp [writeSlot, initialSlots, List.range_succ_eq_map, List.map_map,
            Function.comp_def]
        have hlen : (initialSlots anchor m block).length = m + 1 := by
          simp [initialSlots]
        rw [hw]
        simp only [Outcome.andThen]
        rw [roundsChecked_eq lt distance catalog.parks m m 1 (le_refl _) _
          (by rw [hlen]; omega) (by rw [hlen]; omega)]
        cases hr : rounds lt distance catalog.parks m m 1 (initialSlots anchor m block) with
        | fault f => rfl
        | fuel => rfl
        | ok nl1 =>
          obtain ⟨l1, z1⟩ := rounds_slots lt distance catalog.parks m m 1 (le_refl _) _ nl1 hr
          simp only
          rw [printLoopChecked_eq distance anchor nl1 (by rw [z1]; simp [initialSlots])
            (m + 1) 0 (by rw [l1, hlen]; simp), List.drop_zero]

/-- C24: over a catalog of `n` parks with pairwise-distinct ids, for every trip with a last
entry and every `k` with `1 <= k < n`, when the entries `1..k` of `nearestList` hold NULL
before they are written, getNearest runs to its end and prints `k + 1` rows, also when
every read and write of an entry of `nearestList` is tested against the `k + 1` entries of
the array: no iteration budget is exhausted (the loop over `x` stops in every round), no
catalog entry outside `0..n-1` is read, no entry of `nearestList` outside `0..k` is read or
written, and no NULL entry is dereferenced, whatever the comparison of the distances
gives. -/
theorem getNearest_total {D : Type} (lt : D → D → Prop) [DecidableRel lt]
    (distance : Park → Park → D)
    (catalog : Catalog) (trip : Trip) (k : Int) (a : Park) (block : Block)
    (hnd : (catalog.parks.map fun q => q.id).Nodup)
    (hlast : trip.parks.getLast? = some a)
    (hk : 1 ≤ k) (hkn : k < (catalog.count : Int))
    (hblock : ∀ x : Nat, 1 ≤ x → (x : Int) ≤ k → block x = none) :
    ∃ rs, getNearestChecked lt distance catalog trip k block = .ok (.rows rs) ∧
      getNearest lt distance catalog trip k block = .ok (.rows rs) ∧
      (rs.length : Int) = k + 1 := by
  obtain ⟨p0, rest, hparks⟩ : ∃ p0 rest, catalog.parks = p0 :: rest := by
    cases h : catalog.parks with
    | nil => simp [Catalog.count, h] at hkn; omega
    | cons p0 rest => exact ⟨p0, rest, rfl⟩
  have hne : catalog.parks ≠ [] := by rw [hparks]; exact List.cons_ne_nil _ _
  have hcount : catalog.count = rest.length + 1 := by simp [Catalog.count, hparks]
  have hclamp : clampAmount catalog.count k = k.toNat := by
    have h1 : ¬ (k > (catalog.count : Int)) := by omega
    simp [clampAmount, h1]
  rw [getNearestChecked_eq, getNearest_eq lt distance catalog trip k a block hlast hne hk
    (fun x hx => hblock (x + 1) (by omega) (by rw [hclamp] at hx; omega)), hclamp]
  rw [hparks] at hnd ⊢
  obtain ⟨sel1, hsel, hlen⟩ := selectRounds_ok lt distance a p0 rest hnd k.toNat []
    (by simp only [List.length_nil]; omega)
  rw [hsel]
  refine ⟨rowsOf distance a sel1, rfl, rfl, ?_⟩
  simp only [rowsOf, List.length_cons, List.length_map, hlen, List.length_nil]
  omega

/-- Witness of C24: `nearest 2` with the trip 1, 3 over the sample catalog of 3 parks, on a
block of NULL entries. -/
theorem getNearest_total_witness :
    ((sampleCatalog.parks.map fun q => q.id).Nodup ∧
      (Trip.mk [mkPark 1 0 0, mkPark 3 0 2] 5).parks.getLast? = some (mkPark 3 0 2) ∧
      (1 : Int) ≤ 2 ∧ (2 : Int) < (sampleCatalog.count : Int) ∧
      ∀ x : Nat, 1 ≤ x → (x : Int) ≤ 2 → nullBlock x = none) ∧
    ∃ rs, getNearestChecked (· < ·) gridDistance sampleCatalog
          (Trip.mk [mkPark 1 0 0, mkPark 3 0 2] 5) 2 nullBlock
        = .ok (.rows rs) ∧
      getNearest (· < ·) gridDistance sampleCatalog (Trip.mk [mkPark 1 0 0, mkPark 3 0 2] 5) 2
          nullBlock
        = .ok (.rows rs) ∧
      (rs.length : Int) = 2 + 1 :=
  ⟨⟨by decide, rfl, by decide, by decide, fun _ _ _ => rfl⟩,
    getNearest_total (· < ·) gridDistance sampleCatalog (Trip.mk [mkPark 1 0 0, mkPark 3 0 2] 5) 2
      (mkPark 3 0 2) nullBlock (by decide) rfl (by decide) (by decide) (fun _ _ _ => rfl)⟩

end Parks
